import Mathlib

/-!
Verification of the `uniondiff` directory-difference tool.

This file gives a shallow embedding of the core of `uniondiff`
(`src/uniondiff/differ.py`, `src/uniondiff/output_overlay.py`,
`src/uniondiff/output_aufs.py`, `src/uniondiff/filelib.py`,
`src/uniondiff/filelib_tar.py`, `src/uniondiff/osshim.py`) and proves the
behavioural properties stated in the specification about it.

Sources are modelled as finite trees (`FsTree`); the differ is the state
function `diffDirs` producing the sequence of sink calls (`Event`); the
overlay/AUFS sinks are call transformers; the tar adapter is a fold over
the member list mirroring `TarFileLoader`; the positional reader is
`fmRead`.  Machine integers are modelled as `Nat` (all the quantities
involved are non-negative and no arithmetic here can overflow in the
Python source, which has arbitrary-precision integers anyway).
-/

/-- `StatInfo` of `uniondiff/filelib.py`: the uniform metadata record. -/
structure StatInfo where
  mode : Nat
  uid : Nat
  gid : Nat
  size : Nat
  mtime : Int
  rdev : Nat
deriving DecidableEq, Repr

/-- `stat.S_IFMT`: the file-type nibble of a mode word. -/
def S_IFMT (m : Nat) : Nat := m &&& 0o170000

/-- `stat.S_ISREG`. -/
def S_ISREG (m : Nat) : Bool := S_IFMT m == 0o100000

/-- `stat.S_ISDIR`. -/
def S_ISDIR (m : Nat) : Bool := S_IFMT m == 0o040000

/-- `stat.S_ISLNK`. -/
def S_ISLNK (m : Nat) : Bool := S_IFMT m == 0o120000

/-- `stat.S_ISCHR`. -/
def S_ISCHR (m : Nat) : Bool := S_IFMT m == 0o020000

/-- `stat.S_ISBLK`. -/
def S_ISBLK (m : Nat) : Bool := S_IFMT m == 0o060000

/-- `FAILED_STAT` of `uniondiff/differ.py`: sentinel stat used when an
input could not be read. -/
def FAILED_STAT : StatInfo := ⟨0o777, 0, 0, 0, 0, 0⟩

/-- `DifferOptions` of `uniondiff/differ.py`. -/
structure DifferOptions where
  output_uid : Option Nat
  output_gid : Option Nat
  scrub_mtime : Bool
  input_error_strict : Bool
  output_error_strict : Bool
deriving DecidableEq, Repr

/-- The default `DifferOptions()`. -/
def DifferOptions.default : DifferOptions := ⟨none, none, true, true, true⟩

/-- `DifferOptions.stats_filter`: replace uid/gid when overridden and
scrub the mtime when requested. -/
def DifferOptions.stats_filter (o : DifferOptions) (x : StatInfo) : StatInfo :=
  ⟨x.mode,
   match o.output_uid with | some u => u | none => x.uid,
   match o.output_gid with | some g => g | none => x.gid,
   x.size,
   if o.scrub_mtime then 0 else x.mtime,
   x.rdev⟩

/-- `DifferOptions.stats_differ`: `true` when the two stats differ for
diffing purposes.  Follows the Python line by line. -/
def DifferOptions.stats_differ (o : DifferOptions) (x0 y0 : StatInfo) : Bool :=
  let x := o.stats_filter x0
  let y := o.stats_filter y0
  if x.uid ≠ y.uid then true
  else if x.gid ≠ y.gid then true
  else if x.mode ≠ y.mode then true
  else if (S_ISREG x.mode || S_ISLNK x.mode) && x.size ≠ y.size then true
  else if (S_ISCHR x.mode || S_ISBLK x.mode) && x.rdev ≠ y.rdev then true
  else false

/-! ## POSIX path helpers (`uniondiff/osshim.py`, i.e. `posixpath`) -/

/-- `posixpath.join(a, b)` for a single extra component, as used by the
differ and the sinks. -/
def posixJoin (a b : String) : String :=
  if b.data.head? = some '/' then b
  else if a.data = [] ∨ a.data.getLast? = some '/' then a ++ b
  else a ++ "/" ++ b

/-- Characters of the tail of `posixpath.split(p)`, reversed:
everything after the final slash. -/
def splitTailR (p : String) : List Char := p.data.reverse.takeWhile (fun c => c != '/')

/-- Characters of the raw head of `posixpath.split(p)` (before the
trailing-slash strip), reversed. -/
def splitHeadR (p : String) : List Char := p.data.reverse.dropWhile (fun c => c != '/')

/-- `posixpath.split(p)`: split at the final slash; the head keeps no
trailing slashes unless it consists only of slashes. -/
def posixSplit (p : String) : String × String :=
  (⟨if (splitHeadR p).any (fun c => c != '/') then
      ((splitHeadR p).dropWhile (fun c => c == '/')).reverse
    else (splitHeadR p).reverse⟩,
   ⟨(splitTailR p).reverse⟩)

/-- `posixpath.basename(p)`: the part after the final slash. -/
def posixBasename (p : String) : String := (posixSplit p).2

/-- `posixpath.dirname(p)`. -/
def posixDirname (p : String) : String := (posixSplit p).1

theorem splitTailR_length_add (p : String) :
    (splitTailR p).length + (splitHeadR p).length = p.length := by
  have h := congrArg List.length (List.takeWhile_append_dropWhile (fun c => c != '/') p.data.reverse)
  rw [List.length_append] at h
  simpa [splitTailR, splitHeadR] using h

theorem posixSplit_head_length_le (p : String) : (posixSplit p).1.length ≤ p.length := by
  have h := splitTailR_length_add p
  show (if (splitHeadR p).any (fun c => c != '/') then
      ((splitHeadR p).dropWhile (fun c => c == '/')).reverse
    else (splitHeadR p).reverse).length ≤ p.length
  split
  · have : ((splitHeadR p).dropWhile (fun c => c == '/')).length ≤ (splitHeadR p).length :=
      (List.dropWhile_sublist _).length_le
    simp only [List.length_reverse]
    omega
  · simp only [List.length_reverse]
    omega

theorem posixSplit_head_length_lt (p : String) (h : (posixSplit p).2 ≠ "") :
    (posixSplit p).1.length < p.length := by
  have hsum := splitTailR_length_add p
  have htl : (splitTailR p).length ≠ 0 := by
    intro hz
    apply h
    apply String.ext
    show (splitTailR p).reverse = ([] : List Char)
    simpa using List.length_eq_zero.mp hz
  show (if (splitHeadR p).any (fun c => c != '/') then
      ((splitHeadR p).dropWhile (fun c => c == '/')).reverse
    else (splitHeadR p).reverse).length < p.length
  split
  · have : ((splitHeadR p).dropWhile (fun c => c == '/')).length ≤ (splitHeadR p).length :=
      (List.dropWhile_sublist _).length_le
    simp only [List.length_reverse]
    omega
  · simp only [List.length_reverse]
    omega

theorem posixSplit_tail_no_slash (p : String) : '/' ∉ (posixSplit p).2.data := by
  intro hmem
  have h1 : ('/' : Char) ∈ splitTailR p := by
    have : (posixSplit p).2.data = (splitTailR p).reverse := rfl
    rw [this] at hmem
    simpa using hmem
  have := List.mem_takeWhile_imp h1
  simp at this

/-- `str.split('/')` on character lists, as used by `posixpath.normpath`. -/
def splitSep : List Char → List (List Char)
  | [] => [[]]
  | c :: rest =>
    if c = '/' then [] :: splitSep rest
    else
      match splitSep rest with
      | comp :: comps => (c :: comp) :: comps
      | [] => [[c]]

/-- One step of `posixpath.normpath`'s component loop. -/
def normStep (initialSlashes : Nat) (acc : List (List Char)) (comp : List Char) :
    List (List Char) :=
  if comp = [] ∨ comp = ['.'] then acc
  else if comp ≠ ['.', '.'] ∨ (initialSlashes = 0 ∧ acc = [])
      ∨ (acc ≠ [] ∧ acc.getLast? = some ['.', '.']) then acc ++ [comp]
  else if acc ≠ [] then acc.dropLast
  else acc

/-- `posixpath.normpath`. -/
def posixNorm (p : String) : String :=
  if p = "" then "." else
  let d := p.data
  let isl : Nat :=
    if d.head? = some '/' then
      (if d.take 2 = ['/', '/'] ∧ d.take 3 ≠ ['/', '/', '/'] then 2 else 1)
    else 0
  let comps := (splitSep d).foldl (normStep isl) []
  let full := List.replicate isl '/' ++ List.intercalate ['/'] comps
  if full = [] then "." else ⟨full⟩

/-- `_norm_name` of `uniondiff/filelib_tar.py`: normalised form of a tar
member name, always starting with a leading slash. -/
def normName (name : String) : String := posixNorm (posixJoin "/" name)

example : normName "a/b" = "/a/b" := by decide
example : normName "./a" = "/a" := by decide
example : normName "." = "/" := by decide
example : normName "a/" = "/a" := by decide

theorem takeWhile_append_of_all {p : Char → Bool} (l1 l2 : List Char)
    (h : ∀ a ∈ l1, p a) : (l1 ++ l2).takeWhile p = l1 ++ l2.takeWhile p := by
  induction l1 with
  | nil => simp
  | cons a l ih =>
    simp only [List.cons_append, List.takeWhile_cons]
    rw [if_pos (h a (by simp)), ih (fun x hx => h x (by simp [hx]))]

/-- If what follows the last slash boundary of `x ++ b` is exactly `b`
(no slash inside `b`, and `x` empty or ending in a slash), the basename
of the concatenation is `b`. -/
theorem posixBasename_append (x b : String) (hb : '/' ∉ b.data)
    (hx : x.data = [] ∨ x.data.getLast? = some '/') : posixBasename (x ++ b) = b := by
  apply String.ext
  show (splitTailR (x ++ b)).reverse = b.data
  have hdata : (x ++ b).data = x.data ++ b.data := String.data_append x b
  have hrev : (x ++ b).data.reverse = b.data.reverse ++ x.data.reverse := by
    rw [hdata, List.reverse_append]
  have hall : ∀ a ∈ b.data.reverse, (a != '/') = true := by
    intro a ha
    have : a ∈ b.data := by simpa using ha
    simp only [bne_iff_ne, ne_eq]
    intro hEq
    exact hb (hEq ▸ this)
  unfold splitTailR
  rw [hrev, takeWhile_append_of_all _ _ hall]
  rcases hx with hx | hx
  · simp [hx]
  · have : x.data.reverse.head? = some '/' := by rw [List.head?_reverse, hx]
    rcases hrx : x.data.reverse with _ | ⟨c, rest⟩
    · simp [hrx] at this
    · rw [hrx] at this
      simp only [List.head?_cons, Option.some_inj] at this
      rw [List.takeWhile_cons, if_neg (by simp [this])]
      simp

/-! ## Diff sinks (`uniondiff/output_overlay.py`, `uniondiff/output_aufs.py`)

A sink method is modelled as a function from its arguments to
`Except Unit (List BackendCall)`: the list of calls it forwards to the
wrapped backend, or an error when it raises `UnionDiffOutputException`.
-/

/-- A call forwarded to the wrapped `OutputBackend`. -/
inductive BackendCall where
  | write_dir (path : String) (st : StatInfo)
  | write_file (path : String) (st : StatInfo) (content : List Nat)
  | write_symlink (path : String) (st : StatInfo) (linkname : String)
  | write_other (path : String) (st : StatInfo)
deriving DecidableEq, Repr

/-- The overlay whiteout record: char device 0:0, mode `0o444`,
owned by `whiteout_uid:whiteout_gid = 0:0`. -/
def overlayWhiteoutStat : StatInfo := ⟨0o20000 ||| 0o444, 0, 0, 0, 0, 0⟩

/-- `DiffOutputOverlay.delete_marker`: writes the whiteout char device
through `self.backend.write_other` (note: not through its own guarded
`write_other`). -/
def overlayDeleteMarker (p : String) : Except Unit (List BackendCall) :=
  .ok [.write_other p overlayWhiteoutStat]

/-- `DiffOutputOverlay.write_other`: refuses spurious whiteouts
(char device with `rdev == 0`), otherwise forwards. -/
def overlayWriteOther (p : String) (st : StatInfo) : Except Unit (List BackendCall) :=
  if S_ISCHR st.mode && st.rdev == 0 then .error ()
  else .ok [.write_other p st]

/-- `DiffOutputAufs.WHITEOUT_PREFIX`. -/
def whPrefixStr : String := ".wh."

/-- `DiffOutputAufs.is_whiteout_path`: basename starts with `.wh.`. -/
def isWhiteoutPath (p : String) : Bool :=
  List.isPrefixOf whPrefixStr.data (posixBasename p).data

/-- The AUFS whiteout record: empty regular file, mode `0o444`, 0:0. -/
def aufsWhiteoutStat : StatInfo := ⟨0o100000 ||| 0o444, 0, 0, 0, 0, 0⟩

/-- `DiffOutputAufs.delete_marker`: writes an empty `.wh.<name>` regular
file through `self.backend.write_file` (not through its own guarded
`write_file`). -/
def aufsDeleteMarker (p : String) : Except Unit (List BackendCall) :=
  .ok [.write_file (posixJoin (posixSplit p).1 (whPrefixStr ++ (posixSplit p).2))
        aufsWhiteoutStat []]

/-- `DiffOutputAufs.write_file`: refuses paths that look like whiteouts,
otherwise forwards. -/
def aufsWriteFile (p : String) (st : StatInfo) (content : List Nat) :
    Except Unit (List BackendCall) :=
  if isWhiteoutPath p then .error ()
  else .ok [.write_file p st content]

theorem isWhiteoutPath_of_delete (p : String) :
    isWhiteoutPath (posixJoin (posixSplit p).1 (whPrefixStr ++ (posixSplit p).2)) = true := by
  have hb : '/' ∉ (whPrefixStr ++ (posixSplit p).2).data := by
    rw [String.data_append]
    intro hmem
    rcases List.mem_append.mp hmem with h | h
    · simp [whPrefixStr] at h
    · exact posixSplit_tail_no_slash p h
  have hbase : posixBasename (posixJoin (posixSplit p).1 (whPrefixStr ++ (posixSplit p).2))
      = whPrefixStr ++ (posixSplit p).2 := by
    unfold posixJoin
    rw [if_neg (by
      rw [String.data_append]
      simp [whPrefixStr])]
    split
    · rename_i hcase
      exact posixBasename_append _ _ hb hcase
    · rename_i hcase
      have : (posixSplit p).1 ++ "/" ++ (whPrefixStr ++ (posixSplit p).2)
          = ((posixSplit p).1 ++ "/") ++ (whPrefixStr ++ (posixSplit p).2) := by
        rw [String.append_assoc]
      rw [this]
      apply posixBasename_append _ _ hb
      right
      rw [String.data_append]
      simp
  unfold isWhiteoutPath
  rw [hbase]
  rw [String.data_append]
  simp [List.isPrefixOf_iff_prefix]

/-! ## Positional reader (`uniondiff/filelib.py`, `FileManagerReader.read`)

The open file is a byte list; `os.pread(fd, n, offset)` returns a
non-empty prefix of the remaining bytes (capped at `n`) unless the
offset is at or past end-of-file, in which case it returns the empty
string — the POSIX contract for regular files.  The `oracle` list
supplies the size the operating system chooses to hand back on each
successive call, modelling arbitrary short reads. -/

/-- One `os.pread(fd, n, offset)` call: at least one byte when data
remains and `n > 0`, never more than `n`, empty exactly at EOF. -/
def osPread (file : List Nat) (offset n k : Nat) : List Nat :=
  (file.drop offset).take (min n (max 1 k))

/-- The `while n > 0` retry loop of `FileManagerReader.read`, returning
the concatenation of the parts it accumulates. -/
def readRetry (file : List Nat) (offset n : Nat) (oracle : List Nat) : List Nat :=
  if n = 0 then []
  else
    let r := osPread file offset n (oracle.headD n)
    if hr : r = [] then []
    else r ++ readRetry file (offset + r.length) (n - r.length) oracle.tail
termination_by n
decreasing_by
  have h1 : 0 < (osPread file offset n (oracle.headD n)).length := List.length_pos.mpr hr
  omega

/-- `FileManagerReader.read(n)`: first positional read, fast path when
it is complete or at EOF, otherwise the retry loop. -/
def fmRead (file : List Nat) (offset n : Nat) (oracle : List Nat) : List Nat :=
  let r := osPread file offset n (oracle.headD n)
  if r = [] ∨ n - r.length = 0 then r
  else r ++ readRetry file (offset + r.length) (n - r.length) oracle.tail

theorem osPread_take (file : List Nat) (offset n k : Nat) :
    osPread file offset n k = (file.drop offset).take (min n (max 1 k)) := rfl

theorem readRetry_eq (file : List Nat) : ∀ (n : Nat) (offset : Nat) (oracle : List Nat),
    readRetry file offset n oracle = (file.drop offset).take n := by
  intro n
  induction n using Nat.strong_induction_on with
  | _ n ih =>
    intro offset oracle
    rw [readRetry]
    by_cases hn : n = 0
    · simp [hn]
    · rw [if_neg hn]
      set L := file.drop offset with hL
      set m := min n (max 1 (oracle.headD n)) with hm
      have hm1 : 1 ≤ m := by
        have : 1 ≤ max 1 (oracle.headD n) := le_max_left _ _
        omega
      have hmn : m ≤ n := min_le_left _ _
      by_cases hr : osPread file offset n (oracle.headD n) = []
      · rw [dif_pos hr]
        have : L.take m = [] := hr
        have hL0 : L = [] := by
          rcases L with _ | ⟨a, L'⟩
          · rfl
          · exfalso
            rcases Nat.exists_eq_add_of_le hm1 with ⟨j, hj⟩
            rw [hj] at this
            simp [List.take_succ_cons] at this
        rw [hL0]
        simp
      · rw [dif_neg hr]
        have hrr : osPread file offset n (oracle.headD n) = L.take m := rfl
        set r := osPread file offset n (oracle.headD n) with hrdef
        have hlen : r.length = min m L.length := by rw [hrr, List.length_take]
        have hpos : 0 < r.length := List.length_pos.mpr hr
        have hltn : n - r.length < n := by omega
        rw [ih _ hltn]
        have hdd : file.drop (offset + r.length) = L.drop r.length := by
          rw [hL, List.drop_drop]
        rw [hdd]
        have htk : L.take m = L.take (min m L.length) := by
          rcases le_total m L.length with hc | hc
          · rw [min_eq_left hc]
          · rw [min_eq_right hc, List.take_of_length_le hc, List.take_of_length_le le_rfl]
        have hr_as_take : r = L.take r.length := by
          rw [hlen, hrr]
          exact htk
        calc r ++ (L.drop r.length).take (n - r.length)
            = L.take r.length ++ (L.take n).drop r.length := by
              rw [← hr_as_take, List.drop_take]
          _ = (L.take n).take r.length ++ (L.take n).drop r.length := by
              rw [List.take_take, min_eq_left (by omega)]
          _ = L.take n := List.take_append_drop _ _

theorem fmRead_eq (file : List Nat) (offset n : Nat) (oracle : List Nat) (hn : 0 < n) :
    fmRead file offset n oracle = (file.drop offset).take n := by
  rw [fmRead]
  set L := file.drop offset with hL
  set m := min n (max 1 (oracle.headD n)) with hm
  have hm1 : 1 ≤ m := by
    have : 1 ≤ max 1 (oracle.headD n) := le_max_left _ _
    omega
  have hmn : m ≤ n := min_le_left _ _
  have hrr : osPread file offset n (oracle.headD n) = L.take m := rfl
  set r := osPread file offset n (oracle.headD n) with hrdef
  have hlen : r.length = min m L.length := by rw [hrr, List.length_take]
  have htk : L.take m = L.take (min m L.length) := by
    rcases le_total m L.length with hc | hc
    · rw [min_eq_left hc]
    · rw [min_eq_right hc, List.take_of_length_le hc, List.take_of_length_le le_rfl]
  have hr_as_take : r = L.take r.length := by
    rw [hlen, hrr]
    exact htk
  by_cases hfast : r = [] ∨ n - r.length = 0
  · rw [if_pos hfast]
    rcases hfast with hfast | hfast
    · have : L.take m = [] := by rw [← hrr, hfast]
      have hL0 : L = [] := by
        rcases L with _ | ⟨a, L'⟩
        · rfl
        · exfalso
          rcases Nat.exists_eq_add_of_le hm1 with ⟨j, hj⟩
          rw [hj] at this
          simp [List.take_succ_cons] at this
      rw [hfast, hL0]
      simp
    · have hlenn : r.length = n := by omega
      rw [hr_as_take, hlenn]
  · rw [if_neg hfast]
    push_neg at hfast
    obtain ⟨hr, hrem⟩ := hfast
    rw [readRetry_eq]
    have hdd : file.drop (offset + r.length) = L.drop r.length := by
      rw [hL, List.drop_drop]
    rw [hdd]
    calc r ++ (L.drop r.length).take (n - r.length)
        = L.take r.length ++ (L.take n).drop r.length := by
          rw [← hr_as_take, List.drop_take]
      _ = (L.take n).take r.length ++ (L.take n).drop r.length := by
          rw [List.take_take, min_eq_left (by omega)]
      _ = L.take n := List.take_append_drop _ _

/-! ## Tar adapter (`uniondiff/filelib_tar.py`)

`TarFileLoader` indexes a tar archive: `info` maps each normalised
member path to its `TarInfo` (or to the shared
`MISSING_DIRECTORY_TARINFO` sentinel for synthesised intermediate
directories), `children` maps each parent path to its child edges.
Python dictionaries are modelled as association lists with CPython
semantics: updating an existing key keeps its position, inserting a new
key appends. -/

/-- Tar member type flags (`tarfile.REGTYPE`, ... ); `unsupported`
covers every flag outside `_MODE_MAPPING` (e.g. hard links). -/
inductive TarType where
  | reg
  | sym
  | dir
  | fifo
  | chr
  | blk
  | unsupported
deriving DecidableEq, Repr

/-- `_MODE_MAPPING` of `uniondiff/filelib_tar.py`. -/
def modeMapping : TarType → Option Nat
  | .reg => some 0o100000
  | .sym => some 0o120000
  | .dir => some 0o040000
  | .fifo => some 0o010000
  | .chr => some 0o020000
  | .blk => some 0o060000
  | .unsupported => none

/-- The fields of a `tarfile.TarInfo` object the adapter reads. -/
structure PyTarInfo where
  name : String
  mode : Nat
  uid : Nat
  gid : Nat
  size : Nat
  mtime : Int
  typ : TarType
  linkname : String
  devmajor : Nat
  devminor : Nat
deriving DecidableEq, Repr

/-- `tarfile.TarInfo()` with CPython's defaults: empty name, mode
`0o644`, uid/gid 0, size 0, mtime 0, type `REGTYPE`.  This is
`TarFileLoader.MISSING_DIRECTORY_TARINFO`. -/
def missingDirectoryTarinfo : PyTarInfo := ⟨"", 0o644, 0, 0, 0, 0, .reg, "", 0, 0⟩

/-- An `info` dictionary value, distinguishing (by identity, as the
Python `is` check does) the shared sentinel from real members. -/
inductive TarEntry where
  | real (ti : PyTarInfo)
  | missingDir
deriving DecidableEq, Repr

/-- The `TarInfo` object a `TarEntry` stands for. -/
def TarEntry.ti : TarEntry → PyTarInfo
  | .real t => t
  | .missingDir => missingDirectoryTarinfo

/-- `os.makedev` as shimmed in `uniondiff/osshim.py`. -/
def makedev (major minor : Nat) : Nat := major <<< 8 ||| minor

/-- `TarManagerBase.stat`: `None` models the `OSError` raised on an
unsupported member type. -/
def tarEntryStat (e : TarEntry) : Option StatInfo :=
  match modeMapping e.ti.typ with
  | none => none
  | some fmtBits =>
    some ⟨fmtBits ||| e.ti.mode, e.ti.uid, e.ti.gid, e.ti.size, e.ti.mtime,
          makedev e.ti.devmajor e.ti.devminor⟩

/-- `TarDirectoryManager.exists_in_archive`:
`self.ti is not self.loader.MISSING_DIRECTORY_TARINFO`. -/
def tarEntryExists : TarEntry → Bool
  | .real _ => true
  | .missingDir => false

/-- Association-list lookup: first binding wins (there is at most one
binding per key throughout). -/
def dictFind {β : Type} : List (String × β) → String → Option β
  | [], _ => none
  | (k, v) :: rest, key => if k = key then some v else dictFind rest key

/-- CPython dict assignment `d[k] = v`: update in place or append. -/
def dictPut {β : Type} (k : String) (v : β) : List (String × β) → List (String × β)
  | [] => [(k, v)]
  | (k', v') :: rest => if k' = k then (k', v) :: rest else (k', v') :: dictPut k v rest

/-- The state built by `TarFileLoader.__init__`. -/
structure LoaderState where
  info : List (String × TarEntry)
  children : List (String × List (String × PyTarInfo))
deriving DecidableEq, Repr

/-- `self.children[parent_path].append((filename, ti))` on the
defaultdict. -/
def addChild (s : LoaderState) (parent filename : String) (ti : PyTarInfo) : LoaderState :=
  match dictFind s.children parent with
  | some lst => ⟨s.info, dictPut parent (lst ++ [(filename, ti)]) s.children⟩
  | none => ⟨s.info, dictPut parent [(filename, ti)] s.children⟩

/-- The `while filename:` walk of `TarFileLoader.__init__`, registering
the member as a child of its parent and synthesising missing
intermediate directories up to the first already-known ancestor. -/
def walkUp (s : LoaderState) (parent filename : String) (ti : PyTarInfo) : LoaderState :=
  if filename = "" then s
  else
    if (dictFind (addChild s parent filename ti).info parent).isSome then
      addChild s parent filename ti
    else
      walkUp ⟨dictPut parent .missingDir (addChild s parent filename ti).info,
              (addChild s parent filename ti).children⟩
        (posixSplit parent).1 (posixSplit parent).2 ti
termination_by parent.length + (if filename = "" then 0 else 1)
decreasing_by
  have hf : ¬ filename = "" := by assumption
  rw [if_neg hf]
  by_cases ht : (posixSplit parent).2 = ""
  · rw [if_pos ht]
    have := posixSplit_head_length_le parent
    omega
  · rw [if_neg ht]
    have := posixSplit_head_length_lt parent ht
    omega

/-- Processing of one member inside the `for ti in tf.getmembers()`
loop. -/
def processMember (s : LoaderState) (ti : PyTarInfo) : LoaderState :=
  let path := normName ti.name
  let s1 : LoaderState := ⟨dictPut path (.real ti) s.info, s.children⟩
  walkUp s1 (posixSplit path).1 (posixSplit path).2 ti

/-- `TarFileLoader.__init__` over the archive's member list. -/
def loadTar (members : List PyTarInfo) : LoaderState :=
  members.foldl processMember ⟨[], []⟩

/-- The chain of parents obtained by iterating `posixpath.split`, i.e.
exactly the paths the loader's walk visits above a member. -/
def walkAncestors (p : String) : List String :=
  if (posixSplit p).2 = "" then []
  else (posixSplit p).1 :: walkAncestors (posixSplit p).1
termination_by p.length
decreasing_by
  rename_i ht
  exact posixSplit_head_length_lt p ht

/-- `TarManagerBase.__init__` + `.stat` for the handle at `name`:
outer `none` is the `FileNotFoundError` when the path is not indexed,
inner `none` the `OSError` on an unsupported member type. -/
def tarManagerStat (s : LoaderState) (name : String) : Option (Option StatInfo) :=
  (dictFind s.info name).map tarEntryStat

/-- `TarDirectoryManager.exists_in_archive` for the handle at `name`. -/
def tarManagerExists (s : LoaderState) (name : String) : Option Bool :=
  (dictFind s.info name).map tarEntryExists

theorem dictFind_dictPut_self {β : Type} (d : List (String × β)) (k : String) (v : β) :
    dictFind (dictPut k v d) k = some v := by
  induction d with
  | nil =>
    show (if k = k then some v else none) = some v
    rw [if_pos rfl]
  | cons kv rest ih =>
    obtain ⟨k', v'⟩ := kv
    by_cases h : k' = k
    · show dictFind (if k' = k then (k', v) :: rest else (k', v') :: dictPut k v rest) k = some v
      rw [if_pos h]
      show (if k' = k then some v else dictFind rest k) = some v
      rw [if_pos h]
    · show dictFind (if k' = k then (k', v) :: rest else (k', v') :: dictPut k v rest) k = some v
      rw [if_neg h]
      show (if k' = k then some v' else dictFind (dictPut k v rest) k) = some v
      rw [if_neg h]
      exact ih

theorem dictFind_dictPut_other {β : Type} (d : List (String × β)) (k q : String) (v : β)
    (h : q ≠ k) : dictFind (dictPut k v d) q = dictFind d q := by
  induction d with
  | nil =>
    show (if k = q then some v else none) = none
    rw [if_neg (fun hh => h hh.symm)]
  | cons kv rest ih =>
    obtain ⟨k', v'⟩ := kv
    by_cases h1 : k' = k
    · show dictFind (if k' = k then (k', v) :: rest else (k', v') :: dictPut k v rest) q
        = dictFind ((k', v') :: rest) q
      rw [if_pos h1]
      have hk'q : ¬ k' = q := by
        rw [h1]
        exact fun hh => h hh.symm
      show (if k' = q then some v else dictFind rest q)
        = (if k' = q then some v' else dictFind rest q)
      rw [if_neg hk'q, if_neg hk'q]
    · show dictFind (if k' = k then (k', v) :: rest else (k', v') :: dictPut k v rest) q
        = dictFind ((k', v') :: rest) q
      rw [if_neg h1]
      show (if k' = q then some v' else dictFind (dictPut k v rest) q)
        = (if k' = q then some v' else dictFind rest q)
      rw [ih]

theorem addChild_info (s : LoaderState) (parent filename : String) (ti : PyTarInfo) :
    (addChild s parent filename ti).info = s.info := by
  unfold addChild
  split <;> rfl

/-- The parent paths the loader's walk visits, mirroring `walkUp`. -/
def walkChain (parent filename : String) : List String :=
  if filename = "" then []
  else parent :: walkChain (posixSplit parent).1 (posixSplit parent).2
termination_by parent.length + (if filename = "" then 0 else 1)
decreasing_by
  have hf : ¬ filename = "" := by assumption
  rw [if_neg hf]
  by_cases ht : (posixSplit parent).2 = ""
  · rw [if_pos ht]
    have := posixSplit_head_length_le parent
    omega
  · rw [if_neg ht]
    have := posixSplit_head_length_lt parent ht
    omega

theorem walkAncestors_eq_walkChain (p : String) :
    walkAncestors p = walkChain (posixSplit p).1 (posixSplit p).2 := by
  induction p using walkAncestors.induct with
  | case1 x h =>
    rw [walkAncestors, if_pos h, walkChain, if_pos h]
  | case2 x h ih =>
    rw [walkAncestors, if_neg h, walkChain, if_neg h, ih]

theorem walkChain_shorter (parent filename : String) :
    ∀ q ∈ walkChain parent filename, q.length ≤ parent.length := by
  induction parent, filename using walkChain.induct with
  | case1 parent =>
    rw [walkChain, if_pos rfl]
    simp
  | case2 parent filename h ih =>
    rw [walkChain, if_neg h]
    intro q hq
    rcases List.mem_cons.mp hq with rfl | hq
    · exact le_rfl
    · exact le_trans (ih q hq) (posixSplit_head_length_le _)

theorem walkChain_closed (parent filename : String) :
    ∀ q ∈ walkChain parent filename, ∀ a ∈ walkAncestors q, a ∈ walkChain parent filename := by
  induction parent, filename using walkChain.induct with
  | case1 parent =>
    rw [walkChain, if_pos rfl]
    simp
  | case2 parent filename h ih =>
    rw [walkChain, if_neg h]
    intro q hq a ha
    rcases List.mem_cons.mp hq with rfl | hq
    · right
      rw [walkAncestors_eq_walkChain] at ha
      exact ha
    · right
      exact ih q hq a ha

theorem walkUp_preserves (s : LoaderState) (parent filename : String) (ti : PyTarInfo)
    (q : String) (v : TarEntry) (h : dictFind s.info q = some v) :
    dictFind (walkUp s parent filename ti).info q = some v := by
  induction s, parent, filename, ti using walkUp.induct with
  | case1 s parent ti =>
    rw [walkUp, if_pos rfl]
    exact h
  | case2 s parent filename ti hf hfound =>
    rw [walkUp, if_neg hf, if_pos hfound]
    rw [addChild_info]
    exact h
  | case3 s parent filename ti hf hfound ih =>
    rw [walkUp, if_neg hf, if_neg hfound]
    apply ih
    show dictFind (dictPut parent .missingDir (addChild s parent filename ti).info) q = some v
    rw [addChild_info] at hfound ⊢
    have hqp : q ≠ parent := by
      intro hEq
      rw [hEq] at h
      simp [h] at hfound
    rw [dictFind_dictPut_other _ _ _ _ hqp]
    exact h

theorem walkUp_changes (s : LoaderState) (parent filename : String) (ti : PyTarInfo)
    (q : String) :
    dictFind (walkUp s parent filename ti).info q = dictFind s.info q
    ∨ (q ∈ walkChain parent filename
       ∧ dictFind (walkUp s parent filename ti).info q = some .missingDir) := by
  induction s, parent, filename, ti using walkUp.induct with
  | case1 s parent ti =>
    rw [walkUp, if_pos rfl]
    left
    rfl
  | case2 s parent filename ti hf hfound =>
    rw [walkUp, if_neg hf, if_pos hfound, addChild_info]
    left
    rfl
  | case3 s parent filename ti hf hfound ih =>
    rw [walkUp, if_neg hf, if_neg hfound]
    rcases ih with heq | ⟨hmem, hmiss⟩
    · rw [heq]
      show dictFind (dictPut parent .missingDir (addChild s parent filename ti).info) q
          = dictFind s.info q ∨ _
      by_cases hq : q = parent
      · right
        constructor
        · rw [walkChain, if_neg hf]
          exact hq ▸ List.mem_cons_self _ _
        · show dictFind (dictPut parent .missingDir (addChild s parent filename ti).info) q
              = some .missingDir
          rw [hq, dictFind_dictPut_self]
      · left
        rw [dictFind_dictPut_other _ _ _ _ hq, addChild_info]
    · right
      constructor
      · rw [walkChain, if_neg hf]
        exact List.mem_cons_of_mem _ hmem
      · exact hmiss

theorem walkUp_covers (s : LoaderState) (parent filename : String) (ti : PyTarInfo) :
    ∀ q ∈ walkChain parent filename,
      (dictFind (walkUp s parent filename ti).info q).isSome
      ∨ ∃ b, (dictFind s.info b).isSome ∧ b ∈ walkChain parent filename
          ∧ q ∈ walkAncestors b := by
  induction s, parent, filename, ti using walkUp.induct with
  | case1 s parent ti =>
    rw [walkChain, if_pos rfl]
    simp
  | case2 s parent filename ti hf hfound =>
    rw [walkChain, if_neg hf]
    intro q hq
    rw [walkUp, if_neg hf, if_pos hfound, addChild_info]
    rw [addChild_info] at hfound
    rcases List.mem_cons.mp hq with rfl | hq
    · left
      exact hfound
    · right
      refine ⟨parent, hfound, ?_, ?_⟩
      · exact List.mem_cons_self _ _
      · rw [walkAncestors_eq_walkChain]
        exact hq
  | case3 s parent filename ti hf hfound ih =>
    rw [walkChain, if_neg hf]
    intro q hq
    rw [walkUp, if_neg hf, if_neg hfound]
    rcases List.mem_cons.mp hq with rfl | hq
    · left
      have hself : dictFind (dictPut q .missingDir (addChild s q filename ti).info) q
          = some .missingDir := dictFind_dictPut_self _ _ _
      have := walkUp_preserves ⟨dictPut q .missingDir (addChild s q filename ti).info,
        (addChild s q filename ti).children⟩ (posixSplit q).1 (posixSplit q).2 ti q _ hself
      rw [this]
      rfl
    · rcases ih q hq with hleft | ⟨b, hbsome, hbmem, hqanc⟩
      · left
        exact hleft
      · have hblen : b.length ≤ (posixSplit parent).1.length := walkChain_shorter _ _ b hbmem
      -- `b` is strictly shorter than `parent`, hence distinct from it
        have hbp : b ≠ parent := by
          intro hEq
          have hq2 : (posixSplit parent).2 ≠ "" := by
            intro hturn
            rw [walkChain, if_pos hturn] at hbmem
            exact absurd hbmem (List.not_mem_nil b)
          have := posixSplit_head_length_lt parent hq2
          rw [hEq] at hblen
          omega
        right
        refine ⟨b, ?_, List.mem_cons_of_mem _ hbmem, hqanc⟩
        have : dictFind (⟨dictPut parent .missingDir (addChild s parent filename ti).info,
            (addChild s parent filename ti).children⟩ : LoaderState).info b
            = dictFind s.info b := by
          show dictFind (dictPut parent .missingDir (addChild s parent filename ti).info) b
              = dictFind s.info b
          rw [dictFind_dictPut_other _ _ _ _ hbp, addChild_info]
        rw [this] at hbsome
        exact hbsome

/-- The loader's `info` dictionary is closed under taking parents. -/
def LoaderClosure (s : LoaderState) : Prop :=
  ∀ q, (dictFind s.info q).isSome → ∀ a ∈ walkAncestors q, (dictFind s.info a).isSome

/-- Every `real` entry of `info` sits at the normalised path of one of
the processed members. -/
def LoaderRealOnly (processed : List PyTarInfo) (s : LoaderState) : Prop :=
  ∀ q ti, dictFind s.info q = some (.real ti) → normName ti.name = q ∧ ti ∈ processed

/-- Every parent of a processed member's path is indexed. -/
def LoaderCoverage (processed : List PyTarInfo) (s : LoaderState) : Prop :=
  ∀ m ∈ processed, ∀ a ∈ walkAncestors (normName m.name), (dictFind s.info a).isSome

theorem processMember_inv (s : LoaderState) (m : PyTarInfo) (processed : List PyTarInfo)
    (hc : LoaderClosure s) (hr : LoaderRealOnly processed s)
    (hcov : LoaderCoverage processed s) :
    LoaderClosure (processMember s m) ∧ LoaderRealOnly (processed ++ [m]) (processMember s m)
    ∧ LoaderCoverage (processed ++ [m]) (processMember s m) := by
  have hres : processMember s m
      = walkUp ⟨dictPut (normName m.name) (.real m) s.info, s.children⟩
          (posixSplit (normName m.name)).1 (posixSplit (normName m.name)).2 m := rfl
  set path := normName m.name with hpath
  set s1 : LoaderState := ⟨dictPut path (.real m) s.info, s.children⟩ with hs1
  set hd := (posixSplit path).1 with hhd
  set tl := (posixSplit path).2 with htl
  have hs1find : ∀ q, dictFind s1.info q
      = if q = path then some (.real m) else dictFind s.info q := by
    intro q
    by_cases hq : q = path
    · rw [if_pos hq, hq]
      exact dictFind_dictPut_self _ _ _
    · rw [if_neg hq]
      exact dictFind_dictPut_other _ _ _ _ hq
  -- lift a binding of `s` (or `s1`) to the final state
  have hlift1 : ∀ q v, dictFind s1.info q = some v
      → dictFind (processMember s m).info q = some v := by
    intro q v hqv
    rw [hres]
    exact walkUp_preserves _ _ _ _ _ _ hqv
  have hliftS : ∀ q, (dictFind s.info q).isSome
      → (dictFind (processMember s m).info q).isSome := by
    intro q hq
    by_cases hqp : q = path
    · rw [hlift1 q (.real m) (by rw [hs1find, if_pos hqp])]
      rfl
    · rcases Option.isSome_iff_exists.mp hq with ⟨v, hv⟩
      rw [hlift1 q v (by rw [hs1find, if_neg hqp]; exact hv)]
      rfl
  -- every path on the walk chain is indexed afterwards
  have hcover : ∀ q ∈ walkChain hd tl, (dictFind (processMember s m).info q).isSome := by
    intro q hq
    have hne : tl ≠ "" := by
      intro h0
      rw [walkChain, if_pos h0] at hq
      exact absurd hq (List.not_mem_nil q)
    have hhdlt : hd.length < path.length := posixSplit_head_length_lt path hne
    rcases walkUp_covers s1 hd tl m q hq with hsome | ⟨b, hbsome, hbmem, hqanc⟩
    · rw [hres]
      exact hsome
    · have hbpath : b ≠ path := by
        intro hEq
        have := walkChain_shorter hd tl b hbmem
        rw [hEq] at this
        omega
      have hbs : (dictFind s.info b).isSome := by
        rw [hs1find, if_neg hbpath] at hbsome
        exact hbsome
      exact hliftS q (hc b hbs q hqanc)
  have hchain : walkAncestors path = walkChain hd tl := walkAncestors_eq_walkChain path
  have hchanges : ∀ q, dictFind (processMember s m).info q = dictFind s1.info q
      ∨ (q ∈ walkChain hd tl
         ∧ dictFind (processMember s m).info q = some .missingDir) := by
    intro q
    rw [hres]
    exact walkUp_changes _ _ _ _ _
  refine ⟨?_, ?_, ?_⟩
  · -- closure
    intro q hq a ha
    rcases hchanges q with heq | ⟨hmem, _⟩
    · rw [heq, hs1find] at hq
      by_cases hqp : q = path
      · apply hcover
        rw [← hchain]
        rw [hqp] at ha
        exact ha
      · rw [if_neg hqp] at hq
        exact hliftS a (hc q hq a ha)
    · exact hcover a (walkChain_closed hd tl q hmem a ha)
  · -- real entries
    intro q ti hq
    rcases hchanges q with heq | ⟨_, hmiss⟩
    · rw [heq, hs1find] at hq
      by_cases hqp : q = path
      · rw [if_pos hqp] at hq
        have hm : ti = m := by
          injection hq with h1
          injection h1 with h2
          exact h2.symm
        subst hm
        exact ⟨hqp.symm, by simp⟩
      · rw [if_neg hqp] at hq
        obtain ⟨h1, h2⟩ := hr q ti hq
        exact ⟨h1, by simp [h2]⟩
    · rw [hq] at hmiss
      exact absurd hmiss (by simp)
  · -- coverage
    intro m' hm' a ha
    rcases List.mem_append.mp hm' with hm' | hm'
    · exact hliftS a (hcov m' hm' a ha)
    · have : m' = m := by simpa using hm'
      subst this
      apply hcover
      rw [← hchain]
      exact ha

theorem loadTar_fold_inv (rest : List PyTarInfo) :
    ∀ (s : LoaderState) (processed : List PyTarInfo),
    LoaderClosure s → LoaderRealOnly processed s → LoaderCoverage processed s →
    LoaderClosure (rest.foldl processMember s)
    ∧ LoaderRealOnly (processed ++ rest) (rest.foldl processMember s)
    ∧ LoaderCoverage (processed ++ rest) (rest.foldl processMember s) := by
  induction rest with
  | nil =>
    intro s processed hc hr hcov
    simpa using ⟨hc, hr, hcov⟩
  | cons m rest ih =>
    intro s processed hc hr hcov
    obtain ⟨hc', hr', hcov'⟩ := processMember_inv s m processed hc hr hcov
    have := ih (processMember s m) (processed ++ [m]) hc' hr' hcov'
    simpa using this

theorem loadTar_inv (ms : List PyTarInfo) :
    LoaderClosure (loadTar ms) ∧ LoaderRealOnly ms (loadTar ms)
    ∧ LoaderCoverage ms (loadTar ms) := by
  have h0c : LoaderClosure ⟨[], []⟩ := by
    intro q hq
    simp [dictFind] at hq
  have h0r : LoaderRealOnly [] ⟨[], []⟩ := by
    intro q ti hq
    simp [dictFind] at hq
  have h0cov : LoaderCoverage [] ⟨[], []⟩ := by
    intro m hm
    simp at hm
  have := loadTar_fold_inv ms ⟨[], []⟩ [] h0c h0r h0cov
  simpa [loadTar] using this

/-- Core of the synthetic-directory behaviour: a path that the loader
walked over (a parent of some member) but that no member occupies is
indexed with the `MISSING_DIRECTORY_TARINFO` sentinel. -/
theorem loadTar_synthesized (ms : List PyTarInfo) (p : String)
    (hanc : ∃ m ∈ ms, p ∈ walkAncestors (normName m.name))
    (hmem : ∀ m ∈ ms, normName m.name ≠ p) :
    dictFind (loadTar ms).info p = some .missingDir := by
  obtain ⟨hc, hr, hcov⟩ := loadTar_inv ms
  obtain ⟨m, hm, hp⟩ := hanc
  have hsome := hcov m hm p hp
  rcases Option.isSome_iff_exists.mp hsome with ⟨v, hv⟩
  cases v with
  | real ti =>
    obtain ⟨hname, hin⟩ := hr p ti hv
    exact absurd hname (hmem ti hin)
  | missingDir => exact hv

/-! ## The differ (`uniondiff/differ.py`)

Sources are modelled as finite trees: a node is a directory (with its
listing, in listing order), a regular file (with its byte contents) or
any other object (with its symlink target, compared only when the mode
says symlink).  This represents an error-free source: every stat,
listing, open and read succeeds, which is the premise of the
functional-correctness claims.  The differ is a state function over the
pending-directory stack and the sequence of sink calls made so far. -/

/-- `DirEntryType` of `uniondiff/differ.py`. -/
inductive DirEntryType where
  | directory
  | regular_file
  | other
deriving DecidableEq, Repr

/-- A source tree node. -/
inductive FsTree where
  | dir (st : StatInfo) (children : List (String × FsTree))
  | file (st : StatInfo) (content : List Nat)
  | other (st : StatInfo) (linkname : String)

/-- The handle's (cached) stat. -/
def statOf : FsTree → StatInfo
  | .dir st _ => st
  | .file st _ => st
  | .other st _ => st

/-- Directory listing (empty for non-directories). -/
def childrenOf : FsTree → List (String × FsTree)
  | .dir _ ch => ch
  | _ => []

/-- Regular-file contents. -/
def contentOf : FsTree → List Nat
  | .file _ c => c
  | _ => []

/-- Symlink target. -/
def linknameOf : FsTree → String
  | .other _ ln => ln
  | _ => ""

/-- `_dir_entry_type`: the classification of a directory entry. -/
def kindOf : FsTree → DirEntryType
  | .dir _ _ => .directory
  | .file _ _ => .regular_file
  | .other _ _ => .other

/-- One call made on the `DiffOutput` sink. -/
inductive Event where
  | write_dir (path : String) (st : StatInfo)
  | write_file (path : String) (st : StatInfo) (content : List Nat)
  | write_symlink (path : String) (st : StatInfo) (linkname : String)
  | write_other (path : String) (st : StatInfo)
  | delete_marker (path : String)
deriving DecidableEq, Repr

/-- The path argument of a sink call. -/
def Event.path : Event → String
  | .write_dir p _ => p
  | .write_file p _ _ => p
  | .write_symlink p _ _ => p
  | .write_other p _ => p
  | .delete_marker p => p

/-- The differ's mutable state: `_dir_pending` plus the sink-call trace. -/
structure DiffState where
  pending : List (String × StatInfo)
  output : List Event
deriving Repr

/-- `Differ._flush_pending`. -/
def flushPending (o : DifferOptions) (s : DiffState) : DiffState :=
  ⟨[], s.output ++ s.pending.map (fun pv => Event.write_dir pv.1 (o.stats_filter pv.2))⟩

/-- Record one sink call. -/
def appendEvent (e : Event) (s : DiffState) : DiffState :=
  ⟨s.pending, s.output ++ [e]⟩

mutual

/-- One more than the number of directory levels below a node: how
many nested recursive activations (of `_insert_dir` as of `_diff_dirs`)
this subtree needs. -/
def heightTree : FsTree → Nat
  | .dir _ ch => 1 + heightChildren ch
  | .file _ _ => 1
  | .other _ _ => 1

def heightChildren : List (String × FsTree) → Nat
  | [] => 0
  | (_, t) :: rest => max (heightTree t) (heightChildren rest)

end

/-- The child loop of `Differ._insert_dir`; `ins` is the recursive
insert call (tied below in `insertTree`). -/
def insertChildrenGo (ins : String → FsTree → DiffState → DiffState)
    (o : DifferOptions) (path : String) :
    List (String × FsTree) → DiffState → DiffState
  | [], s => s
  | (name, t) :: rest, s =>
    insertChildrenGo ins o path rest (ins (posixJoin path name) t s)

/-- `Differ._insert_dir` / `_insert_file` / `_insert_other`, dispatched
on the entry type exactly as the Python code does, with an explicit
recursion-depth budget (always sufficient: see `insertTree`). -/
def insertTreeF : Nat → DifferOptions → String → FsTree → DiffState → DiffState
  | 0, _, _, _, s => s
  | fuel+1, o, path, t, s =>
    match t with
    | .dir st ch =>
      insertChildrenGo (insertTreeF fuel o) o path ch
        (appendEvent (.write_dir path (o.stats_filter st)) (flushPending o s))
    | .file st c =>
      appendEvent (.write_file path (o.stats_filter st) c) (flushPending o s)
    | .other st ln =>
      if S_ISLNK st.mode then
        appendEvent (.write_symlink path (o.stats_filter st) ln) (flushPending o s)
      else
        appendEvent (.write_other path (o.stats_filter st)) (flushPending o s)

/-- `Differ._insert_*` with the (always sufficient) depth budget of its
argument. -/
def insertTree (o : DifferOptions) (path : String) (t : FsTree) (s : DiffState) : DiffState :=
  insertTreeF (heightTree t) o path t s

/-- `CHUNK_SIZE = 2**16` of `Differ._diff_files`. -/
def CHUNK_SIZE : Nat := 65536

/-- The chunked content-comparison loop of `Differ._diff_files`, on an
error-free pair of readers: returns `true` when the two byte streams
differ. -/
def chunkDiffers (a b : List Nat) : Bool :=
  if a.take CHUNK_SIZE ≠ b.take CHUNK_SIZE then true
  else if a.take CHUNK_SIZE = [] then false
  else chunkDiffers (a.drop CHUNK_SIZE) (b.drop CHUNK_SIZE)
termination_by a.length
decreasing_by
  rename_i hne hnil
  have ha : a ≠ [] := by
    intro h0
    rw [h0] at hnil
    simp at hnil
  have : 0 < a.length := List.length_pos.mpr ha
  rw [List.length_drop]
  have : CHUNK_SIZE > 0 := by norm_num [CHUNK_SIZE]
  omega

/-- `Differ._diff_files` on error-free sources. -/
def diffFiles (o : DifferOptions) (path : String) (merged lower : FsTree)
    (s : DiffState) : DiffState :=
  if o.stats_differ (statOf merged) (statOf lower) then insertTree o path merged s
  else if chunkDiffers (contentOf merged) (contentOf lower) then insertTree o path merged s
  else s

/-- The linkname the differ reads: only symlinks are dereferenced. -/
def linknameGuard (t : FsTree) : String :=
  if S_ISLNK (statOf t).mode then linknameOf t else ""

/-- `Differ._diff_other` on error-free sources. -/
def diffOther (o : DifferOptions) (path : String) (merged lower : FsTree)
    (s : DiffState) : DiffState :=
  if !(o.stats_differ (statOf merged) (statOf lower))
      && (!(S_ISLNK (statOf merged).mode) || (linknameGuard merged == linknameGuard lower))
  then s
  else insertTree o path merged s

/-- `dict.pop(name, None)`: the bound value and the dictionary without
the binding. -/
def dictPop (k : String) : List (String × DirEntryType)
    → Option DirEntryType × List (String × DirEntryType)
  | [] => (none, [])
  | (k', v') :: rest =>
    if k' = k then (some v', rest)
    else ((dictPop k rest).1, (k', v') :: (dictPop k rest).2)

/-- The `lower_map` dict comprehension of `Differ._diff_dirs`. -/
def lowerMapOf (ch : List (String × FsTree)) : List (String × DirEntryType) :=
  ch.foldl (fun m nt => dictPut nt.1 (kindOf nt.2) m) []

/-- `DirectoryManager.child_dir(name)` on the tree model (the fallback
value is irrelevant: the differ only uses it when `name` was listed). -/
def childDir (ch : List (String × FsTree)) (n : String) : FsTree :=
  (dictFind ch n).getD (.dir FAILED_STAT [])

/-- `DirectoryManager.child_file(name)` on the tree model. -/
def childFile (ch : List (String × FsTree)) (n : String) : FsTree :=
  (dictFind ch n).getD (.file FAILED_STAT [])

/-- `DirectoryManager.child_path(name)` on the tree model. -/
def childPath (ch : List (String × FsTree)) (n : String) : FsTree :=
  (dictFind ch n).getD (.other FAILED_STAT "")

theorem statInfo_sizeOf_pos (st : StatInfo) : 0 < sizeOf st := by
  cases st
  simp_arith

theorem childrenOf_sizeOf_lt (t : FsTree) : sizeOf (childrenOf t) < sizeOf t := by
  cases t with
  | dir st ch =>
    simp [childrenOf] <;> omega
  | file st c =>
    have := statInfo_sizeOf_pos st
    simp [childrenOf]
    omega
  | other st ln =>
    have := statInfo_sizeOf_pos st
    simp [childrenOf]
    omega

/-- Steps 1-3 of `Differ._diff_dirs`: push `(archive_path, merged_stat)`
onto the pending stack and flush at once when the directory stats
differ. -/
def diffPush (o : DifferOptions) (path : String) (mstat lstat : StatInfo)
    (s : DiffState) : DiffState :=
  if o.stats_differ mstat lstat then
    flushPending o ⟨s.pending ++ [(path, mstat)], s.output⟩
  else ⟨s.pending ++ [(path, mstat)], s.output⟩

/-- The lower map after the merged-entry loop has popped every merged
name, in order.  `Differ._diff_dirs` mutates one dictionary in place;
since `dictPop` is pure and the loop pops exactly the merged names in
listing order whatever else it does, the leftover dictionary is this
independent fold of the same pops. -/
def remainingMap (entries : List (String × FsTree))
    (lmap : List (String × DirEntryType)) : List (String × DirEntryType) :=
  entries.foldl (fun m nt => (dictPop nt.1 m).2) lmap

/-- Steps 5-6 of `Differ._diff_dirs`: emit a deletion marker (flushing
first) for every name still in the lower map, then pop the pending
entry if the stack is non-empty. -/
def diffFinish (o : DifferOptions) (path : String)
    (leftover : List (String × DirEntryType)) (s3 : DiffState) : DiffState :=
  let s4 := leftover.foldl (fun st nv => appendEvent (.delete_marker (posixJoin path nv.1))
      (flushPending o st)) s3
  if s4.pending.isEmpty then s4 else ⟨s4.pending.dropLast, s4.output⟩

/-- The merged-entry loop of `Differ._diff_dirs` (steps 4a-4f of
§4.2.3): process each merged entry in listing order, popping its name
from the lower map and dispatching on the merged entry type against
the popped lower type.  `recur` is the recursive `_diff_dirs` call
(tied below in `diffDirsF`). -/
def diffChildrenGo (recur : String → FsTree → FsTree → DiffState → DiffState)
    (o : DifferOptions) (path : String) (lch : List (String × FsTree)) :
    List (String × FsTree) → List (String × DirEntryType) → DiffState → DiffState
  | [], _, s => s
  | (name, t) :: rest, lmap, s =>
    diffChildrenGo recur o path lch rest (dictPop name lmap).2
      (if kindOf t = DirEntryType.directory then
         (if (dictPop name lmap).1 = some DirEntryType.directory then
           recur (posixJoin path name) t (childDir lch name) s
         else insertTree o (posixJoin path name) t s)
       else if kindOf t = DirEntryType.regular_file then
         (if (dictPop name lmap).1 = some DirEntryType.regular_file then
           diffFiles o (posixJoin path name) t (childFile lch name) s
         else insertTree o (posixJoin path name) t s)
       else
         (if (dictPop name lmap).1 = some DirEntryType.other then
           diffOther o (posixJoin path name) t (childPath lch name) s
         else insertTree o (posixJoin path name) t s))

/-- `Differ._diff_dirs` on error-free sources, with an explicit
recursion-depth budget: list both sides, push the pending entry and
flush when the directory stats differ (`diffPush`), walk the merged
listing against the lower map (`diffChildrenGo`), then emit deletion
markers for lower-only names and pop the pending entry if still
unflushed (`diffFinish`).  The budget is structural bookkeeping only:
every use supplies at least `heightTree merged`, so the `0` case is
never reached (see `runDiff` and the `heightTree merged ≤ fuel`
hypotheses of the theorems). -/
def diffDirsF : Nat → DifferOptions → String → FsTree → FsTree → DiffState → DiffState
  | 0, _, _, _, _, s => s
  | fuel+1, o, path, merged, lower, s =>
    diffFinish o path
      (remainingMap (childrenOf merged) (lowerMapOf (childrenOf lower)))
      (diffChildrenGo (diffDirsF fuel o) o path (childrenOf lower) (childrenOf merged)
        (lowerMapOf (childrenOf lower))
        (diffPush o path (statOf merged) (statOf lower) s))

/-- `Differ._diff_dirs` with the (always sufficient) depth budget of
its merged argument. -/
def diffDirs (o : DifferOptions) (path : String) (merged lower : FsTree)
    (s : DiffState) : DiffState :=
  diffDirsF (heightTree merged) o path merged lower s

/-- `Differ.diff()`: open both roots and diff them at archive path `"."`. -/
def runDiff (o : DifferOptions) (merged lower : FsTree) : DiffState :=
  diffDirs o "." merged lower ⟨[], []⟩

theorem heightTree_pos (t : FsTree) : 0 < heightTree t := by
  cases t <;> simp [heightTree]

theorem mem_heightChildren_le (ch : List (String × FsTree)) (nt : String × FsTree)
    (h : nt ∈ ch) : heightTree nt.2 ≤ heightChildren ch := by
  induction ch with
  | nil => simp at h
  | cons kv rest ih =>
    obtain ⟨k, v⟩ := kv
    rcases List.mem_cons.mp h with rfl | h
    · simp [heightChildren]
    · calc heightTree nt.2 ≤ heightChildren rest := ih h
        _ ≤ heightChildren ((k, v) :: rest) := by simp [heightChildren]

theorem mem_childrenOf_height_lt (t : FsTree) (nt : String × FsTree)
    (h : nt ∈ childrenOf t) : heightTree nt.2 < heightTree t := by
  cases t with
  | dir st ch =>
    have := mem_heightChildren_le ch nt h
    simp only [heightTree]
    omega
  | file st c => simp [childrenOf] at h
  | other st ln => simp [childrenOf] at h

/-- No name occurs twice in a directory listing. -/
def distinctNames : List String → Bool
  | [] => true
  | n :: rest => !(rest.contains n) && distinctNames rest

mutual

/-- A well-formed source tree: every directory yields each immediate
child exactly once (the contract of §4.1 of the specification, true of
both real adapters on well-formed archives). -/
def nodupTree : FsTree → Bool
  | .dir _ ch => distinctNames (ch.map Prod.fst) && nodupChildren ch
  | .file _ _ => true
  | .other _ _ => true

def nodupChildren : List (String × FsTree) → Bool
  | [] => true
  | (_, t) :: rest => nodupTree t && nodupChildren rest

end

mutual

/-- Equality of two source subtrees in the eyes of the differ: equal
stats under the options filter (§4.2.2), the same listing, byte-equal
regular-file contents, and equal symlink targets for symlinks. -/
def equivTree (o : DifferOptions) : FsTree → FsTree → Bool
  | .dir mst mch, .dir lst lch =>
    !(o.stats_differ mst lst) && equivChildren o mch lch
  | .file mst mc, .file lst lc =>
    !(o.stats_differ mst lst) && mc == lc
  | .other mst ml, .other lst ll =>
    !(o.stats_differ mst lst) && (!(S_ISLNK mst.mode) || ml == ll)
  | _, _ => false

def equivChildren (o : DifferOptions) :
    List (String × FsTree) → List (String × FsTree) → Bool
  | [], [] => true
  | (mn, mt) :: mrest, (ln, lt) :: lrest =>
    mn == ln && equivTree o mt lt && equivChildren o mrest lrest
  | [], _ :: _ => false
  | _ :: _, [] => false

end

theorem stats_differ_self (o : DifferOptions) (x : StatInfo) :
    o.stats_differ x x = false := by
  simp [DifferOptions.stats_differ]


theorem stats_differ_mode_eq (o : DifferOptions) (x y : StatInfo)
    (h : o.stats_differ x y = false) : x.mode = y.mode := by
  simp only [DifferOptions.stats_differ, DifferOptions.stats_filter] at h
  split_ifs at h with h1 h2 h3 h4 h5 <;> try simp at h
  exact not_not.mp h3

theorem not_mem_of_contains_false {l : List String} {a : String}
    (h : l.contains a = false) : a ∉ l := by
  intro hmem
  have : l.contains a = true := List.elem_eq_true_of_mem hmem
  rw [this] at h
  simp at h

theorem chunkDiffers_self_aux : ∀ (n : Nat) (a : List Nat), a.length ≤ n
    → chunkDiffers a a = false := by
  intro n
  induction n with
  | zero =>
    intro a ha
    rw [chunkDiffers]
    have : a = [] := List.length_eq_zero.mp (Nat.le_zero.mp ha)
    simp [this]
  | succ n ih =>
    intro a ha
    rw [chunkDiffers]
    rw [if_neg (by simp)]
    by_cases h0 : a.take CHUNK_SIZE = []
    · rw [if_pos h0]
    · rw [if_neg h0]
      apply ih
      have hpos : 0 < a.length := by
        by_contra hc
        push_neg at hc
        have : a = [] := List.length_eq_zero.mp (Nat.le_zero.mp hc)
        rw [this] at h0
        simp at h0
      rw [List.length_drop]
      have : 0 < CHUNK_SIZE := by norm_num [CHUNK_SIZE]
      omega

theorem chunkDiffers_self (a : List Nat) : chunkDiffers a a = false :=
  chunkDiffers_self_aux a.length a le_rfl

theorem equivTree_stats (o : DifferOptions) (m l : FsTree) (h : equivTree o m l = true) :
    o.stats_differ (statOf m) (statOf l) = false := by
  cases m <;> cases l <;> simp [equivTree, statOf] at h ⊢ <;> exact h.1

theorem equivTree_children (o : DifferOptions) (m l : FsTree) (h : equivTree o m l = true) :
    equivChildren o (childrenOf m) (childrenOf l) = true := by
  cases m <;> cases l <;> simp [equivTree, childrenOf, equivChildren] at h ⊢ <;> try exact h.2

theorem dictFind_append {β : Type} (a b : List (String × β)) (q : String) :
    dictFind (a ++ b) q
      = match dictFind a q with
        | some v => some v
        | none => dictFind b q := by
  induction a with
  | nil => simp [dictFind]
  | cons kv rest ih =>
    obtain ⟨k, v⟩ := kv
    by_cases h : k = q
    · simp [dictFind, h]
    · simp [dictFind, h, ih]

theorem dictPut_of_not_found {β : Type} (d : List (String × β)) (k : String) (v : β)
    (h : dictFind d k = none) : dictPut k v d = d ++ [(k, v)] := by
  induction d with
  | nil => simp [dictPut]
  | cons kv rest ih =>
    obtain ⟨k', v'⟩ := kv
    by_cases h1 : k' = k
    · rw [h1] at h
      simp [dictFind] at h
    · show (if k' = k then (k', v) :: rest else (k', v') :: dictPut k v rest) = _
      rw [if_neg h1]
      have h2 : dictFind rest k = none := by
        have h3 : (if k' = k then some v' else dictFind rest k) = none := h
        rwa [if_neg h1] at h3
      rw [ih h2]
      simp

theorem lowerMapOf_distinct_aux (ch : List (String × FsTree)) :
    ∀ (acc : List (String × DirEntryType)),
    (∀ nt ∈ ch, dictFind acc nt.1 = none) → distinctNames (ch.map Prod.fst) = true →
    ch.foldl (fun m nt => dictPut nt.1 (kindOf nt.2) m) acc
      = acc ++ ch.map (fun nt => (nt.1, kindOf nt.2)) := by
  induction ch with
  | nil =>
    intro acc _ _
    simp
  | cons nt rest ih =>
    intro acc hnone hdist
    obtain ⟨n, t⟩ := nt
    simp only [List.foldl_cons]
    have hn : dictFind acc n = none := hnone (n, t) (by simp)
    rw [dictPut_of_not_found _ _ _ hn]
    have hstep : ((!((rest.map Prod.fst).contains n))
        && distinctNames (rest.map Prod.fst)) = true := hdist
    rw [Bool.and_eq_true] at hstep
    have hdist' : distinctNames (rest.map Prod.fst) = true := hstep.2
    have hcont : (rest.map Prod.fst).contains n = false := by
      have := hstep.1
      rwa [Bool.not_eq_true'] at this
    have hnone' : ∀ nt ∈ rest, dictFind (acc ++ [(n, kindOf t)]) nt.1 = none := by
      intro nt hmem
      rw [dictFind_append]
      have h1 : dictFind acc nt.1 = none := hnone nt (by simp [hmem])
      rw [h1]
      have hne : nt.1 ≠ n := by
        intro hEq
        apply not_mem_of_contains_false hcont
        rw [← hEq]
        exact List.mem_map_of_mem Prod.fst hmem
      simp only [dictFind]
      rw [if_neg (Ne.symm hne)]
    rw [ih (acc ++ [(n, kindOf t)]) hnone' hdist']
    simp

theorem lowerMapOf_distinct (ch : List (String × FsTree))
    (h : distinctNames (ch.map Prod.fst) = true) :
    lowerMapOf ch = ch.map (fun nt => (nt.1, kindOf nt.2)) := by
  have := lowerMapOf_distinct_aux ch [] (by intro nt _; simp [dictFind]) h
  simpa [lowerMapOf] using this

theorem dictFind_self_of_distinct (ch : List (String × FsTree))
    (h : distinctNames (ch.map Prod.fst) = true) :
    ∀ nt ∈ ch, dictFind ch nt.1 = some nt.2 := by
  induction ch with
  | nil => simp
  | cons kv rest ih =>
    obtain ⟨k, v⟩ := kv
    have hstep : ((!((rest.map Prod.fst).contains k))
        && distinctNames (rest.map Prod.fst)) = true := h
    rw [Bool.and_eq_true, Bool.not_eq_true'] at hstep
    intro nt hmem
    rcases List.mem_cons.mp hmem with rfl | hmem
    · simp [dictFind]
    · have hne : nt.1 ≠ k := by
        intro hEq
        apply not_mem_of_contains_false hstep.1
        rw [← hEq]
        exact List.mem_map_of_mem Prod.fst hmem
      show (if k = nt.1 then some v else dictFind rest nt.1) = some nt.2
      rw [if_neg (fun hh => hne hh.symm)]
      exact ih hstep.2 nt hmem

theorem mem_sizeOf_lt (ch : List (String × FsTree)) (nt : String × FsTree)
    (h : nt ∈ ch) : sizeOf nt.2 < sizeOf ch := by
  induction ch with
  | nil => simp at h
  | cons kv rest ih =>
    obtain ⟨k, v⟩ := kv
    rcases List.mem_cons.mp h with rfl | h
    · simp_arith
    · have := ih h
      have h2 : sizeOf rest < sizeOf ((k, v) :: rest) := by
        simp_arith
      omega

theorem mem_childrenOf_sizeOf_lt (t : FsTree) (nt : String × FsTree)
    (h : nt ∈ childrenOf t) : sizeOf nt.2 < sizeOf t :=
  lt_trans (mem_sizeOf_lt _ _ h) (childrenOf_sizeOf_lt t)

theorem fsTree_sizeOf_pos (t : FsTree) : 0 < sizeOf t := by
  cases t <;> simp_arith

theorem listPair_sizeOf_pos (ch : List (String × FsTree)) : 0 < sizeOf ch := by
  cases ch <;> simp_arith

theorem equiv_refl_aux (n : Nat) :
    (∀ t : FsTree, sizeOf t ≤ n → ∀ o, equivTree o t t = true)
    ∧ (∀ ch : List (String × FsTree), sizeOf ch ≤ n → ∀ o, equivChildren o ch ch = true) := by
  induction n with
  | zero =>
    constructor
    · intro t ht
      exact absurd ht (by have := fsTree_sizeOf_pos t; omega)
    · intro ch hch
      exact absurd hch (by have := listPair_sizeOf_pos ch; omega)
  | succ n ih =>
    constructor
    · intro t ht o
      cases t with
      | dir st ch =>
        have h1 : sizeOf ch ≤ n := by
          have := statInfo_sizeOf_pos st
          simp_arith at ht
          omega
        simp [equivTree, stats_differ_self]
        exact ih.2 ch h1 o
      | file st c => simp [equivTree, stats_differ_self]
      | other st ln => simp [equivTree, stats_differ_self]
    · intro ch hch o
      cases ch with
      | nil => simp [equivChildren]
      | cons nt rest =>
        obtain ⟨nm, t⟩ := nt
        have h1 : sizeOf t ≤ n ∧ sizeOf rest ≤ n := by
          simp_arith at hch
          constructor <;> omega
        simp [equivChildren]
        exact ⟨ih.1 t h1.1 o, ih.2 rest h1.2 o⟩

theorem equivTree_refl (o : DifferOptions) (t : FsTree) : equivTree o t t = true :=
  (equiv_refl_aux (sizeOf t)).1 t le_rfl o

theorem nodupChildren_mem (ch : List (String × FsTree)) (h : nodupChildren ch = true) :
    ∀ nt ∈ ch, nodupTree nt.2 = true := by
  induction ch with
  | nil => simp
  | cons kv rest ih =>
    obtain ⟨k, v⟩ := kv
    have hstep : (nodupTree v && nodupChildren rest) = true := h
    rw [Bool.and_eq_true] at hstep
    intro nt hmem
    rcases List.mem_cons.mp hmem with rfl | hmem
    · exact hstep.1
    · exact ih hstep.2 nt hmem

theorem nodupTree_distinct (t : FsTree) (h : nodupTree t = true) :
    distinctNames ((childrenOf t).map Prod.fst) = true := by
  cases t with
  | dir st ch =>
    have hstep : (distinctNames (ch.map Prod.fst) && nodupChildren ch) = true := h
    rw [Bool.and_eq_true] at hstep
    exact hstep.1
  | file st c => rfl
  | other st ln => rfl

theorem nodupTree_children (t : FsTree) (h : nodupTree t = true) :
    ∀ nt ∈ childrenOf t, nodupTree nt.2 = true := by
  cases t with
  | dir st ch =>
    have hstep : (distinctNames (ch.map Prod.fst) && nodupChildren ch) = true := h
    rw [Bool.and_eq_true] at hstep
    exact nodupChildren_mem ch hstep.2
  | file st c => simp [childrenOf]
  | other st ln => simp [childrenOf]

theorem diffFiles_equiv_noop (o : DifferOptions) (path : String) (m l : FsTree)
    (s : DiffState) (h : equivTree o m l = true) (hm : kindOf m = .regular_file) :
    diffFiles o path m l s = s := by
  cases m with
  | dir st ch => simp [kindOf] at hm
  | other st ln => simp [kindOf] at hm
  | file mst mc =>
    cases l with
    | dir lst lch => simp [equivTree] at h
    | other lst ll => simp [equivTree] at h
    | file lst lc =>
      simp only [equivTree, Bool.and_eq_true, Bool.not_eq_true', beq_iff_eq] at h
      rw [diffFiles]
      rw [if_neg (by simp [statOf, h.1])]
      rw [if_neg (by simp [contentOf, h.2, chunkDiffers_self])]

theorem diffOther_equiv_noop (o : DifferOptions) (path : String) (m l : FsTree)
    (s : DiffState) (h : equivTree o m l = true) (hm : kindOf m = .other) :
    diffOther o path m l s = s := by
  cases m with
  | dir st ch => simp [kindOf] at hm
  | file st c => simp [kindOf] at hm
  | other mst ml =>
    cases l with
    | dir lst lch => simp [equivTree] at h
    | file lst lc => simp [equivTree] at h
    | other lst ll =>
      simp only [equivTree, Bool.and_eq_true, Bool.not_eq_true'] at h
      rw [diffOther]
      rw [if_pos ?_]
      have hmode : mst.mode = lst.mode := stats_differ_mode_eq o mst lst h.1
      simp only [statOf, h.1, Bool.not_false, Bool.true_and, linknameGuard, linknameOf, hmode]
      rcases Bool.or_eq_true _ _ |>.mp h.2 with hl | hl
      · rw [Bool.not_eq_true'] at hl
        rw [hmode] at hl
        simp [hl]
      · by_cases hlnk : S_ISLNK lst.mode
        · simp [hlnk, hl]
        · simp [hlnk]

theorem remainingMap_equiv_nil (o : DifferOptions) :
    ∀ (mrest lrest : List (String × FsTree)),
    equivChildren o mrest lrest = true →
    remainingMap mrest (lrest.map (fun nt => (nt.1, kindOf nt.2))) = [] := by
  intro mrest
  induction mrest with
  | nil =>
    intro lrest heq
    cases lrest with
    | nil => rfl
    | cons nt rest => simp [equivChildren] at heq
  | cons mh mrest ih =>
    intro lrest heq
    obtain ⟨mn, mt⟩ := mh
    cases lrest with
    | nil => cases mt <;> simp [equivChildren] at heq
    | cons lh lrest =>
      obtain ⟨ln, lt⟩ := lh
      have heq' : (mn == ln && equivTree o mt lt && equivChildren o mrest lrest) = true := heq
      simp only [Bool.and_eq_true, beq_iff_eq] at heq'
      obtain ⟨⟨hname, _⟩, hrest⟩ := heq'
      subst hname
      show remainingMap mrest (dictPop mn ((mn, kindOf lt)
          :: lrest.map (fun nt => (nt.1, kindOf nt.2)))).2 = []
      have hpop : dictPop mn ((mn, kindOf lt) :: lrest.map (fun nt => (nt.1, kindOf nt.2)))
          = (some (kindOf lt), lrest.map (fun nt => (nt.1, kindOf nt.2))) := by
        show (if mn = mn then _ else _) = _
        rw [if_pos rfl]
      rw [hpop]
      exact ih lrest hrest

theorem diffChildrenGo_equiv_noop (o : DifferOptions) (path : String)
    (lch : List (String × FsTree)) :
    ∀ (mrest lrest : List (String × FsTree)) (s : DiffState)
    (recur : String → FsTree → FsTree → DiffState → DiffState),
    equivChildren o mrest lrest = true →
    (∀ nt ∈ lrest, dictFind lch nt.1 = some nt.2 ∧ nodupTree nt.2 = true) →
    (∀ nt ∈ mrest, ∀ (path' : String) (l' : FsTree) (s' : DiffState),
        nodupTree l' = true → equivTree o nt.2 l' = true → recur path' nt.2 l' s' = s') →
    diffChildrenGo recur o path lch mrest (lrest.map (fun nt => (nt.1, kindOf nt.2))) s = s := by
  intro mrest
  induction mrest with
  | nil =>
    intro lrest s recur heq hl hih
    rfl
  | cons mh mrest ih =>
    intro lrest s recur heq hl hih
    obtain ⟨mn, mt⟩ := mh
    cases lrest with
    | nil =>
      cases mt <;> simp [equivChildren] at heq
    | cons lh lrest =>
      obtain ⟨ln, lt⟩ := lh
      have heq' : (mn == ln && equivTree o mt lt && equivChildren o mrest lrest) = true := heq
      simp only [Bool.and_eq_true, beq_iff_eq] at heq'
      obtain ⟨⟨hname, hequiv⟩, hrest⟩ := heq'
      subst hname
      have hfind : dictFind lch mn = some lt := (hl (mn, lt) (by simp)).1
      have hlnodup : nodupTree lt = true := (hl (mn, lt) (by simp)).2
      have hpop : dictPop mn ((mn, kindOf lt) :: lrest.map (fun nt => (nt.1, kindOf nt.2)))
          = (some (kindOf lt), lrest.map (fun nt => (nt.1, kindOf nt.2))) := by
        show (if mn = mn then _ else _) = _
        rw [if_pos rfl]
      have htail : ∀ s'' : DiffState,
          diffChildrenGo recur o path lch mrest (lrest.map (fun nt => (nt.1, kindOf nt.2))) s''
          = s'' := by
        intro s''
        exact ih lrest s'' recur hrest (fun nt hnt => hl nt (by simp [hnt]))
          (fun nt hnt => hih nt (by simp [hnt]))
      simp only [List.map_cons, diffChildrenGo, hpop]
      cases mt with
      | dir mst mch =>
        cases lt with
        | file lst lc => simp [equivTree] at hequiv
        | other lst ll => simp [equivTree] at hequiv
        | dir lst lc =>
          have h1 : kindOf (FsTree.dir mst mch) = DirEntryType.directory := rfl
          have h2 : kindOf (FsTree.dir lst lc) = DirEntryType.directory := rfl
          simp only [h1, h2, reduceIte]
          rw [childDir, hfind]
          simp only [Option.getD_some]
          rw [hih (mn, FsTree.dir mst mch) (by simp) (posixJoin path mn)
              (FsTree.dir lst lc) s hlnodup hequiv]
          exact htail s
      | file mst mc =>
        cases lt with
        | dir lst lc => simp [equivTree] at hequiv
        | other lst ll => simp [equivTree] at hequiv
        | file lst lc =>
          have h1 : kindOf (FsTree.file mst mc) = DirEntryType.regular_file := rfl
          have h2 : kindOf (FsTree.file lst lc) = DirEntryType.regular_file := rfl
          simp only [h1, h2, reduceIte]
          rw [childFile, hfind]
          simp only [Option.getD_some]
          rw [diffFiles_equiv_noop o (posixJoin path mn) (FsTree.file mst mc)
              (FsTree.file lst lc) s hequiv rfl]
          exact htail s
      | other mst ml =>
        cases lt with
        | dir lst lc => simp [equivTree] at hequiv
        | file lst lc => simp [equivTree] at hequiv
        | other lst ll =>
          have h1 : kindOf (FsTree.other mst ml) = DirEntryType.other := rfl
          have h2 : kindOf (FsTree.other lst ll) = DirEntryType.other := rfl
          simp only [h1, h2, reduceIte]
          rw [childPath, hfind]
          simp only [Option.getD_some]
          rw [diffOther_equiv_noop o (posixJoin path mn) (FsTree.other mst ml)
              (FsTree.other lst ll) s hequiv rfl]
          exact htail s

theorem diffDirsF_equiv_noop : ∀ (fuel : Nat) (m : FsTree), heightTree m ≤ fuel →
    ∀ (o : DifferOptions) (path : String) (l : FsTree) (s : DiffState),
    nodupTree l = true → equivTree o m l = true → diffDirsF fuel o path m l s = s := by
  intro fuel
  induction fuel with
  | zero =>
    intro m hm
    exact absurd hm (by have := heightTree_pos m; omega)
  | succ fuel ih =>
    intro m hm o path l s hnodup hequiv
    show diffFinish o path
      (remainingMap (childrenOf m) (lowerMapOf (childrenOf l)))
      (diffChildrenGo (diffDirsF fuel o) o path (childrenOf l) (childrenOf m)
        (lowerMapOf (childrenOf l))
        (diffPush o path (statOf m) (statOf l) s)) = s
    rw [lowerMapOf_distinct (childrenOf l) (nodupTree_distinct l hnodup)]
    rw [diffPush, if_neg (by simp [equivTree_stats o m l hequiv])]
    rw [diffChildrenGo_equiv_noop o path (childrenOf l) (childrenOf m) (childrenOf l)
        ⟨s.pending ++ [(path, statOf m)], s.output⟩ (diffDirsF fuel o)
        (equivTree_children o m l hequiv)
        (fun nt hnt => ⟨dictFind_self_of_distinct (childrenOf l)
            (nodupTree_distinct l hnodup) nt hnt,
          nodupTree_children l hnodup nt hnt⟩)
        (fun nt hnt path' l' s' hn' he' => by
          apply ih nt.2 _ o path' l' s' hn' he'
          have := mem_childrenOf_height_lt m nt hnt
          omega)]
    rw [remainingMap_equiv_nil o (childrenOf m) (childrenOf l)
        (equivTree_children o m l hequiv)]
    rw [diffFinish]
    simp only [List.foldl_nil]
    rw [if_neg (by simp)]
    simp only [List.dropLast_concat]

/-- The `_diff_dirs` call on two equivalent subtrees is a complete
no-op on the differ's state: nothing is emitted and the pending stack
is returned exactly as it was. -/
theorem diffDirs_equiv_noop (o : DifferOptions) (path : String) (m l : FsTree)
    (s : DiffState) (hnodup : nodupTree l = true) (hequiv : equivTree o m l = true) :
    diffDirs o path m l s = s :=
  diffDirsF_equiv_noop (heightTree m) m le_rfl o path l s hnodup hequiv

/-! ## Best-effort `Differ._diff_files` (`uniondiff/differ.py` 304-370)

The happy-path byte comparison is covered by `diffFiles` above.  To
study the error handling the two files are re-modelled as fallible
handles: `openStat` is the result of `enter_context` + `.stat` (`none`
models an `IOErrors` exception), `readerOk` tells whether `.reader()`
opens, and `reads` lists the successive `read(CHUNK_SIZE)` results
(`none` a raising read).  A read past the end of the list returns
`b""`, as a real file does at end-of-file.  `strict` is
`options.input_error_strict`: when it is set, `_input_error_*`
re-raises; when clear, it only logs. -/

structure BEFile where
  openStat : Option StatInfo
  readerOk : Bool
  reads : List (Option (List Nat))
deriving DecidableEq, Repr

/-- How one `_diff_files` call ends. -/
inductive BEOutcome where
  /-- `UnionDiffInputException` propagated (strict mode). -/
  | raisedInput
  /-- The `while True:` loop evaluated `lower_reader.read(...)` with
  `lower_reader` never assigned: the `UnboundLocalError` is not in
  `IOErrors` and escapes every handler. -/
  | crashedUnbound
  /-- Returned without emitting anything for this entry. -/
  | skip
  /-- `self._insert_file(archive_path, merged)` was reached. -/
  | inserted
  /-- The contents compared equal; nothing was emitted. -/
  | noOutput
deriving DecidableEq, Repr

/-- The `while True:` chunk loop with both readers bound. -/
def cmpLoop (strict : Bool) :
    List (Option (List Nat)) → List (Option (List Nat)) → BEOutcome
  | [], lreads =>
    match lreads.headD (some []) with
    | none => if strict then .raisedInput else .inserted
    | some ldata => if ldata ≠ [] then .inserted else .noOutput
  | none :: _, _ => if strict then .raisedInput else .skip
  | some mdata :: mrest, lreads =>
    match lreads.headD (some []) with
    | none => if strict then .raisedInput else .inserted
    | some ldata =>
      if mdata ≠ ldata then .inserted
      else if mdata = [] then .noOutput
      else cmpLoop strict mrest lreads.tail

/-- `Differ._diff_files` over fallible handles, following the source's
try/except structure line by line. -/
def diffFilesBE (strict : Bool) (o : DifferOptions) (merged lower : BEFile) :
    BEOutcome :=
  match merged.openStat with
  | none => if strict then .raisedInput else .skip
  | some merged_stat =>
    if strict && lower.openStat.isNone then .raisedInput
    else
      let lower_stat := lower.openStat.getD FAILED_STAT
      if o.stats_differ merged_stat lower_stat then .inserted
      else if !merged.readerOk then (if strict then .raisedInput else .skip)
      else if !lower.readerOk then
        (if strict then .raisedInput
         else
           match merged.reads.headD (some []) with
           | none => .skip
           | some _ => .crashedUnbound)
      else cmpLoop strict merged.reads lower.reads

/-! ## Concrete evaluation of the tar loader (for claim C5) -/

/-- A one-member archive: a regular file `a/b`. -/
def abMember : PyTarInfo := ⟨"a/b", 0o644, 0, 0, 0, 0, .reg, "", 0, 0⟩

theorem posixSplit_ab : posixSplit "/a/b" = ("/a", "b") := by decide

theorem posixSplit_a : posixSplit "/a" = ("/", "a") := by decide

theorem posixSplit_root : posixSplit "/" = ("/", "") := by decide

theorem walkAncestors_ab : walkAncestors "/a/b" = ["/a", "/"] := by
  rw [walkAncestors, posixSplit_ab]
  rw [if_neg (by decide)]
  rw [walkAncestors, posixSplit_a]
  rw [if_neg (by decide)]
  rw [walkAncestors, posixSplit_root]
  rw [if_pos rfl]

theorem loadTar_ab_step1 : loadTar [abMember]
    = walkUp ⟨[("/a/b", .real abMember)], []⟩ "/a" "b" abMember := rfl

theorem loadTar_ab_info : (loadTar [abMember]).info
    = [("/a/b", .real abMember), ("/a", .missingDir), ("/", .missingDir)] := by
  rw [loadTar_ab_step1]
  rw [walkUp]
  rw [if_neg (show ¬ ("b" : String) = "" by decide)]
  rw [if_neg (show ¬ (dictFind (addChild ⟨[("/a/b", .real abMember)], []⟩
      "/a" "b" abMember).info "/a").isSome = true by decide)]
  show (walkUp ⟨[("/a/b", .real abMember), ("/a", .missingDir)],
      [("/a", [("b", abMember)])]⟩ "/" "a" abMember).info = _
  rw [walkUp]
  rw [if_neg (show ¬ ("a" : String) = "" by decide)]
  rw [if_neg (show ¬ (dictFind (addChild ⟨[("/a/b", .real abMember), ("/a", .missingDir)],
      [("/a", [("b", abMember)])]⟩ "/" "a" abMember).info "/").isSome = true by decide)]
  show (walkUp ⟨[("/a/b", .real abMember), ("/a", .missingDir), ("/", .missingDir)],
      [("/a", [("b", abMember)]), ("/", [("a", abMember)])]⟩ "/" "" abMember).info = _
  rw [walkUp]
  rw [if_pos rfl]

/-! ## The spec's stat-equality rule (for claim C4) -/

/-- The spec's wording of stat equality, for comparison with
`DifferOptions.stats_differ`: after the options filter is applied to
both, uid, gid and mode all match; size matches whenever the mode is
regular-file or symlink; rdev matches whenever the mode is a char or
block device. -/
def specStatsEq (o : DifferOptions) (x y : StatInfo) : Prop :=
  (o.stats_filter x).uid = (o.stats_filter y).uid
  ∧ (o.stats_filter x).gid = (o.stats_filter y).gid
  ∧ (o.stats_filter x).mode = (o.stats_filter y).mode
  ∧ ((S_ISREG (o.stats_filter x).mode = true ∨ S_ISLNK (o.stats_filter x).mode = true)
      → (o.stats_filter x).size = (o.stats_filter y).size)
  ∧ ((S_ISCHR (o.stats_filter x).mode = true ∨ S_ISBLK (o.stats_filter x).mode = true)
      → (o.stats_filter x).rdev = (o.stats_filter y).rdev)

/-- C4: `stats_differ` returns `false` exactly when the two stats are
equal per the spec's rule after filtering, and the mtime fields never
influence the result. -/
theorem C4_stats_differ_iff (o : DifferOptions) (x y : StatInfo) :
    (o.stats_differ x y = false ↔ specStatsEq o x y)
    ∧ (∀ tx ty : Int,
        o.stats_differ ⟨x.mode, x.uid, x.gid, x.size, tx, x.rdev⟩
          ⟨y.mode, y.uid, y.gid, y.size, ty, y.rdev⟩ = o.stats_differ x y) := by
  refine ⟨?_, fun tx ty => rfl⟩
  unfold DifferOptions.stats_differ specStatsEq
  dsimp only
  split_ifs with h1 h2 h3 h4 h5 <;>
    simp_all [Bool.and_eq_true, Bool.or_eq_true, decide_eq_true_eq]

/-- C5 counterexample: in the archive `[a/b]`, the path `/a` is a
prefix of a member and has no explicit member of its own, so the
loader synthesizes a directory entry — but its stat carries mode
`0o100644` (the `TarInfo()` defaults are type `REGTYPE`, mode `0o644`),
not the claimed sentinel mode `0o777`.  The `exists_in_archive()` half
of the claim does hold here. -/
theorem C5_counterexample :
    ("/a" ∈ walkAncestors (normName abMember.name)
      ∧ (∀ m ∈ [abMember], normName m.name ≠ "/a"))
    ∧ tarManagerStat (loadTar [abMember]) "/a" = some (some ⟨0o100644, 0, 0, 0, 0, 0⟩)
    ∧ tarManagerExists (loadTar [abMember]) "/a" = some false
    ∧ (0o100644 : Nat) ≠ 0o777 := by
  refine ⟨⟨?_, by decide⟩, ?_, ?_, by decide⟩
  · rw [show normName abMember.name = "/a/b" from by decide, walkAncestors_ab]
    decide
  · show (dictFind (loadTar [abMember]).info "/a").map tarEntryStat = _
    rw [loadTar_ab_info]
    decide
  · show (dictFind (loadTar [abMember]).info "/a").map tarEntryExists = _
    rw [loadTar_ab_info]
    decide

/-- C5 (amended): for every path `p` that the loader's ancestor walk
visits above some member's normalized name and that no member's
normalized name equals, the adapter stores the shared
`MISSING_DIRECTORY_TARINFO` sentinel: its stat has mode `0o100644`
(`S_IFREG | 0o644`, the `tarfile.TarInfo()` defaults — not `0o777`),
uid/gid/size/mtime 0, and `exists_in_archive()` is `false`. -/
theorem C5_synthesized_dir (ms : List PyTarInfo) (p : String)
    (hanc : ∃ m ∈ ms, p ∈ walkAncestors (normName m.name))
    (hmem : ∀ m ∈ ms, normName m.name ≠ p) :
    tarManagerStat (loadTar ms) p = some (some ⟨0o100644, 0, 0, 0, 0, 0⟩)
    ∧ tarManagerExists (loadTar ms) p = some false := by
  have h := loadTar_synthesized ms p hanc hmem
  constructor
  · show (dictFind (loadTar ms).info p).map tarEntryStat = _
    rw [h]
    rfl
  · show (dictFind (loadTar ms).info p).map tarEntryExists = _
    rw [h]
    rfl

theorem C5_synthesized_dir_witness :
    (∃ m ∈ [abMember], "/a" ∈ walkAncestors (normName m.name))
    ∧ (∀ m ∈ [abMember], normName m.name ≠ "/a")
    ∧ (tarManagerStat (loadTar [abMember]) "/a" = some (some ⟨0o100644, 0, 0, 0, 0, 0⟩)
       ∧ tarManagerExists (loadTar [abMember]) "/a" = some false) :=
  have h1 : ∃ m ∈ [abMember], "/a" ∈ walkAncestors (normName m.name) :=
    ⟨abMember, by decide, by
      rw [show normName abMember.name = "/a/b" from by decide, walkAncestors_ab]
      decide⟩
  ⟨h1, by decide, C5_synthesized_dir [abMember] "/a" h1 (by decide)⟩

/-- C6: in best-effort mode, a failed lower-side *read* does insert the
merged file as the spec says; but a failed lower-side *open* leaves
`lower_reader` unbound and the guarded loop then crashes with an
`UnboundLocalError` (not in `IOErrors`), instead of inserting the
merged file. -/
theorem C6_lower_open_failure_crashes :
    diffFilesBE false DifferOptions.default
        ⟨some ⟨0o100644, 0, 0, 1, 0, 0⟩, true, [some [55], some []]⟩
        ⟨some ⟨0o100644, 0, 0, 1, 0, 0⟩, true, [none]⟩ = .inserted
    ∧ diffFilesBE false DifferOptions.default
        ⟨some ⟨0o100644, 0, 0, 1, 0, 0⟩, true, [some [55], some []]⟩
        ⟨some ⟨0o100644, 0, 0, 1, 0, 0⟩, false, []⟩ = .crashedUnbound
    ∧ BEOutcome.crashedUnbound ≠ .inserted := by
  refine ⟨rfl, rfl, by decide⟩

/-- C7: the overlay sink's `delete_marker(p)` forwards exactly one
`write_other(p, char-device 0:0, mode S_IFCHR|0o444, uid=gid=0)` to the
backend, and its `write_other` raises precisely on char devices with
`rdev == 0`, forwarding everything else unchanged. -/
theorem C7_overlay_sink (p : String) (st : StatInfo) :
    overlayDeleteMarker p = .ok [.write_other p ⟨0o20000 ||| 0o444, 0, 0, 0, 0, 0⟩]
    ∧ (overlayWriteOther p st = .error () ↔ S_ISCHR st.mode = true ∧ st.rdev = 0)
    ∧ (overlayWriteOther p st = .ok [.write_other p st] ↔
        ¬(S_ISCHR st.mode = true ∧ st.rdev = 0)) := by
  refine ⟨rfl, ?_, ?_⟩ <;>
  · unfold overlayWriteOther
    split_ifs with h <;>
      simp_all [Bool.and_eq_true, beq_iff_eq]

/-- C8: the AUFS sink's `delete_marker(p)` forwards exactly one
`write_file` of an empty regular file `mode S_IFREG|0o444, uid=gid=0`
at `join(dirname(p), ".wh." + basename(p))`, and its `write_file`
raises precisely on paths whose basename starts with `.wh.`,
forwarding everything else unchanged. -/
theorem C8_aufs_sink (p q : String) (st : StatInfo) (c : List Nat) :
    aufsDeleteMarker p = .ok [.write_file
        (posixJoin (posixDirname p) (".wh." ++ posixBasename p))
        ⟨0o100000 ||| 0o444, 0, 0, 0, 0, 0⟩ []]
    ∧ (aufsWriteFile q st c = .error () ↔
        List.isPrefixOf (".wh." : String).data (posixBasename q).data = true)
    ∧ (aufsWriteFile q st c = .ok [.write_file q st c] ↔
        ¬ List.isPrefixOf (".wh." : String).data (posixBasename q).data = true) := by
  refine ⟨rfl, ?_, ?_⟩ <;>
  · unfold aufsWriteFile isWhiteoutPath
    split_ifs with h <;>
      simp_all [show whPrefixStr.data = ['.', 'w', 'h', '.'] from rfl]

/-- C9: each sink's own `delete_marker` emits exactly the shape its own
guard rejects, yet never raises, because it calls the wrapped backend
directly: the overlay whiteout is a char device with `rdev == 0` (which
`overlayWriteOther` refuses) and the AUFS marker path is `.wh.`-prefixed
(which `aufsWriteFile` refuses). -/
theorem C9_delete_marker_bypasses_guard (p : String) :
    (overlayWriteOther p overlayWhiteoutStat = .error ()
      ∧ overlayDeleteMarker p = .ok [.write_other p overlayWhiteoutStat])
    ∧ (aufsWriteFile (posixJoin (posixSplit p).1 (whPrefixStr ++ (posixSplit p).2))
          aufsWhiteoutStat [] = .error ()
      ∧ aufsDeleteMarker p = .ok [.write_file
          (posixJoin (posixSplit p).1 (whPrefixStr ++ (posixSplit p).2))
          aufsWhiteoutStat []]) := by
  refine ⟨⟨?_, rfl⟩, ?_, rfl⟩
  · unfold overlayWriteOther
    rw [if_pos (by decide)]
  · unfold aufsWriteFile
    rw [if_pos (isWhiteoutPath_of_delete p)]

/-- A small concrete tree used by witnesses. -/
def tinyTree : FsTree :=
  .dir ⟨0o40755, 0, 0, 0, 0, 0⟩
    [("f", .file ⟨0o100644, 0, 0, 1, 0, 0⟩ [7]),
     ("d", .dir ⟨0o40755, 0, 0, 0, 0, 0⟩
        [("g", .other ⟨0o120777, 0, 0, 1, 0, 0⟩ "f")])]

/-- C1: diffing a tree against itself emits nothing at all — in
particular no `write_file`, `write_symlink`, `write_other` or
`delete_marker` — and the pending stack ends empty: every pushed
directory is popped without being written. -/
theorem C1_self_diff_is_noop (o : DifferOptions) (T : FsTree)
    (h : nodupTree T = true) :
    (runDiff o T T).output = [] ∧ (runDiff o T T).pending = [] := by
  have hd := diffDirs_equiv_noop o "." T T ⟨[], []⟩ h (equivTree_refl o T)
  rw [runDiff, hd]
  exact ⟨rfl, rfl⟩

theorem C1_self_diff_is_noop_witness :
    nodupTree tinyTree = true
    ∧ ((runDiff DifferOptions.default tinyTree tinyTree).output = []
       ∧ (runDiff DifferOptions.default tinyTree tinyTree).pending = []) :=
  ⟨by decide, C1_self_diff_is_noop DifferOptions.default tinyTree (by decide)⟩

/-- C10: for `n > 0` the retrying positional-read loop returns exactly
the next `min n (remaining)` bytes of the file: exactly `n` bytes when
`n` remain before end-of-file, the whole remainder when fewer do, and
an empty result only at end-of-file. -/
theorem C10_read_retries_to_n (file : List Nat) (offset n : Nat)
    (oracle : List Nat) (hn : 0 < n) :
    fmRead file offset n oracle = (file.drop offset).take n
    ∧ (fmRead file offset n oracle).length = min n (file.length - offset)
    ∧ (offset + n ≤ file.length → (fmRead file offset n oracle).length = n)
    ∧ ((fmRead file offset n oracle).length < n →
        fmRead file offset n oracle = file.drop offset)
    ∧ (fmRead file offset n oracle = [] → file.length ≤ offset) := by
  have h := fmRead_eq file offset n oracle hn
  have hlen : (fmRead file offset n oracle).length = min n (file.length - offset) := by
    rw [h, List.length_take, List.length_drop]
  refine ⟨h, hlen, ?_, ?_, ?_⟩
  · intro hle
    rw [hlen]
    omega
  · intro hlt
    rw [hlen] at hlt
    rw [h]
    exact List.take_of_length_le (by rw [List.length_drop]; omega)
  · intro hnil
    have := hlen
    rw [hnil] at this
    simp at this
    omega

theorem C10_read_retries_to_n_witness :
    0 < 2
    ∧ (fmRead [1, 2, 3] 1 2 [1] = (([1, 2, 3] : List Nat).drop 1).take 2
       ∧ (fmRead [1, 2, 3] 1 2 [1]).length = min 2 (([1, 2, 3] : List Nat).length - 1)
       ∧ (1 + 2 ≤ ([1, 2, 3] : List Nat).length → (fmRead [1, 2, 3] 1 2 [1]).length = 2)
       ∧ ((fmRead [1, 2, 3] 1 2 [1]).length < 2 →
           fmRead [1, 2, 3] 1 2 [1] = ([1, 2, 3] : List Nat).drop 1)
       ∧ (fmRead [1, 2, 3] 1 2 [1] = [] → ([1, 2, 3] : List Nat).length ≤ 1)) :=
  ⟨by decide, C10_read_retries_to_n [1, 2, 3] 1 2 [1] (by decide)⟩

/-! ## Archive paths as chains of entry names (for claims C2 and C3)

Every path the differ passes to the sink is built by repeated
`posix_join(path, name)` from the root `"."`, where each `name` is an
entry name produced by a directory listing: nonempty and without a
slash.  This section relates those strings to the chains of names that
produce them. -/

/-- A legal directory-entry name: nonempty, no `/`. -/
def validName (n : String) : Bool := n != "" && !(n.data.contains '/')

mutual

/-- A well-formed source tree: every directory yields each immediate
child exactly once, under a legal entry name (§4.1's listing
contract). -/
def okTree : FsTree → Bool
  | .dir _ ch => distinctNames (ch.map Prod.fst) && okChildren ch
  | .file _ _ => true
  | .other _ _ => true

def okChildren : List (String × FsTree) → Bool
  | [] => true
  | (n, t) :: rest => validName n && okTree t && okChildren rest

end

/-- The archive path of a chain of entry names below the root `"."`. -/
def renderChain (c : List String) : String := c.foldl posixJoin "."

/-- The characters `renderChain` produces, computed directly. -/
def chainData (c : List String) : List Char :=
  c.foldl (fun acc n => acc ++ '/' :: n.data) ['.']

/-- `a` is a proper (strict) path ancestor of `p`. -/
def ProperAnc (a p : String) : Prop :=
  ∃ r : List Char, r ≠ [] ∧ p.data = a.data ++ '/' :: r

/-- `p` lies at or strictly below `a`. -/
def AncOrSelf (a p : String) : Prop := p = a ∨ ProperAnc a p

theorem validName_ne (n : String) (h : validName n = true) : n.data ≠ [] := by
  intro h0
  have : n = "" := by
    cases n
    simp_all
  simp [validName, this] at h

theorem validName_no_slash (n : String) (h : validName n = true) : '/' ∉ n.data := by
  intro hmem
  simp [validName, List.contains_eq_any_beq] at h
  exact h.2 hmem

theorem okChildren_mem : ∀ (ch : List (String × FsTree)), okChildren ch = true →
    ∀ nt ∈ ch, validName nt.1 = true ∧ okTree nt.2 = true := by
  intro ch
  induction ch with
  | nil => intro _ nt h; simp at h
  | cons kv rest ih =>
    intro h nt hnt
    obtain ⟨n, t⟩ := kv
    have h' : (validName n && okTree t && okChildren rest) = true := h
    simp only [Bool.and_eq_true] at h'
    rcases List.mem_cons.mp hnt with rfl | hnt
    · exact ⟨h'.1.1, h'.1.2⟩
    · exact ih h'.2 nt hnt

theorem okTree_children (t : FsTree) (h : okTree t = true) :
    ∀ nt ∈ childrenOf t, validName nt.1 = true ∧ okTree nt.2 = true := by
  cases t with
  | dir st ch =>
    have h' : (distinctNames (ch.map Prod.fst) && okChildren ch) = true := h
    simp only [Bool.and_eq_true] at h'
    exact okChildren_mem ch h'.2
  | file st c => intro nt hnt; simp [childrenOf] at hnt
  | other st ln => intro nt hnt; simp [childrenOf] at hnt

theorem okTree_distinct (t : FsTree) (h : okTree t = true) :
    distinctNames ((childrenOf t).map Prod.fst) = true := by
  cases t with
  | dir st ch =>
    have h' : (distinctNames (ch.map Prod.fst) && okChildren ch) = true := h
    simp only [Bool.and_eq_true] at h'
    exact h'.1
  | file st c => rfl
  | other st ln => rfl

/-- The characters a chain contributes below the root. -/
def tailData (c : List String) : List Char :=
  c.foldl (fun acc n => acc ++ '/' :: n.data) []

theorem foldl_chain_acc : ∀ (c : List String) (acc : List Char),
    c.foldl (fun a n => a ++ '/' :: n.data) acc = acc ++ tailData c := by
  intro c
  induction c with
  | nil => intro acc; simp [tailData]
  | cons n rest ih =>
    intro acc
    show List.foldl _ (acc ++ '/' :: n.data) rest = _
    rw [ih (acc ++ '/' :: n.data)]
    have : tailData (n :: rest) = ('/' :: n.data) ++ tailData rest := by
      show List.foldl _ ([] ++ '/' :: n.data) rest = _
      rw [ih ([] ++ '/' :: n.data)]
      simp
    rw [this, List.append_assoc]

theorem chainData_eq (c : List String) : chainData c = '.' :: tailData c := by
  rw [chainData, foldl_chain_acc]
  rfl

theorem tailData_append (c d : List String) :
    tailData (c ++ d) = tailData c ++ tailData d := by
  show List.foldl _ [] (c ++ d) = _
  rw [List.foldl_append, foldl_chain_acc]
  rfl

theorem chainData_append (c d : List String) :
    chainData (c ++ d) = chainData c ++ tailData d := by
  rw [chainData_eq, chainData_eq, tailData_append]
  rfl

theorem tailData_cons (n : String) (rest : List String) :
    tailData (n :: rest) = '/' :: (n.data ++ tailData rest) := by
  show List.foldl _ ([] ++ '/' :: n.data) rest = _
  rw [foldl_chain_acc]
  rfl

theorem chainData_snoc (c : List String) (n : String) :
    chainData (c ++ [n]) = chainData c ++ '/' :: n.data := by
  rw [chainData_append, tailData_cons]
  simp [tailData]

theorem chainData_ne_nil (c : List String) : chainData c ≠ [] := by
  rw [chainData_eq]
  simp

theorem chainData_getLast_ne_slash (c : List String)
    (h : ∀ n ∈ c, validName n = true) :
    ∀ ch, (chainData c).getLast? = some ch → ch ≠ '/' := by
  induction c using List.reverseRecOn with
  | nil =>
    intro ch hch
    have : ch = '.' := by
      simp [chainData] at hch
      exact hch.symm
    simp [this]
  | append_singleton d n ih =>
    intro ch hch
    rw [chainData_snoc] at hch
    have hn : validName n = true := h n (by simp)
    have hnd : n.data ≠ [] := validName_ne n hn
    rw [List.getLast?_append_cons] at hch
    have : ('/' :: n.data).getLast? = n.data.getLast? := by
      cases hx : n.data with
      | nil => exact absurd hx hnd
      | cons x xs => exact List.getLast?_cons_cons
    rw [this] at hch
    have hmem : ch ∈ n.data := List.mem_of_getLast?_eq_some hch
    intro hcontra
    exact validName_no_slash n hn (hcontra ▸ hmem)

theorem posixJoin_valid (a n : String) (ha : a.data ≠ [])
    (hlast : a.data.getLast? ≠ some '/') (hn : validName n = true) :
    posixJoin a n = a ++ "/" ++ n := by
  unfold posixJoin
  rw [if_neg, if_neg]
  · intro hor
    rcases hor with h0 | h1
    · exact ha h0
    · exact hlast h1
  · intro hh
    have : '/' ∈ n.data := by
      cases hx : n.data with
      | nil => simp [hx] at hh
      | cons x xs =>
        rw [hx] at hh
        simp at hh
        simp [hx, hh]
    exact validName_no_slash n hn this

theorem data_append_slash (a n : String) :
    (a ++ "/" ++ n).data = a.data ++ '/' :: n.data := by
  rw [String.data_append, String.data_append]
  simp

theorem foldl_posixJoin_data : ∀ (c : List String) (a : String), a.data ≠ [] →
    a.data.getLast? ≠ some '/' → (∀ n ∈ c, validName n = true) →
    (c.foldl posixJoin a).data = c.foldl (fun acc n => acc ++ '/' :: n.data) a.data := by
  intro c
  induction c with
  | nil => intro a _ _ _; rfl
  | cons n rest ih =>
    intro a ha hlast hv
    have hn : validName n = true := hv n (by simp)
    have hj : posixJoin a n = a ++ "/" ++ n := posixJoin_valid a n ha hlast hn
    show (List.foldl posixJoin (posixJoin a n) rest).data = _
    rw [hj]
    have hd : (a ++ "/" ++ n).data = a.data ++ '/' :: n.data := data_append_slash a n
    rw [ih (a ++ "/" ++ n) (by rw [hd]; simp)
        (by
          rw [hd, List.getLast?_append_cons]
          have : ('/' :: n.data).getLast? = n.data.getLast? := by
            cases hx : n.data with
            | nil => exact absurd hx (validName_ne n hn)
            | cons x xs => exact List.getLast?_cons_cons
          rw [this]
          intro hc
          exact validName_no_slash n hn (List.mem_of_getLast?_eq_some hc))
        (fun m hm => hv m (by simp [hm]))]
    rw [hd]
    rfl

theorem renderChain_data (c : List String) (h : ∀ n ∈ c, validName n = true) :
    (renderChain c).data = chainData c :=
  foldl_posixJoin_data c "." (by decide) (by decide) h

theorem renderChain_snoc (c : List String) (n : String) :
    renderChain (c ++ [n]) = posixJoin (renderChain c) n := by
  rw [renderChain, List.foldl_append]
  rfl

theorem renderChain_snoc_valid (c : List String) (n : String)
    (hc : ∀ m ∈ c, validName m = true) (hn : validName n = true) :
    renderChain (c ++ [n]) = renderChain c ++ "/" ++ n := by
  rw [renderChain_snoc]
  refine posixJoin_valid _ n ?_ ?_ hn
  · rw [renderChain_data c hc]
    exact chainData_ne_nil c
  · rw [renderChain_data c hc]
    intro hc2
    exact chainData_getLast_ne_slash c hc '/' hc2 rfl

theorem render_properAnc (c : List String) (h : ∀ n ∈ c, validName n = true)
    (i : Nat) (hi : i < c.length) :
    ProperAnc (renderChain (c.take i)) (renderChain c) := by
  refine ⟨(c.get ⟨i, hi⟩).data ++ tailData (c.drop (i + 1)), ?_, ?_⟩
  · have : (c.get ⟨i, hi⟩).data ≠ [] :=
      validName_ne _ (h _ (List.get_mem c i hi))
    intro h0
    exact this (List.append_eq_nil.mp h0).1
  · rw [renderChain_data c h,
        renderChain_data (c.take i) (fun n hn => h n (List.take_subset i c hn))]
    calc chainData c = chainData (c.take i ++ c.drop i) := by rw [List.take_append_drop]
      _ = chainData (c.take i) ++ tailData (c.drop i) := chainData_append _ _
      _ = chainData (c.take i) ++ '/' :: ((c.get ⟨i, hi⟩).data ++ tailData (c.drop (i + 1))) := by
          rw [List.drop_eq_getElem_cons hi, tailData_cons]
          rfl

theorem chainData_anc : ∀ (c : List String), (∀ n ∈ c, validName n = true) →
    ∀ (a r : List Char), r ≠ [] → chainData c = a ++ '/' :: r →
    ∃ i, i < c.length ∧ a = chainData (c.take i) := by
  intro c
  induction c using List.reverseRecOn with
  | nil =>
    intro _ a r hr he
    have := congrArg List.length he
    simp [chainData] at this
    have : 0 < r.length := List.length_pos.mpr hr
    omega
  | append_singleton d n ih =>
    intro h a r hr he
    rw [chainData_snoc] at he
    have hlen := congrArg List.length he
    simp only [List.length_append, List.length_cons] at hlen
    have hrpos : 0 < r.length := List.length_pos.mpr hr
    have hd : ∀ m ∈ d, validName m = true := fun m hm => h m (by simp [hm])
    have hn : validName n = true := h n (by simp)
    rcases Nat.lt_trichotomy a.length (chainData d).length with hlt | heq | hgt
    · -- `a` is shorter: it is an ancestor inside `chainData d`
      have htake := congrArg (List.take (chainData d).length) he
      rw [List.take_left] at htake
      rw [List.take_append_eq_append_take,
          List.take_of_length_le (le_of_lt hlt)] at htake
      obtain ⟨m', hm'⟩ : ∃ m', (chainData d).length - a.length = m' + 1 :=
        ⟨(chainData d).length - a.length - 1, by omega⟩
      rw [hm', List.take_succ_cons] at htake
      by_cases hnil : r.take m' = []
      · rw [hnil] at htake
        have : (chainData d).getLast? = some '/' := by
          rw [htake]
          exact List.getLast?_concat _
        exact absurd rfl (chainData_getLast_ne_slash d hd '/' this)
      · obtain ⟨i, hi, ha⟩ := ih hd a (r.take m') hnil htake
        refine ⟨i, (by simp; omega), ?_⟩
        rw [ha]
        congr 1
        rw [List.take_append_eq_append_take]
        simp [Nat.sub_eq_zero_of_le (le_of_lt hi)]
    · -- equal length: `a` is `chainData d` itself
      obtain ⟨ha, _⟩ := List.append_inj he heq.symm
      refine ⟨d.length, by simp, ?_⟩
      rw [← ha]
      congr 1
      exact (List.take_left d [n]).symm
    · -- `a` longer than `chainData d`: the split slash would sit inside `n`
      exfalso
      have hidx := congrArg (fun l => l[a.length]?) he
      simp only at hidx
      rw [List.getElem?_append_right (by omega : (chainData d).length ≤ a.length)] at hidx
      rw [List.getElem?_append_right (by omega : a.length ≤ a.length)] at hidx
      simp only [Nat.sub_self, List.getElem?_cons_zero] at hidx
      obtain ⟨k, hk⟩ : ∃ k, a.length - (chainData d).length = k + 1 :=
        ⟨a.length - (chainData d).length - 1, by omega⟩
      rw [hk, List.getElem?_cons_succ] at hidx
      have : '/' ∈ n.data := List.getElem?_mem hidx
      exact validName_no_slash n hn this

theorem properAnc_render_inv (c : List String) (h : ∀ n ∈ c, validName n = true)
    (a : String) (ha : ProperAnc a (renderChain c)) :
    ∃ i, i < c.length ∧ a = renderChain (c.take i) := by
  obtain ⟨r, hr, hdata⟩ := ha
  rw [renderChain_data c h] at hdata
  obtain ⟨i, hi, he⟩ := chainData_anc c h a.data r hr hdata
  refine ⟨i, hi, ?_⟩
  apply String.ext
  rw [renderChain_data (c.take i) (fun n hn => h n (List.take_subset i c hn))]
  exact he

theorem ancOrSelf_trans (a b p : String) (h1 : AncOrSelf a b) (h2 : AncOrSelf b p) :
    AncOrSelf a p := by
  rcases h1 with rfl | ⟨r, hr, hd⟩
  · exact h2
  · rcases h2 with rfl | ⟨r', hr', hd'⟩
    · exact Or.inr ⟨r, hr, hd⟩
    · refine Or.inr ⟨r ++ '/' :: r', by simp, ?_⟩
      rw [hd', hd, List.append_assoc]
      rfl

theorem properAnc_length (a q : String) (h : ProperAnc a q) :
    a.data.length < q.data.length := by
  obtain ⟨r, hr, hd⟩ := h
  have := congrArg List.length hd
  rw [List.length_append, List.length_cons] at this
  omega

theorem ancOrSelf_length (a q : String) (h : AncOrSelf a q) :
    a.data.length ≤ q.data.length := by
  rcases h with rfl | h
  · exact le_refl _
  · exact le_of_lt (properAnc_length a q h)

theorem ancOrSelf_shape (a q : String) (h : AncOrSelf a q) :
    ∃ t, q.data = a.data ++ t ∧ (t = [] ∨ ∃ r, r ≠ [] ∧ t = '/' :: r) := by
  rcases h with rfl | ⟨r, hr, hd⟩
  · exact ⟨[], by simp, Or.inl rfl⟩
  · exact ⟨'/' :: r, hd, Or.inr ⟨r, hr, rfl⟩⟩

theorem name_block_inj (x y : String) (t t' : List Char)
    (hx : '/' ∉ x.data) (hy : '/' ∉ y.data)
    (ht : t = [] ∨ ∃ r, r ≠ [] ∧ t = '/' :: r)
    (ht' : t' = [] ∨ ∃ r, r ≠ [] ∧ t' = '/' :: r)
    (he : x.data ++ t = y.data ++ t') : x = y := by
  have hall : ∀ a ∈ x.data, (fun c => c != '/') a = true := by
    intro a hax
    simp only [bne_iff_ne, ne_eq, decide_eq_true_eq]
    intro hc
    exact hx (hc ▸ hax)
  have hall' : ∀ a ∈ y.data, (fun c => c != '/') a = true := by
    intro a hay
    simp only [bne_iff_ne, ne_eq, decide_eq_true_eq]
    intro hc
    exact hy (hc ▸ hay)
  have htw : (x.data ++ t).takeWhile (fun c => c != '/') = x.data := by
    rw [takeWhile_append_of_all _ _ hall]
    rcases ht with rfl | ⟨r, _, rfl⟩
    · simp
    · simp [List.takeWhile_cons]
  have htw' : (y.data ++ t').takeWhile (fun c => c != '/') = y.data := by
    rw [takeWhile_append_of_all _ _ hall']
    rcases ht' with rfl | ⟨r, _, rfl⟩
    · simp
    · simp [List.takeWhile_cons]
  apply String.ext
  rw [← htw, ← htw', he]

theorem cone_disjoint (c : List String) (n n' : String)
    (hc : ∀ m ∈ c, validName m = true)
    (hn : validName n = true) (hn' : validName n' = true) (hne : n ≠ n')
    (p : String) (h1 : AncOrSelf (renderChain (c ++ [n])) p)
    (h2 : AncOrSelf (renderChain (c ++ [n'])) p) : False := by
  obtain ⟨t, hdt, hsh⟩ := ancOrSelf_shape _ _ h1
  obtain ⟨t', hdt', hsh'⟩ := ancOrSelf_shape _ _ h2
  have hvn : ∀ m ∈ c ++ [n], validName m = true := by
    intro m hm
    rcases List.mem_append.mp hm with hm | hm
    · exact hc m hm
    · simp at hm
      exact hm ▸ hn
  have hvn' : ∀ m ∈ c ++ [n'], validName m = true := by
    intro m hm
    rcases List.mem_append.mp hm with hm | hm
    · exact hc m hm
    · simp at hm
      exact hm ▸ hn'
  rw [renderChain_data _ hvn, chainData_snoc] at hdt
  rw [renderChain_data _ hvn', chainData_snoc] at hdt'
  rw [List.append_assoc, List.cons_append] at hdt hdt'
  have he : n.data ++ t = n'.data ++ t' := by
    have := hdt.symm.trans hdt'
    have := List.append_cancel_left this
    injection this
  exact hne (name_block_inj n n' t t'
    (validName_no_slash n hn) (validName_no_slash n' hn') hsh hsh' he)

/-- The archive paths of the proper prefixes of a chain, in order:
exactly what the `_dir_pending` stack can hold above the frame at `c`. -/
def ancRenders (c : List String) : List String :=
  (List.range c.length).map (fun i => renderChain (c.take i))

/-- The paths a `_diff_dirs` frame at chain `c` can ever emit or keep
pending: renders of prefixes of `c`, and paths at or below `c`. -/
def inU (c : List String) (p : String) : Prop :=
  (∃ i, i ≤ c.length ∧ p = renderChain (c.take i)) ∨ AncOrSelf (renderChain c) p

theorem ancRenders_snoc (c : List String) (n : String) :
    ancRenders (c ++ [n]) = ancRenders c ++ [renderChain c] := by
  rw [ancRenders, ancRenders]
  rw [List.length_append, List.length_cons, List.length_nil, List.range_succ]
  rw [List.map_append]
  congr 1
  · apply List.map_congr_left
    intro i hi
    rw [List.mem_range] at hi
    congr 1
    rw [List.take_append_eq_append_take]
    simp [Nat.sub_eq_zero_of_le (le_of_lt hi)]
  · simp [List.take_left]

theorem mem_ancRenders (c : List String) (q : String) :
    q ∈ ancRenders c ↔ ∃ i, i < c.length ∧ q = renderChain (c.take i) := by
  rw [ancRenders]
  constructor
  · intro h
    obtain ⟨i, hi, hq⟩ := List.mem_map.mp h
    exact ⟨i, List.mem_range.mp hi, hq.symm⟩
  · intro ⟨i, hi, hq⟩
    exact List.mem_map.mpr ⟨i, List.mem_range.mpr hi, hq.symm⟩

theorem inU_of_ancRender (c : List String) (q : String) (h : q ∈ ancRenders c) :
    inU c q := by
  obtain ⟨i, hi, hq⟩ := (mem_ancRenders c q).mp h
  exact Or.inl ⟨i, le_of_lt hi, hq⟩

theorem inU_self (c : List String) : inU c (renderChain c) :=
  Or.inr (Or.inl rfl)

theorem inU_of_ancOrSelf (c : List String) (p : String)
    (h : AncOrSelf (renderChain c) p) : inU c p := Or.inr h

theorem properAnc_snoc (c : List String) (n : String)
    (hc : ∀ m ∈ c, validName m = true) (hn : validName n = true) :
    ProperAnc (renderChain c) (renderChain (c ++ [n])) := by
  refine ⟨n.data, validName_ne n hn, ?_⟩
  rw [renderChain_snoc_valid c n hc hn, data_append_slash]

theorem inU_snoc_sub (c : List String) (n : String)
    (hc : ∀ m ∈ c, validName m = true) (hn : validName n = true)
    (p : String) (h : inU (c ++ [n]) p) : inU c p := by
  rcases h with ⟨i, hi, hp⟩ | h
  · rw [List.length_append, List.length_cons, List.length_nil] at hi
    by_cases hic : i ≤ c.length
    · refine Or.inl ⟨i, hic, ?_⟩
      rw [hp]
      congr 1
      rw [List.take_append_eq_append_take]
      simp [Nat.sub_eq_zero_of_le hic]
    · have : i = c.length + 1 := by omega
      subst this
      have : p = renderChain (c ++ [n]) := by
        rw [hp]
        congr 1
        exact List.take_of_length_le (by simp)
      rw [this]
      exact Or.inr (Or.inr (properAnc_snoc c n hc hn))
  · exact Or.inr (ancOrSelf_trans _ _ _ (Or.inr (properAnc_snoc c n hc hn)) h)

theorem chainData_take_length_le (c : List String) (i : Nat) :
    (chainData (c.take i)).length ≤ (chainData c).length := by
  conv_rhs => rw [← List.take_append_drop i c]
  rw [chainData_append, List.length_append]
  omega

theorem cone_excl_prefix (c : List String) (n : String)
    (hc : ∀ m ∈ c, validName m = true) (hn : validName n = true)
    (i : Nat) (hi : i ≤ c.length) (q p : String)
    (h1 : AncOrSelf (renderChain (c ++ [n])) q) (h2 : AncOrSelf q p)
    (hp : p = renderChain (c.take i)) : False := by
  have hvn : ∀ m ∈ c ++ [n], validName m = true := by
    intro m hm
    rcases List.mem_append.mp hm with hm | hm
    · exact hc m hm
    · simp at hm
      exact hm ▸ hn
  have l1 := ancOrSelf_length _ _ h1
  have l2 := ancOrSelf_length _ _ h2
  have e1 : (renderChain (c ++ [n])).data.length
      = (chainData c).length + 1 + n.data.length := by
    rw [renderChain_data _ hvn, chainData_snoc]
    rw [List.length_append, List.length_cons]
    omega
  have e2 : p.data.length ≤ (chainData c).length := by
    rw [hp, renderChain_data (c.take i) (fun m hm => hc m (List.take_subset i c hm))]
    exact chainData_take_length_le c i
  omega

theorem cone_excl_sibling (c : List String) (n n' : String)
    (hc : ∀ m ∈ c, validName m = true)
    (hn : validName n = true) (hn' : validName n' = true) (hne : n ≠ n')
    (q p : String)
    (h1 : AncOrSelf (renderChain (c ++ [n])) q) (h2 : AncOrSelf q p)
    (hp : inU (c ++ [n']) p) : False := by
  have hqp : AncOrSelf (renderChain (c ++ [n])) p := ancOrSelf_trans _ _ _ h1 h2
  rcases hp with ⟨i, hi, hp⟩ | hp
  · rw [List.length_append, List.length_cons, List.length_nil] at hi
    by_cases hic : i ≤ c.length
    · refine cone_excl_prefix c n hc hn i hic q p h1 h2 ?_
      rw [hp]
      congr 1
      rw [List.take_append_eq_append_take]
      simp [Nat.sub_eq_zero_of_le hic]
    · have : i = c.length + 1 := by omega
      subst this
      have : p = renderChain (c ++ [n']) := by
        rw [hp]
        congr 1
        exact List.take_of_length_le (by simp)
      exact cone_disjoint c n n' hc hn hn' hne p hqp (this ▸ Or.inl rfl)
  · exact cone_disjoint c n n' hc hn hn' hne p hqp hp

/-- The paths on the pending stack. -/
def pathsOf (pend : List (String × StatInfo)) : List String := pend.map Prod.fst

/-- Some `write_dir` for `q` appears in the trace. -/
def isWrittenDir (q : String) (out : List Event) : Prop :=
  ∃ st, Event.write_dir q st ∈ out

/-- Claim C2's ordering property of a sink-call trace: every proper
ancestor of an emitted path was emitted as a `write_dir` strictly
earlier. -/
def Ordered (out : List Event) : Prop :=
  ∀ i, (hi : i < out.length) → ∀ a : String,
    ProperAnc a (out.get ⟨i, hi⟩).path →
    ∃ j, ∃ hj : j < out.length, j < i ∧ ∃ st, out.get ⟨j, hj⟩ = .write_dir a st

/-- No call ever targets a path at or below an earlier deletion
marker: the "since the last delete_marker targeting an ancestor"
proviso of claim C2 is vacuous. -/
def NDel (out : List Event) : Prop :=
  ∀ i j, (hi : i < out.length) → (hj : j < out.length) → j < i →
    ∀ q : String, out.get ⟨j, hj⟩ = .delete_marker q →
    ¬ AncOrSelf q (out.get ⟨i, hi⟩).path

theorem isWrittenDir_mono (q : String) (out Δ : List Event)
    (h : isWrittenDir q out) : isWrittenDir q (out ++ Δ) := by
  obtain ⟨st, hst⟩ := h
  exact ⟨st, List.mem_append_left Δ hst⟩

theorem ordered_append_one (out : List Event) (e : Event) (h : Ordered out)
    (he : ∀ a, ProperAnc a e.path → isWrittenDir a out) :
    Ordered (out ++ [e]) := by
  intro i hi a hanc
  rw [List.length_append, List.length_cons, List.length_nil] at hi
  by_cases hlt : i < out.length
  · rw [List.get_append_left _ _ hlt] at hanc
    obtain ⟨j, hj, hji, st, hst⟩ := h i hlt a hanc
    refine ⟨j, by rw [List.length_append]; omega, hji, st, ?_⟩
    rw [List.get_append_left _ _ hj]
    exact hst
  · have hieq : i = out.length := by omega
    have hget : (out ++ [e]).get ⟨i, by rw [List.length_append]; simp; omega⟩ = e := by
      subst hieq
      simp
    rw [hget] at hanc
    obtain ⟨st, hmem⟩ := he a hanc
    obtain ⟨j, hjl, hst⟩ := List.mem_iff_getElem.mp hmem
    refine ⟨j, by rw [List.length_append]; simp; omega, by omega, st, ?_⟩
    rw [List.get_append_left _ _ hjl]
    show out[j] = _
    rw [hst]

theorem ndel_append_one (out : List Event) (e : Event) (h : NDel out)
    (hdel : ∀ j, (hj : j < out.length) → ∀ q,
      out.get ⟨j, hj⟩ = .delete_marker q → ¬ AncOrSelf q e.path) :
    NDel (out ++ [e]) := by
  intro i j hi hj hji q hq
  rw [List.length_append, List.length_cons, List.length_nil] at hi hj
  by_cases hjl : j < out.length
  · rw [List.get_append_left _ _ hjl] at hq
    by_cases hil : i < out.length
    · rw [List.get_append_left _ _ hil]
      exact h i j hil hjl hji q hq
    · have : i = out.length := by omega
      have hget : (out ++ [e]).get ⟨i,
          by rw [List.length_append, List.length_cons, List.length_nil]; omega⟩ = e := by
        subst this
        simp
      rw [hget]
      exact hdel j hjl q hq
  · have : j = out.length := by omega
    omega

theorem ordered_of_append (out Δ : List Event) (h : Ordered (out ++ Δ)) :
    Ordered out := by
  intro i hi a hanc
  have hi' : i < (out ++ Δ).length := by rw [List.length_append]; omega
  have hg : (out ++ Δ).get ⟨i, hi'⟩ = out.get ⟨i, hi⟩ := List.get_append_left _ _ hi
  obtain ⟨j, hj, hji, st, hst⟩ := h i hi' a (by rw [hg]; exact hanc)
  have hjl : j < out.length := by omega
  refine ⟨j, hjl, hji, st, ?_⟩
  rw [← List.get_append_left _ Δ hjl]
  exact hst

/-- The archive paths of all prefixes of a chain, root included:
exactly what the pending stack can hold *during* the frame at `c`,
after the frame has pushed its own entry. -/
def ancRendersFull (c : List String) : List String :=
  (List.range (c.length + 1)).map (fun i => renderChain (c.take i))

theorem ancRendersFull_eq (c : List String) :
    ancRendersFull c = ancRenders c ++ [renderChain c] := by
  rw [ancRendersFull, ancRenders, List.range_succ, List.map_append]
  congr 1
  simp

theorem ancRendersFull_snoc_eq (c : List String) (n : String) :
    ancRenders (c ++ [n]) = ancRendersFull c := by
  rw [ancRendersFull_eq, ancRenders_snoc]

theorem mem_ancRendersFull (c : List String) (q : String) :
    q ∈ ancRendersFull c ↔ ∃ i, i ≤ c.length ∧ q = renderChain (c.take i) := by
  rw [ancRendersFull]
  constructor
  · intro h
    obtain ⟨i, hi, hq⟩ := List.mem_map.mp h
    rw [List.mem_range] at hi
    exact ⟨i, by omega, hq.symm⟩
  · intro ⟨i, hi, hq⟩
    exact List.mem_map.mpr ⟨i, List.mem_range.mpr (by omega), hq.symm⟩

theorem inU_of_ancRendersFull (c : List String) (q : String)
    (h : q ∈ ancRendersFull c) : inU c q := by
  obtain ⟨i, hi, hq⟩ := (mem_ancRendersFull c q).mp h
  exact Or.inl ⟨i, hi, hq⟩

theorem getElem_ancRendersFull (c : List String) (i : Nat)
    (hi : i < (ancRendersFull c).length) :
    (ancRendersFull c).get ⟨i, hi⟩ = renderChain (c.take i) := by
  simp only [ancRendersFull, List.get_eq_getElem, List.getElem_map, List.getElem_range]

theorem length_ancRendersFull (c : List String) :
    (ancRendersFull c).length = c.length + 1 := by
  rw [ancRendersFull]
  simp

theorem ordered_append_writedirs (o : DifferOptions) :
    ∀ (ps : List (String × StatInfo)) (out : List Event),
    Ordered out →
    (∀ idx, (h : idx < ps.length) → ∀ a, ProperAnc a (ps.get ⟨idx, h⟩).1 →
      isWrittenDir a out
      ∨ ∃ jdx, ∃ hj : jdx < ps.length, jdx < idx ∧ (ps.get ⟨jdx, hj⟩).1 = a) →
    Ordered (out ++ ps.map (fun pv => Event.write_dir pv.1 (o.stats_filter pv.2))) := by
  intro ps
  induction ps with
  | nil =>
    intro out h _
    simpa using h
  | cons p rest ih =>
    intro out hord hanc
    rw [List.map_cons, ← List.singleton_append, ← List.append_assoc]
    apply ih
    · apply ordered_append_one out _ hord
      intro a ha
      have h0 := hanc 0 (by simp) a ha
      rcases h0 with h0 | ⟨jdx, hj, hlt, _⟩
      · exact h0
      · omega
    · intro idx hidx a ha
      have h1 := hanc (idx + 1) (by simp; omega) a (by
        rw [List.get_cons_succ] at *
        exact ha)
      rcases h1 with h1 | ⟨jdx, hj, hlt, heq⟩
      · exact Or.inl (isWrittenDir_mono a out _ h1)
      · cases jdx with
        | zero =>
          refine Or.inl ⟨o.stats_filter p.2, List.mem_append_right out ?_⟩
          rw [← heq]
          simp
        | succ j' =>
          refine Or.inr ⟨j', by simp at hj ⊢; omega, by omega, ?_⟩
          rw [← heq]
          rfl

theorem ndel_append_events (out Δ : List Event) (h : NDel out)
    (hnodel : ∀ e ∈ Δ, ∀ q, e ≠ .delete_marker q)
    (hsafe : ∀ j, (hj : j < out.length) → ∀ q,
      out.get ⟨j, hj⟩ = .delete_marker q → ∀ e ∈ Δ, ¬ AncOrSelf q e.path) :
    NDel (out ++ Δ) := by
  induction Δ generalizing out with
  | nil => simpa using h
  | cons e rest ih =>
    rw [← List.singleton_append, ← List.append_assoc]
    apply ih
    · apply ndel_append_one out e h
      intro j hj q hq
      exact hsafe j hj q hq e (by simp)
    · intro e' he' q hq
      exact hnodel e' (by simp [he']) q hq
    · intro j hj q hq e' he'
      rw [List.length_append, List.length_cons, List.length_nil] at hj
      by_cases hjl : j < out.length
      · rw [List.get_append_left _ _ hjl] at hq
        exact hsafe j hjl q hq e' (by simp [he'])
      · exfalso
        have hje : j = out.length := by omega
        have : (out ++ [e]).get ⟨j, by
            rw [List.length_append, List.length_cons, List.length_nil]; omega⟩ = e := by
          subst hje
          simp
        rw [this] at hq
        exact hnodel e (by simp) q hq

theorem flushPending_spec (o : DifferOptions) (c : List String)
    (hc : ∀ m ∈ c, validName m = true) (s : DiffState) (k : Nat)
    (hpaths : pathsOf s.pending = (ancRendersFull c).drop k)
    (hwr : ∀ i, i < k → i ≤ c.length → isWrittenDir (renderChain (c.take i)) s.output)
    (hord : Ordered s.output) (hnd : NDel s.output)
    (hsafe : ∀ j, (hj : j < s.output.length) → ∀ q,
      s.output.get ⟨j, hj⟩ = .delete_marker q →
      ∀ p ∈ ancRendersFull c, ¬ AncOrSelf q p) :
    (flushPending o s).pending = []
    ∧ (flushPending o s).output
        = s.output ++ s.pending.map (fun pv => Event.write_dir pv.1 (o.stats_filter pv.2))
    ∧ (∀ e ∈ s.pending.map (fun pv => Event.write_dir pv.1 (o.stats_filter pv.2)),
        e.path ∈ ancRendersFull c ∧ ∀ q, e ≠ Event.delete_marker q)
    ∧ Ordered (flushPending o s).output
    ∧ NDel (flushPending o s).output
    ∧ ∀ i, i ≤ c.length → isWrittenDir (renderChain (c.take i)) (flushPending o s).output := by
  have hplen : s.pending.length = (ancRendersFull c).length - k := by
    have := congrArg List.length hpaths
    rw [pathsOf, List.length_map, List.length_drop] at this
    exact this
  have hget : ∀ idx, (h : idx < s.pending.length) →
      (s.pending.get ⟨idx, h⟩).1 = renderChain (c.take (k + idx)) ∧ k + idx ≤ c.length := by
    intro idx h
    have hbound : k + idx < (ancRendersFull c).length := by
      rw [length_ancRendersFull] at hplen ⊢
      omega
    have h1 : (pathsOf s.pending)[idx]? = some (s.pending.get ⟨idx, h⟩).1 := by
      show (s.pending.map Prod.fst)[idx]? = _
      rw [List.getElem?_map, List.getElem?_eq_getElem h]
      rfl
    have h2 : ((ancRendersFull c).drop k)[idx]? = some (renderChain (c.take (k + idx))) := by
      rw [List.getElem?_drop, List.getElem?_eq_getElem hbound]
      congr 1
      exact getElem_ancRendersFull c (k + idx) hbound
    rw [hpaths, h2] at h1
    refine ⟨?_, by rw [length_ancRendersFull] at hbound; omega⟩
    injection h1 with h1
    exact h1.symm
  have hmemΔ : ∀ e ∈ s.pending.map (fun pv => Event.write_dir pv.1 (o.stats_filter pv.2)),
      e.path ∈ ancRendersFull c ∧ ∀ q, e ≠ Event.delete_marker q := by
    intro e he
    obtain ⟨pv, hpv, rfl⟩ := List.mem_map.mp he
    obtain ⟨idx, hidx, hpveq⟩ := List.mem_iff_getElem.mp hpv
    constructor
    · show pv.1 ∈ _
      have := (hget idx hidx).1
      rw [show s.pending.get ⟨idx, hidx⟩ = pv from hpveq] at this
      rw [this]
      exact (mem_ancRendersFull c _).mpr ⟨k + idx, (hget idx hidx).2, rfl⟩
    · intro q hq
      exact Event.noConfusion hq
  refine ⟨rfl, rfl, hmemΔ, ?_, ?_, ?_⟩
  · -- Ordered
    apply ordered_append_writedirs o s.pending s.output hord
    intro idx hidx a ha
    obtain ⟨hpath, hle⟩ := hget idx hidx
    rw [hpath] at ha
    obtain ⟨j, hj, haj⟩ := properAnc_render_inv (c.take (k + idx))
      (fun m hm => hc m (List.take_subset _ c hm)) a ha
    rw [List.length_take] at hj
    rw [List.take_take] at haj
    have hjmin : j < k + idx := by omega
    have hjc : j ≤ c.length := by omega
    rw [Nat.min_def, if_pos (by omega : j ≤ k + idx)] at haj
    by_cases hjk : j < k
    · exact Or.inl (haj ▸ hwr j hjk hjc)
    · refine Or.inr ⟨j - k, by omega, by omega, ?_⟩
      rw [(hget (j - k) (by omega)).1]
      rw [haj]
      congr 2
      omega
  · -- NDel
    apply ndel_append_events _ _ hnd
    · intro e he q
      exact (hmemΔ e he).2 q
    · intro j hj q hq e he
      exact hsafe j hj q hq e.path (hmemΔ e he).1
  · -- everything written
    intro i hi
    by_cases hik : i < k
    · exact isWrittenDir_mono _ _ _ (hwr i hik hi)
    · have hbound : i - k < s.pending.length := by
        rw [hplen, length_ancRendersFull]
        omega
      have := (hget (i - k) hbound).1
      have hieq : k + (i - k) = i := by omega
      rw [hieq] at this
      refine ⟨o.stats_filter (s.pending.get ⟨i - k, hbound⟩).2, List.mem_append_right _ ?_⟩
      rw [← this]
      exact List.mem_map.mpr ⟨s.pending.get ⟨i - k, hbound⟩, List.get_mem _ _ _, rfl⟩

/-- A block of sink calls containing no deletion marker. -/
def NoDeleteIn (Δ : List Event) : Prop := ∀ e ∈ Δ, ∀ q, e ≠ Event.delete_marker q

/-- Every deletion marker in the trace is disjoint from every path
satisfying `X`: nothing at or below a deleted path is ever touched by
the calls still to come. -/
def DelSafe (out : List Event) (X : String → Prop) : Prop :=
  ∀ j, (hj : j < out.length) → ∀ q, out.get ⟨j, hj⟩ = Event.delete_marker q →
    ∀ p, X p → ¬ AncOrSelf q p

theorem get_append_mem_right (out Δ : List Event) (j : Nat)
    (hj : j < (out ++ Δ).length) (h : ¬ j < out.length) :
    (out ++ Δ).get ⟨j, hj⟩ ∈ Δ := by
  rw [List.length_append] at hj
  have h2 : (out ++ Δ).get ⟨j, by rw [List.length_append]; omega⟩
      = Δ.get ⟨j - out.length, by omega⟩ := by
    simp [List.getElem_append_right (by omega : out.length ≤ j)]
  rw [h2]
  exact List.get_mem _ _ _

theorem delSafe_append (out Δ : List Event) (X : String → Prop)
    (h : DelSafe out X) (hΔ : NoDeleteIn Δ) : DelSafe (out ++ Δ) X := by
  intro j hj q hq p hp
  by_cases hjl : j < out.length
  · rw [List.get_append_left _ _ hjl] at hq
    exact h j hjl q hq p hp
  · exact absurd hq (hΔ _ (get_append_mem_right out Δ j hj hjl) q)

theorem delSafe_mono (out : List Event) (X Y : String → Prop)
    (sub : ∀ p, Y p → X p) (h : DelSafe out X) : DelSafe out Y :=
  fun j hj q hq p hp => h j hj q hq p (sub p hp)

theorem flushPending_of_empty (o : DifferOptions) (s : DiffState)
    (h : s.pending = []) : flushPending o s = ⟨[], s.output⟩ := by
  rw [flushPending, h]
  simp


theorem insertChildrenGo_spec (o : DifferOptions)
    (ins : String → FsTree → DiffState → DiffState) (c : List String)
    (hc : ∀ m ∈ c, validName m = true) :
    ∀ (ch : List (String × FsTree)) (s : DiffState), okChildren ch = true →
    (∀ (name : String) (t : FsTree), (name, t) ∈ ch → ∀ s' : DiffState,
      s'.pending = [] → Ordered s'.output → NDel s'.output →
      (∀ i, i < (c ++ [name]).length →
        isWrittenDir (renderChain ((c ++ [name]).take i)) s'.output) →
      DelSafe s'.output (AncOrSelf (renderChain (c ++ [name]))) →
      (ins (renderChain (c ++ [name])) t s').pending = []
      ∧ ∃ Δ, (ins (renderChain (c ++ [name])) t s').output = s'.output ++ Δ
          ∧ (∀ e ∈ Δ, AncOrSelf (renderChain (c ++ [name])) e.path)
          ∧ NoDeleteIn Δ ∧ Ordered (s'.output ++ Δ) ∧ NDel (s'.output ++ Δ)) →
    s.pending = [] → Ordered s.output → NDel s.output →
    (∀ i, i ≤ c.length → isWrittenDir (renderChain (c.take i)) s.output) →
    DelSafe s.output (AncOrSelf (renderChain c)) →
    (insertChildrenGo ins o (renderChain c) ch s).pending = []
    ∧ ∃ Δ, (insertChildrenGo ins o (renderChain c) ch s).output = s.output ++ Δ
        ∧ (∀ e ∈ Δ, AncOrSelf (renderChain c) e.path)
        ∧ NoDeleteIn Δ ∧ Ordered (s.output ++ Δ) ∧ NDel (s.output ++ Δ) := by
  intro ch
  induction ch with
  | nil =>
    intro s _ _ hpend hord hnd _ _
    exact ⟨hpend, [], by rw [List.append_nil]; rfl, by simp, by simp [NoDeleteIn],
      by simpa using hord, by simpa using hnd⟩
  | cons nt rest ih =>
    obtain ⟨name, t⟩ := nt
    intro s hok hins hpend hord hnd hanc hsafe
    have hokx : (validName name && okTree t && okChildren rest) = true := hok
    simp only [Bool.and_eq_true] at hokx
    obtain ⟨⟨hvname, _⟩, hokrest⟩ := hokx
    have hstep : insertChildrenGo ins o (renderChain c) ((name, t) :: rest) s
        = insertChildrenGo ins o (renderChain c) rest
            (ins (renderChain (c ++ [name])) t s) := by
      rw [renderChain_snoc c name]
      rfl
    rw [hstep]
    have hres1 := hins name t (by simp) s hpend hord hnd
      (by
        intro i hi
        rw [List.length_append, List.length_cons, List.length_nil] at hi
        have hile : i ≤ c.length := by omega
        have : (c ++ [name]).take i = c.take i := by
          rw [List.take_append_eq_append_take]
          simp [Nat.sub_eq_zero_of_le hile]
        rw [this]
        exact hanc i hile)
      (delSafe_mono s.output _ _
        (fun p hp => ancOrSelf_trans _ _ _
          (Or.inr (properAnc_snoc c name hc hvname)) hp) hsafe)
    obtain ⟨hp1, Δ1, hout1, hin1, hnod1, hord1, hnd1⟩ := hres1
    have hres2 := ih (ins (renderChain (c ++ [name])) t s) hokrest
      (fun nm tt hmem s' => hins nm tt (by simp [hmem]) s')
      hp1 (hout1 ▸ hord1) (hout1 ▸ hnd1)
      (by
        intro i hi
        rw [hout1]
        exact isWrittenDir_mono _ _ _ (hanc i hi))
      (by
        rw [hout1]
        exact delSafe_append _ _ _ hsafe hnod1)
    obtain ⟨hp2, Δ2, hout2, hin2, hnod2, hord2, hnd2⟩ := hres2
    refine ⟨hp2, Δ1 ++ Δ2, ?_, ?_, ?_, ?_, ?_⟩
    · rw [hout2, hout1, List.append_assoc]
    · intro e he
      rcases List.mem_append.mp he with he | he
      · exact ancOrSelf_trans _ _ _
          (Or.inr (properAnc_snoc c name hc hvname)) (hin1 e he)
      · exact hin2 e he
    · intro e he q
      rcases List.mem_append.mp he with he | he
      · exact hnod1 e he q
      · exact hnod2 e he q
    · rw [← List.append_assoc, ← hout1]
      exact hord2
    · rw [← List.append_assoc, ← hout1]
      exact hnd2

theorem insertTreeF_spec (o : DifferOptions) : ∀ (fuel : Nat) (t : FsTree),
    heightTree t ≤ fuel → ∀ (c : List String) (s : DiffState), okTree t = true →
    (∀ m ∈ c, validName m = true) →
    s.pending = [] → Ordered s.output → NDel s.output →
    (∀ i, i < c.length → isWrittenDir (renderChain (c.take i)) s.output) →
    DelSafe s.output (AncOrSelf (renderChain c)) →
    (insertTreeF fuel o (renderChain c) t s).pending = []
    ∧ ∃ Δ, (insertTreeF fuel o (renderChain c) t s).output = s.output ++ Δ
        ∧ (∀ e ∈ Δ, AncOrSelf (renderChain c) e.path)
        ∧ NoDeleteIn Δ ∧ Ordered (s.output ++ Δ) ∧ NDel (s.output ++ Δ) := by
  intro fuel
  induction fuel with
  | zero =>
    intro t ht
    exact absurd ht (by have := heightTree_pos t; omega)
  | succ fuel ih =>
    intro t ht c s hok hc hpend hord hnd hanc hsafe
    have hanc' : ∀ a, ProperAnc a (renderChain c) → isWrittenDir a s.output := by
      intro a ha
      obtain ⟨i, hi, rfl⟩ := properAnc_render_inv c hc a ha
      exact hanc i hi
    have hflush : flushPending o s = ⟨[], s.output⟩ := flushPending_of_empty o s hpend
    cases t with
    | dir st ch =>
      have hokch : okChildren ch = true := by
        have h' : (distinctNames (ch.map Prod.fst) && okChildren ch) = true := hok
        simp only [Bool.and_eq_true] at h'
        exact h'.2
      have hstep : insertTreeF (fuel + 1) o (renderChain c) (FsTree.dir st ch) s
          = insertChildrenGo (insertTreeF fuel o) o (renderChain c) ch
              ⟨[], s.output ++ [Event.write_dir (renderChain c) (o.stats_filter st)]⟩ := by
        show insertChildrenGo (insertTreeF fuel o) o (renderChain c) ch
            (appendEvent (.write_dir (renderChain c) (o.stats_filter st))
              (flushPending o s)) = _
        rw [hflush]
        rfl
      rw [hstep]
      set e1 : Event := Event.write_dir (renderChain c) (o.stats_filter st) with he1
      have hord1 : Ordered (s.output ++ [e1]) :=
        ordered_append_one s.output e1 hord (fun a ha => hanc' a ha)
      have hnd1 : NDel (s.output ++ [e1]) :=
        ndel_append_one s.output e1 hnd (fun j hj q hq =>
          hsafe j hj q hq (renderChain c) (Or.inl rfl))
      have hres := insertChildrenGo_spec o (insertTreeF fuel o) c hc ch
        ⟨[], s.output ++ [e1]⟩ hokch
        (by
          intro name tt hmem s' hp' hord' hnd' hanc2 hsafe2
          have hht : heightTree tt ≤ fuel := by
            have h1 : heightTree tt ≤ heightChildren ch :=
              mem_heightChildren_le ch (name, tt) hmem
            have h2 : heightTree (FsTree.dir st ch) = 1 + heightChildren ch := rfl
            omega
          have hcx : ∀ m ∈ c ++ [name], validName m = true := by
            intro m hm
            rcases List.mem_append.mp hm with hm | hm
            · exact hc m hm
            · simp at hm
              exact hm ▸ (okChildren_mem ch hokch (name, tt) hmem).1
          exact ih tt hht (c ++ [name]) s'
            (okChildren_mem ch hokch (name, tt) hmem).2 hcx hp' hord' hnd' hanc2 hsafe2)
        rfl hord1 hnd1
        (by
          intro i hi
          by_cases hieq : i < c.length
          · exact isWrittenDir_mono _ _ _ (hanc i hieq)
          · have : i = c.length := by omega
            subst this
            refine ⟨o.stats_filter st, List.mem_append_right _ ?_⟩
            rw [List.take_length]
            simp [he1])
        (delSafe_append s.output [e1] _ hsafe (by
          intro e he q
          simp at he
          rw [he, he1]
          intro hcontra
          exact Event.noConfusion hcontra))
      obtain ⟨hp2, Δ2, hout2, hin2, hnod2, hord2, hnd2⟩ := hres
      refine ⟨hp2, [e1] ++ Δ2, ?_, ?_, ?_, ?_, ?_⟩
      · rw [← List.append_assoc]
        exact hout2
      · intro e he
        rcases List.mem_append.mp he with he | he
        · simp at he
          rw [he, he1]
          exact Or.inl rfl
        · exact hin2 e he
      · intro e he q
        rcases List.mem_append.mp he with he | he
        · simp at he
          rw [he, he1]
          intro hcontra
          exact Event.noConfusion hcontra
        · exact hnod2 e he q
      · rw [← List.append_assoc]
        exact hord2
      · rw [← List.append_assoc]
        exact hnd2
    | file st cbytes =>
      have hstep : insertTreeF (fuel + 1) o (renderChain c) (FsTree.file st cbytes) s
          = ⟨[], s.output
              ++ [Event.write_file (renderChain c) (o.stats_filter st) cbytes]⟩ := by
        show appendEvent (.write_file (renderChain c) (o.stats_filter st) cbytes)
            (flushPending o s) = _
        rw [hflush]
        rfl
      rw [hstep]
      refine ⟨rfl, [Event.write_file (renderChain c) (o.stats_filter st) cbytes],
        rfl, ?_, ?_, ?_, ?_⟩
      · intro e he
        simp at he
        rw [he]
        exact Or.inl rfl
      · intro e he q
        simp at he
        rw [he]
        intro hcontra
        exact Event.noConfusion hcontra
      · exact ordered_append_one s.output _ hord (fun a ha => hanc' a ha)
      · exact ndel_append_one s.output _ hnd (fun j hj q hq =>
          hsafe j hj q hq (renderChain c) (Or.inl rfl))
    | other st ln =>
      by_cases hlnk : S_ISLNK st.mode
      · have hstep : insertTreeF (fuel + 1) o (renderChain c) (FsTree.other st ln) s
            = ⟨[], s.output
                ++ [Event.write_symlink (renderChain c) (o.stats_filter st) ln]⟩ := by
          show (if S_ISLNK st.mode then
              appendEvent (.write_symlink (renderChain c) (o.stats_filter st) ln)
                (flushPending o s)
            else appendEvent (.write_other (renderChain c) (o.stats_filter st))
                (flushPending o s)) = _
          rw [if_pos hlnk, hflush]
          rfl
        rw [hstep]
        refine ⟨rfl, [Event.write_symlink (renderChain c) (o.stats_filter st) ln],
          rfl, ?_, ?_, ?_, ?_⟩
        · intro e he
          simp at he
          rw [he]
          exact Or.inl rfl
        · intro e he q
          simp at he
          rw [he]
          intro hcontra
          exact Event.noConfusion hcontra
        · exact ordered_append_one s.output _ hord (fun a ha => hanc' a ha)
        · exact ndel_append_one s.output _ hnd (fun j hj q hq =>
            hsafe j hj q hq (renderChain c) (Or.inl rfl))
      · have hstep : insertTreeF (fuel + 1) o (renderChain c) (FsTree.other st ln) s
            = ⟨[], s.output
                ++ [Event.write_other (renderChain c) (o.stats_filter st)]⟩ := by
          show (if S_ISLNK st.mode then
              appendEvent (.write_symlink (renderChain c) (o.stats_filter st) ln)
                (flushPending o s)
            else appendEvent (.write_other (renderChain c) (o.stats_filter st))
                (flushPending o s)) = _
          rw [if_neg hlnk, hflush]
          rfl
        rw [hstep]
        refine ⟨rfl, [Event.write_other (renderChain c) (o.stats_filter st)],
          rfl, ?_, ?_, ?_, ?_⟩
        · intro e he
          simp at he
          rw [he]
          exact Or.inl rfl
        · intro e he q
          simp at he
          rw [he]
          intro hcontra
          exact Event.noConfusion hcontra
        · exact ordered_append_one s.output _ hord (fun a ha => hanc' a ha)
        · exact ndel_append_one s.output _ hnd (fun j hj q hq =>
            hsafe j hj q hq (renderChain c) (Or.inl rfl))

theorem insertTree_spec (o : DifferOptions) (t : FsTree) (c : List String)
    (s : DiffState) (hok : okTree t = true)
    (hc : ∀ m ∈ c, validName m = true)
    (hpend : s.pending = []) (hord : Ordered s.output) (hnd : NDel s.output)
    (hanc : ∀ i, i < c.length → isWrittenDir (renderChain (c.take i)) s.output)
    (hsafe : DelSafe s.output (AncOrSelf (renderChain c))) :
    (insertTree o (renderChain c) t s).pending = []
    ∧ ∃ Δ, (insertTree o (renderChain c) t s).output = s.output ++ Δ
        ∧ (∀ e ∈ Δ, AncOrSelf (renderChain c) e.path)
        ∧ NoDeleteIn Δ ∧ Ordered (s.output ++ Δ) ∧ NDel (s.output ++ Δ) :=
  insertTreeF_spec o (heightTree t) t le_rfl c s hok hc hpend hord hnd hanc hsafe

theorem diffFiles_cases (o : DifferOptions) (path : String) (m l : FsTree)
    (s : DiffState) :
    diffFiles o path m l s = insertTree o path m s ∨ diffFiles o path m l s = s := by
  rw [diffFiles]
  split_ifs <;> simp

theorem diffOther_cases (o : DifferOptions) (path : String) (m l : FsTree)
    (s : DiffState) :
    diffOther o path m l s = insertTree o path m s ∨ diffOther o path m l s = s := by
  rw [diffOther]
  split_ifs <;> simp

theorem dictPop_fst (k : String) : ∀ (l : List (String × DirEntryType)),
    (dictPop k l).1 = dictFind l k := by
  intro l
  induction l with
  | nil => rfl
  | cons kv rest ih =>
    obtain ⟨k', v'⟩ := kv
    by_cases h : k' = k
    · show (if k' = k then (some v', rest) else _).1 = if k' = k then some v' else _
      rw [if_pos h, if_pos h]
    · show (if k' = k then (some v', rest) else ((dictPop k rest).1, _)).1
        = if k' = k then some v' else dictFind rest k
      rw [if_neg h, if_neg h]
      exact ih

theorem mem_dictPop (k : String) : ∀ (l : List (String × DirEntryType)) kv,
    kv ∈ (dictPop k l).2 → kv ∈ l := by
  intro l
  induction l with
  | nil => intro kv h; exact absurd h (by simp [dictPop])
  | cons kv' rest ih =>
    obtain ⟨k', v'⟩ := kv'
    intro kv h
    by_cases hk : k' = k
    · have : (dictPop k ((k', v') :: rest)).2 = rest := by
        show (if k' = k then (some v', rest) else _).2 = rest
        rw [if_pos hk]
      rw [this] at h
      exact List.mem_cons_of_mem _ h
    · have : (dictPop k ((k', v') :: rest)).2 = (k', v') :: (dictPop k rest).2 := by
        show (if k' = k then (some v', rest)
          else ((dictPop k rest).1, (k', v') :: (dictPop k rest).2)).2 = _
        rw [if_neg hk]
      rw [this] at h
      rcases List.mem_cons.mp h with rfl | h
      · exact List.mem_cons_self _ _
      · exact List.mem_cons_of_mem _ (ih kv h)

theorem dictPop_distinct (k : String) : ∀ (l : List (String × DirEntryType)),
    distinctNames (l.map Prod.fst) = true →
    distinctNames ((dictPop k l).2.map Prod.fst) = true := by
  intro l
  induction l with
  | nil => intro _; simp [dictPop, distinctNames]
  | cons kv' rest ih =>
    obtain ⟨k', v'⟩ := kv'
    intro hd
    have hd' : (!((rest.map Prod.fst).contains k') && distinctNames (rest.map Prod.fst)) = true := hd
    simp only [Bool.and_eq_true] at hd'
    by_cases hk : k' = k
    · have : (dictPop k ((k', v') :: rest)).2 = rest := by
        show (if k' = k then (some v', rest) else _).2 = rest
        rw [if_pos hk]
      rw [this]
      exact hd'.2
    · have : (dictPop k ((k', v') :: rest)).2 = (k', v') :: (dictPop k rest).2 := by
        show (if k' = k then (some v', rest) else ((dictPop k rest).1, (k', v') :: (dictPop k rest).2)).2 = _
        rw [if_neg hk]
      rw [this]
      show (!(((dictPop k rest).2.map Prod.fst).contains k')
          && distinctNames ((dictPop k rest).2.map Prod.fst)) = true
      simp only [Bool.and_eq_true]
      refine ⟨?_, ih hd'.2⟩
      have h1 := hd'.1
      rw [Bool.not_eq_true'] at h1 ⊢
      by_contra hcontra
      rw [Bool.not_eq_false] at hcontra
      have hmem := List.mem_of_elem_eq_true hcontra
      obtain ⟨kvp, hkvp, hkvp2⟩ := List.mem_map.mp hmem
      have hrest : kvp ∈ rest := mem_dictPop k rest kvp hkvp
      have : (rest.map Prod.fst).contains k' = true :=
        List.elem_eq_true_of_mem (List.mem_map.mpr ⟨kvp, hrest, hkvp2⟩)
      rw [h1] at this
      exact Bool.noConfusion this

theorem dictPop_no_key (k : String) : ∀ (l : List (String × DirEntryType)),
    distinctNames (l.map Prod.fst) = true →
    ∀ kv ∈ (dictPop k l).2, kv.1 ≠ k := by
  intro l
  induction l with
  | nil => intro _ kv h; exact absurd h (by simp [dictPop])
  | cons kv' rest ih =>
    obtain ⟨k', v'⟩ := kv'
    intro hd kv h
    have hd' : (!((rest.map Prod.fst).contains k') && distinctNames (rest.map Prod.fst)) = true := hd
    simp only [Bool.and_eq_true] at hd'
    by_cases hk : k' = k
    · have : (dictPop k ((k', v') :: rest)).2 = rest := by
        show (if k' = k then (some v', rest) else _).2 = rest
        rw [if_pos hk]
      rw [this] at h
      intro hcontra
      have h1 := hd'.1
      rw [Bool.not_eq_true'] at h1
      have hin : (rest.map Prod.fst).contains k' = true :=
        List.elem_eq_true_of_mem (List.mem_map.mpr ⟨kv, h, by rw [hcontra, hk]⟩)
      rw [h1] at hin
      exact Bool.noConfusion hin
    · have : (dictPop k ((k', v') :: rest)).2 = (k', v') :: (dictPop k rest).2 := by
        show (if k' = k then (some v', rest) else ((dictPop k rest).1, (k', v') :: (dictPop k rest).2)).2 = _
        rw [if_neg hk]
      rw [this] at h
      rcases List.mem_cons.mp h with rfl | h
      · exact hk
      · exact ih hd'.2 kv h

theorem mem_remainingMap : ∀ (entries : List (String × FsTree))
    (lmap : List (String × DirEntryType)) (kv : String × DirEntryType),
    kv ∈ remainingMap entries lmap → kv ∈ lmap := by
  intro entries
  induction entries with
  | nil => intro lmap kv h; exact h
  | cons e rest ih =>
    intro lmap kv h
    have h1 : kv ∈ (dictPop e.1 lmap).2 := ih _ kv h
    exact mem_dictPop e.1 lmap kv h1

theorem remainingMap_distinct : ∀ (entries : List (String × FsTree))
    (lmap : List (String × DirEntryType)),
    distinctNames (lmap.map Prod.fst) = true →
    distinctNames ((remainingMap entries lmap).map Prod.fst) = true := by
  intro entries
  induction entries with
  | nil => intro lmap h; exact h
  | cons e rest ih =>
    intro lmap h
    exact ih _ (dictPop_distinct e.1 lmap h)

theorem mem_remainingMap_not_entry : ∀ (entries : List (String × FsTree))
    (lmap : List (String × DirEntryType)),
    distinctNames (lmap.map Prod.fst) = true →
    ∀ kv ∈ remainingMap entries lmap, kv.1 ∉ entries.map Prod.fst := by
  intro entries
  induction entries with
  | nil => intro lmap _ kv _ h; simp at h
  | cons e rest ih =>
    intro lmap hd kv hkv hmem
    rcases List.mem_cons.mp hmem with heq | hmem
    · have h1 : kv ∈ (dictPop e.1 lmap).2 := mem_remainingMap rest _ kv hkv
      exact dictPop_no_key e.1 lmap hd kv h1 heq
    · exact ih (dictPop e.1 lmap).2 (dictPop_distinct e.1 lmap hd) kv hkv hmem

theorem delSafe_parts (out Δ : List Event) (c : List String) (doneNames : List String)
    (hold : DelSafe out (inU c))
    (htags : ∀ q, Event.delete_marker q ∈ Δ → ∃ nm ∈ doneNames,
      AncOrSelf (renderChain (c ++ [nm])) q)
    (X : String → Prop)
    (hX : ∀ p, X p → inU c p
      ∧ ∀ nm ∈ doneNames, ∀ q, AncOrSelf (renderChain (c ++ [nm])) q →
          ¬ AncOrSelf q p) :
    DelSafe (out ++ Δ) X := by
  intro j hj q hq p hp
  by_cases hjl : j < out.length
  · rw [List.get_append_left _ _ hjl] at hq
    exact hold j hjl q hq p (hX p hp).1
  · have hmem : Event.delete_marker q ∈ Δ := by
      have := get_append_mem_right out Δ j hj hjl
      rw [hq] at this
      exact this
    obtain ⟨nm, hnm, hanc⟩ := htags q hmem
    exact (hX p hp).2 nm hnm q hanc

theorem flushPending_idem (o : DifferOptions) (s : DiffState) :
    flushPending o (flushPending o s) = flushPending o s := by
  simp [flushPending]

theorem insertTreeF_flush (o : DifferOptions) (fuel : Nat) (path : String)
    (t : FsTree) (s : DiffState) :
    insertTreeF (fuel + 1) o path t s
      = insertTreeF (fuel + 1) o path t (flushPending o s) := by
  cases t with
  | dir st ch =>
    show insertChildrenGo _ o path ch
        (appendEvent _ (flushPending o s)) = insertChildrenGo _ o path ch
        (appendEvent _ (flushPending o (flushPending o s)))
    rw [flushPending_idem]
  | file st c =>
    show appendEvent _ (flushPending o s) = appendEvent _ (flushPending o (flushPending o s))
    rw [flushPending_idem]
  | other st ln =>
    show (if S_ISLNK st.mode then appendEvent _ (flushPending o s)
        else appendEvent _ (flushPending o s))
      = (if S_ISLNK st.mode then appendEvent _ (flushPending o (flushPending o s))
        else appendEvent _ (flushPending o (flushPending o s)))
    rw [flushPending_idem]

theorem insertTree_flush (o : DifferOptions) (path : String) (t : FsTree)
    (s : DiffState) :
    insertTree o path t s = insertTree o path t (flushPending o s) := by
  rw [insertTree, insertTree]
  obtain ⟨f, hf⟩ : ∃ f, heightTree t = f + 1 := by
    have := heightTree_pos t
    exact ⟨heightTree t - 1, by omega⟩
  rw [hf]
  exact insertTreeF_flush o f path t s

theorem diffPush_cases (o : DifferOptions) (path : String) (mstat lstat : StatInfo)
    (s : DiffState) :
    diffPush o path mstat lstat s
        = flushPending o ⟨s.pending ++ [(path, mstat)], s.output⟩
    ∨ diffPush o path mstat lstat s = ⟨s.pending ++ [(path, mstat)], s.output⟩ := by
  rw [diffPush]
  split_ifs <;> simp

/-- All facts carried through a `_diff_dirs` frame at chain `c` while
its merged-entry loop runs: the trace so far splits into the pre-frame
trace `out0` and frame-local calls confined to the frame's universe,
frame-local deletion markers sit inside cones of already-processed
child names, the pending stack is the pre-frame stack plus the frame's
own entry (or fully flushed), the stack holds a suffix of the prefix
renders with everything below it already written, and the two global
trace invariants hold. -/
structure MidFrame (c : List String) (out0 : List Event)
    (pend0 : List (String × StatInfo)) (mst : StatInfo)
    (doneNames : List String) (s2 : DiffState) : Prop where
  split : ∃ Δacc, s2.output = out0 ++ Δacc
    ∧ (∀ e ∈ Δacc, inU c e.path)
    ∧ (∀ q, Event.delete_marker q ∈ Δacc → ∃ nm ∈ doneNames,
        AncOrSelf (renderChain (c ++ [nm])) q)
  shape : s2.pending = pend0 ++ [(renderChain c, mst)] ∨ s2.pending = []
  pchar : ∃ k, k ≤ c.length + 1 ∧ pathsOf s2.pending = (ancRendersFull c).drop k
    ∧ ∀ i, i < k → i ≤ c.length → isWrittenDir (renderChain (c.take i)) s2.output
  ordr : Ordered s2.output
  ndel : NDel s2.output

theorem midFrame_mono_done (c : List String) (out0 : List Event)
    (pend0 : List (String × StatInfo)) (mst : StatInfo)
    (doneNames doneNames' : List String) (s2 : DiffState)
    (hsub : ∀ nm ∈ doneNames, nm ∈ doneNames')
    (h : MidFrame c out0 pend0 mst doneNames s2) :
    MidFrame c out0 pend0 mst doneNames' s2 := by
  obtain ⟨Δacc, h1, h2, h3⟩ := h.split
  exact ⟨⟨Δacc, h1, h2, fun q hq =>
      (h3 q hq).elim fun nm hnm => ⟨nm, hsub nm hnm.1, hnm.2⟩⟩,
    h.shape, h.pchar, h.ordr, h.ndel⟩

theorem midFrame_safe (c : List String) (out0 : List Event)
    (pend0 : List (String × StatInfo)) (mst : StatInfo)
    (doneNames : List String) (s2 : DiffState)
    (hc : ∀ m ∈ c, validName m = true)
    (hdone : ∀ nm ∈ doneNames, validName nm = true)
    (hold : DelSafe out0 (inU c))
    (hmid : MidFrame c out0 pend0 mst doneNames s2)
    (X : String → Prop)
    (hXin : ∀ p, X p → inU c p)
    (hXexcl : ∀ p, X p → ∀ nm ∈ doneNames, ∀ q,
      AncOrSelf (renderChain (c ++ [nm])) q → ¬ AncOrSelf q p) :
    DelSafe s2.output X := by
  obtain ⟨Δacc, h1, _, h3⟩ := hmid.split
  have hD := delSafe_parts out0 Δacc c doneNames hold h3 X
    (fun p hp => ⟨hXin p hp, hXexcl p hp⟩)
  rw [← h1] at hD
  exact hD

theorem midframe_insert (o : DifferOptions) (c : List String) (out0 : List Event)
    (pend0 : List (String × StatInfo)) (mst : StatInfo) (doneNames : List String)
    (hc : ∀ m ∈ c, validName m = true)
    (hdone : ∀ nm ∈ doneNames, validName nm = true)
    (hold : DelSafe out0 (inU c))
    (name : String) (t : FsTree) (hvn : validName name = true)
    (hfresh : name ∉ doneNames) (hok : okTree t = true)
    (s2 : DiffState) (hmid : MidFrame c out0 pend0 mst doneNames s2) :
    MidFrame c out0 pend0 mst doneNames
      (insertTree o (renderChain (c ++ [name])) t s2)
    ∧ ∃ δ, (insertTree o (renderChain (c ++ [name])) t s2).output = s2.output ++ δ
        ∧ ∀ e ∈ δ, e.path ∈ ancRendersFull c
            ∨ AncOrSelf (renderChain (c ++ [name])) e.path := by
  obtain ⟨k, hk, hpaths, hwr⟩ := hmid.pchar
  obtain ⟨Δacc, hsp1, hsp2, hsp3⟩ := hmid.split
  have hcx : ∀ m ∈ c ++ [name], validName m = true := by
    intro m hm
    rcases List.mem_append.mp hm with hm | hm
    · exact hc m hm
    · simp at hm
      exact hm ▸ hvn
  have hsafeU : DelSafe s2.output (fun p => p ∈ ancRendersFull c) :=
    midFrame_safe c out0 pend0 mst doneNames s2 hc hdone hold hmid _
      (fun p hp => inU_of_ancRendersFull c p hp)
      (by
        intro p hp nm hnm q hq hqp
        obtain ⟨i, hi, hpe⟩ := (mem_ancRendersFull c p).mp hp
        exact cone_excl_prefix c nm hc (hdone nm hnm) i hi q p hq hqp hpe)
  obtain ⟨hfp, hfout, hfmem, hford, hfnd, hfwr⟩ :=
    flushPending_spec o c hc s2 k hpaths (fun i hik hile => hwr i hik hile)
      hmid.ordr hmid.ndel
      (fun j hj q hq p hp => hsafeU j hj q hq p hp)
  rw [insertTree_flush o (renderChain (c ++ [name])) t s2]
  set flushΔ := s2.pending.map (fun pv => Event.write_dir pv.1 (o.stats_filter pv.2))
    with hflushΔ
  have hFout : (flushPending o s2).output = out0 ++ (Δacc ++ flushΔ) := by
    rw [hfout, hsp1, List.append_assoc]
  have htags2 : ∀ q, Event.delete_marker q ∈ Δacc ++ flushΔ →
      ∃ nm ∈ doneNames, AncOrSelf (renderChain (c ++ [nm])) q := by
    intro q hq
    rcases List.mem_append.mp hq with hq | hq
    · exact hsp3 q hq
    · exact absurd rfl ((hfmem _ hq).2 q)
  have hres := insertTree_spec o t (c ++ [name]) (flushPending o s2) hok hcx hfp
    hford hfnd
    (by
      intro i hi
      rw [List.length_append, List.length_cons, List.length_nil] at hi
      have hile : i ≤ c.length := by omega
      have : (c ++ [name]).take i = c.take i := by
        rw [List.take_append_eq_append_take]
        simp [Nat.sub_eq_zero_of_le hile]
      rw [this]
      exact hfwr i hile)
    (by
      have hD := delSafe_parts out0 (Δacc ++ flushΔ) c doneNames hold htags2
        (AncOrSelf (renderChain (c ++ [name])))
        (by
          intro p hp
          refine ⟨inU_of_ancOrSelf c p (ancOrSelf_trans _ _ _
            (Or.inr (properAnc_snoc c name hc hvn)) hp), ?_⟩
          intro nm hnm q hq hqp
          have hne : nm ≠ name := fun he => hfresh (he ▸ hnm)
          exact cone_excl_sibling c nm name hc (hdone nm hnm) hvn hne q p hq hqp
            (inU_of_ancOrSelf _ p hp))
      rw [← hFout] at hD
      exact hD)
  obtain ⟨hip, insΔ, hiout, hiin, hinod, hiord, hind⟩ := hres
  have hRout : (insertTree o (renderChain (c ++ [name])) t (flushPending o s2)).output
      = out0 ++ (Δacc ++ flushΔ ++ insΔ) := by
    rw [hiout, hFout, List.append_assoc]
  refine ⟨⟨⟨Δacc ++ flushΔ ++ insΔ, hRout, ?_, ?_⟩, Or.inr hip, ?_, ?_, ?_⟩,
    ⟨flushΔ ++ insΔ, ?_, ?_⟩⟩
  · intro e he
    rcases List.mem_append.mp he with he | he
    · rcases List.mem_append.mp he with he | he
      · exact hsp2 e he
      · exact inU_of_ancRendersFull c _ (hfmem e he).1
    · exact inU_of_ancOrSelf c _ (ancOrSelf_trans _ _ _
        (Or.inr (properAnc_snoc c name hc hvn)) (hiin e he))
  · intro q hq
    rcases List.mem_append.mp hq with hq | hq
    · exact htags2 q hq
    · exact absurd rfl (hinod _ hq q)
  · refine ⟨c.length + 1, le_refl _, ?_, ?_⟩
    · rw [show (insertTree o (renderChain (c ++ [name])) t (flushPending o s2)).pending
          = [] from hip]
      rw [show (c.length + 1) = (ancRendersFull c).length from
        (length_ancRendersFull c).symm]
      rw [List.drop_length]
      rfl
    · intro i _ hile
      have h1 := hfwr i hile
      obtain ⟨st, hst⟩ := h1
      refine ⟨st, ?_⟩
      rw [hiout]
      exact List.mem_append_left _ hst
  · rw [← hiout] at hiord
    exact hiord
  · rw [← hiout] at hind
    exact hind
  · rw [hiout, hfout, List.append_assoc]
  · intro e he
    rcases List.mem_append.mp he with he | he
    · exact Or.inl (hfmem e he).1
    · exact Or.inr (hiin e he)

theorem dictFind_mem {β : Type} : ∀ (l : List (String × β)) (k : String) (v : β),
    dictFind l k = some v → (k, v) ∈ l := by
  intro l
  induction l with
  | nil => intro k v h; exact absurd h (by simp [dictFind])
  | cons kv rest ih =>
    obtain ⟨k', v'⟩ := kv
    intro k v h
    by_cases hk : k' = k
    · have : dictFind ((k', v') :: rest) k = some v' := by
        show (if k' = k then some v' else _) = _
        rw [if_pos hk]
      rw [this] at h
      injection h with h
      subst hk
      rw [h]
      exact List.mem_cons_self _ _
    · have : dictFind ((k', v') :: rest) k = dictFind rest k := by
        show (if k' = k then some v' else _) = _
        rw [if_neg hk]
      rw [this] at h
      exact List.mem_cons_of_mem _ (ih k v h)

/-- The full behavioural specification of a `_diff_dirs` frame with
recursion budget `fuel`, used as the induction hypothesis across the
recursion: the frame appends only calls inside its universe, its
deletion markers only strictly below its own path, it restores the
pending stack (or leaves it flushed with every prefix written), and it
preserves the two global trace invariants. -/
def FrameSpec (o : DifferOptions) (fuel : Nat) : Prop :=
  ∀ (m l : FsTree) (c : List String) (s : DiffState) (k : Nat),
    heightTree m ≤ fuel →
    okTree m = true → okTree l = true →
    (∀ x ∈ c, validName x = true) →
    k ≤ c.length →
    pathsOf s.pending = (ancRenders c).drop k →
    (∀ i, i < k → i < c.length → isWrittenDir (renderChain (c.take i)) s.output) →
    Ordered s.output → NDel s.output →
    DelSafe s.output (inU c) →
    ∃ Δ, (diffDirsF fuel o (renderChain c) m l s).output = s.output ++ Δ
      ∧ (∀ e ∈ Δ, inU c e.path)
      ∧ (∀ q, Event.delete_marker q ∈ Δ → ProperAnc (renderChain c) q)
      ∧ ((diffDirsF fuel o (renderChain c) m l s).pending = s.pending
          ∨ ((diffDirsF fuel o (renderChain c) m l s).pending = []
             ∧ ∀ i, i ≤ c.length →
                 isWrittenDir (renderChain (c.take i)) (s.output ++ Δ)))
      ∧ Ordered (s.output ++ Δ) ∧ NDel (s.output ++ Δ)

theorem midframe_recur (o : DifferOptions) (fuel : Nat) (hframe : FrameSpec o fuel)
    (c : List String) (out0 : List Event) (pend0 : List (String × StatInfo))
    (mst : StatInfo) (doneNames : List String)
    (hc : ∀ m ∈ c, validName m = true)
    (hdone : ∀ nm ∈ doneNames, validName nm = true)
    (hold : DelSafe out0 (inU c))
    (name : String) (t lt : FsTree) (hvn : validName name = true)
    (hfresh : name ∉ doneNames)
    (hokm : okTree t = true) (hokl : okTree lt = true) (hht : heightTree t ≤ fuel)
    (s2 : DiffState) (hmid : MidFrame c out0 pend0 mst doneNames s2) :
    MidFrame c out0 pend0 mst (doneNames ++ [name])
      (diffDirsF fuel o (renderChain (c ++ [name])) t lt s2)
    ∧ ∃ δ, (diffDirsF fuel o (renderChain (c ++ [name])) t lt s2).output
        = s2.output ++ δ ∧ ∀ e ∈ δ, inU (c ++ [name]) e.path := by
  obtain ⟨k, hk, hpaths, hwr⟩ := hmid.pchar
  obtain ⟨Δacc, hsp1, hsp2, hsp3⟩ := hmid.split
  have hcx : ∀ m ∈ c ++ [name], validName m = true := by
    intro m hm
    rcases List.mem_append.mp hm with hm | hm
    · exact hc m hm
    · simp at hm
      exact hm ▸ hvn
  have hsafeC : DelSafe s2.output (inU (c ++ [name])) :=
    midFrame_safe c out0 pend0 mst doneNames s2 hc hdone hold hmid _
      (fun p hp => inU_snoc_sub c name hc hvn p hp)
      (by
        intro p hp nm hnm q hq hqp
        have hne : nm ≠ name := fun he => hfresh (he ▸ hnm)
        exact cone_excl_sibling c nm name hc (hdone nm hnm) hvn hne q p hq hqp hp)
  have hres := hframe t lt (c ++ [name]) s2 k hht hokm hokl hcx
    (by rw [List.length_append, List.length_cons, List.length_nil]; omega)
    (by rw [ancRendersFull_snoc_eq]; exact hpaths)
    (by
      intro i hik hilt
      rw [List.length_append, List.length_cons, List.length_nil] at hilt
      have hile : i ≤ c.length := by omega
      have : (c ++ [name]).take i = c.take i := by
        rw [List.take_append_eq_append_take]
        simp [Nat.sub_eq_zero_of_le hile]
      rw [this]
      exact hwr i hik hile)
    hmid.ordr hmid.ndel hsafeC
  obtain ⟨Δc, hcout, hcin, hcdel, hcpend, hcord, hcnd⟩ := hres
  set R := diffDirsF fuel o (renderChain (c ++ [name])) t lt s2 with hR
  have hRout : R.output = out0 ++ (Δacc ++ Δc) := by
    rw [hcout, hsp1, List.append_assoc]
  have hdone' : ∀ nm ∈ doneNames ++ [name], validName nm = true := by
    intro nm hnm
    rcases List.mem_append.mp hnm with hnm | hnm
    · exact hdone nm hnm
    · simp at hnm
      exact hnm ▸ hvn
  refine ⟨⟨⟨Δacc ++ Δc, hRout, ?_, ?_⟩, ?_, ?_, ?_, ?_⟩, ⟨Δc, hcout, hcin⟩⟩
  · intro e he
    rcases List.mem_append.mp he with he | he
    · exact hsp2 e he
    · exact inU_snoc_sub c name hc hvn _ (hcin e he)
  · intro q hq
    rcases List.mem_append.mp hq with hq | hq
    · obtain ⟨nm, hnm, hanc⟩ := hsp3 q hq
      exact ⟨nm, List.mem_append_left _ hnm, hanc⟩
    · exact ⟨name, List.mem_append_right _ (by simp), Or.inr (hcdel q hq)⟩
  · rcases hcpend with hcp | ⟨hcp, _⟩
    · rw [hcp]
      exact hmid.shape
    · rw [hcp]
      exact Or.inr rfl
  · rcases hcpend with hcp | ⟨hcp, hcwr⟩
    · refine ⟨k, hk, by rw [hcp]; exact hpaths, ?_⟩
      intro i hik hile
      obtain ⟨st, hst⟩ := hwr i hik hile
      refine ⟨st, ?_⟩
      rw [hcout]
      exact List.mem_append_left _ hst
    · refine ⟨c.length + 1, le_refl _, ?_, ?_⟩
      · rw [hcp]
        rw [show (c.length + 1) = (ancRendersFull c).length from
          (length_ancRendersFull c).symm]
        rw [List.drop_length]
        rfl
      · intro i _ hile
        have h1 := hcwr i (by
          rw [List.length_append, List.length_cons, List.length_nil]
          omega)
        have : (c ++ [name]).take i = c.take i := by
          rw [List.take_append_eq_append_take]
          simp [Nat.sub_eq_zero_of_le hile]
        rw [this] at h1
        obtain ⟨st, hst⟩ := h1
        refine ⟨st, ?_⟩
        rw [hcout]
        exact hst
  · rw [← hcout] at hcord
    exact hcord
  · rw [← hcout] at hcnd
    exact hcnd

theorem diffChildrenGo_frame (o : DifferOptions) (fuel : Nat)
    (hframe : FrameSpec o fuel) (c : List String) (out0 : List Event)
    (pend0 : List (String × StatInfo)) (mst : StatInfo)
    (hc : ∀ m ∈ c, validName m = true)
    (hold : DelSafe out0 (inU c))
    (lch : List (String × FsTree))
    (hlch : ∀ nt ∈ lch, validName nt.1 = true ∧ okTree nt.2 = true)
    (hlchd : distinctNames (lch.map Prod.fst) = true) :
    ∀ (entries : List (String × FsTree)) (doneNames : List String)
      (lmap : List (String × DirEntryType)) (s2 : DiffState),
    (∀ nt ∈ entries, validName nt.1 = true ∧ okTree nt.2 = true
      ∧ heightTree nt.2 ≤ fuel) →
    distinctNames (entries.map Prod.fst) = true →
    (∀ nt ∈ entries, nt.1 ∉ doneNames) →
    (∀ nm ∈ doneNames, validName nm = true) →
    (∀ kv ∈ lmap, ∃ ltc, (kv.1, ltc) ∈ lch ∧ kindOf ltc = kv.2) →
    MidFrame c out0 pend0 mst doneNames s2 →
    MidFrame c out0 pend0 mst (doneNames ++ entries.map Prod.fst)
      (diffChildrenGo (diffDirsF fuel o) o (renderChain c) lch entries lmap s2) := by
  intro entries
  induction entries with
  | nil =>
    intro doneNames lmap s2 _ _ _ _ _ hmid
    exact midFrame_mono_done c out0 pend0 mst doneNames _ _
      (fun nm hnm => by simp [hnm]) hmid
  | cons nt rest ih =>
    obtain ⟨name, t⟩ := nt
    intro doneNames lmap s2 hok hdist hfresh hdone hlmap hmid
    obtain ⟨⟨hvn, hokt, hht⟩, hokrest⟩ :
        (validName name = true ∧ okTree t = true ∧ heightTree t ≤ fuel)
        ∧ ∀ nt ∈ rest, validName nt.1 = true ∧ okTree nt.2 = true
            ∧ heightTree nt.2 ≤ fuel :=
      ⟨hok (name, t) (by simp), fun nt hnt => hok nt (by simp [hnt])⟩
    have hdistx : (!((rest.map Prod.fst).contains name)
        && distinctNames (rest.map Prod.fst)) = true := hdist
    simp only [Bool.and_eq_true] at hdistx
    have hfreshx : name ∉ doneNames := hfresh (name, t) (by simp)
    have hdone' : ∀ nm ∈ doneNames ++ [name], validName nm = true := by
      intro nm hnm
      rcases List.mem_append.mp hnm with hnm | hnm
      · exact hdone nm hnm
      · simp at hnm
        exact hnm ▸ hvn
    have hstep : diffChildrenGo (diffDirsF fuel o) o (renderChain c) lch
        ((name, t) :: rest) lmap s2
        = diffChildrenGo (diffDirsF fuel o) o (renderChain c) lch rest
            (dictPop name lmap).2
            (if kindOf t = DirEntryType.directory then
               (if (dictPop name lmap).1 = some DirEntryType.directory then
                 diffDirsF fuel o (renderChain (c ++ [name])) t (childDir lch name) s2
               else insertTree o (renderChain (c ++ [name])) t s2)
             else if kindOf t = DirEntryType.regular_file then
               (if (dictPop name lmap).1 = some DirEntryType.regular_file then
                 diffFiles o (renderChain (c ++ [name])) t (childFile lch name) s2
               else insertTree o (renderChain (c ++ [name])) t s2)
             else
               (if (dictPop name lmap).1 = some DirEntryType.other then
                 diffOther o (renderChain (c ++ [name])) t (childPath lch name) s2
               else insertTree o (renderChain (c ++ [name])) t s2)) := by
      rw [renderChain_snoc c name]
      rfl
    rw [hstep]
    have hmid' : MidFrame c out0 pend0 mst (doneNames ++ [name])
        (if kindOf t = DirEntryType.directory then
           (if (dictPop name lmap).1 = some DirEntryType.directory then
             diffDirsF fuel o (renderChain (c ++ [name])) t (childDir lch name) s2
           else insertTree o (renderChain (c ++ [name])) t s2)
         else if kindOf t = DirEntryType.regular_file then
           (if (dictPop name lmap).1 = some DirEntryType.regular_file then
             diffFiles o (renderChain (c ++ [name])) t (childFile lch name) s2
           else insertTree o (renderChain (c ++ [name])) t s2)
         else
           (if (dictPop name lmap).1 = some DirEntryType.other then
             diffOther o (renderChain (c ++ [name])) t (childPath lch name) s2
           else insertTree o (renderChain (c ++ [name])) t s2)) := by
      have hmidins : MidFrame c out0 pend0 mst (doneNames ++ [name])
          (insertTree o (renderChain (c ++ [name])) t s2) :=
        midFrame_mono_done c out0 pend0 mst doneNames _ _
          (fun nm hnm => List.mem_append_left _ hnm)
          (midframe_insert o c out0 pend0 mst doneNames hc hdone hold
            name t hvn hfreshx hokt s2 hmid).1
      have hmidnoop : MidFrame c out0 pend0 mst (doneNames ++ [name]) s2 :=
        midFrame_mono_done c out0 pend0 mst doneNames _ _
          (fun nm hnm => List.mem_append_left _ hnm) hmid
      by_cases h1 : kindOf t = DirEntryType.directory
      · rw [if_pos h1]
        by_cases h2 : (dictPop name lmap).1 = some DirEntryType.directory
        · rw [if_pos h2]
          rw [dictPop_fst] at h2
          obtain ⟨ltc, hltc, hkind⟩ := hlmap (name, DirEntryType.directory)
            (dictFind_mem lmap name _ h2)
          have hfind : dictFind lch name = some ltc :=
            dictFind_self_of_distinct lch hlchd (name, ltc) hltc
          have hchildDir : childDir lch name = ltc := by
            rw [childDir, hfind]
            rfl
          rw [hchildDir]
          exact (midframe_recur o fuel hframe c out0 pend0 mst doneNames hc hdone
            hold name t ltc hvn hfreshx hokt (hlch (name, ltc) hltc).2 hht s2 hmid).1
        · rw [if_neg h2]
          exact hmidins
      · rw [if_neg h1]
        by_cases h3 : kindOf t = DirEntryType.regular_file
        · rw [if_pos h3]
          by_cases h4 : (dictPop name lmap).1 = some DirEntryType.regular_file
          · rw [if_pos h4]
            rcases diffFiles_cases o (renderChain (c ++ [name])) t
                (childFile lch name) s2 with hdf | hdf
            · rw [hdf]
              exact hmidins
            · rw [hdf]
              exact hmidnoop
          · rw [if_neg h4]
            exact hmidins
        · rw [if_neg h3]
          by_cases h5 : (dictPop name lmap).1 = some DirEntryType.other
          · rw [if_pos h5]
            rcases diffOther_cases o (renderChain (c ++ [name])) t
                (childPath lch name) s2 with hdo | hdo
            · rw [hdo]
              exact hmidins
            · rw [hdo]
              exact hmidnoop
          · rw [if_neg h5]
            exact hmidins
    have hres := ih (doneNames ++ [name]) (dictPop name lmap).2 _
      hokrest hdistx.2
      (by
        intro nt hnt hmem
        rcases List.mem_append.mp hmem with hmem | hmem
        · exact hfresh nt (by simp [hnt]) hmem
        · simp at hmem
          have hcontains : (rest.map Prod.fst).contains name = false := by
            have h0 := hdistx.1
            simp only [Bool.not_eq_true'] at h0
            exact h0
          exact not_mem_of_contains_false hcontains
            (List.mem_map.mpr ⟨nt, hnt, hmem⟩))
      hdone'
      (fun kv hkv => hlmap kv (mem_dictPop name lmap kv hkv))
      hmid'
    have hfinal : doneNames ++ [name] ++ rest.map Prod.fst
        = doneNames ++ ((name, t) :: rest).map Prod.fst := by
      rw [List.map_cons, List.append_assoc]
      rfl
    rw [← hfinal]
    exact hres

theorem length_ancRenders (c : List String) : (ancRenders c).length = c.length := by
  rw [ancRenders]
  simp

theorem properAnc_of_anc_snoc (c : List String) (nm : String)
    (hc : ∀ m ∈ c, validName m = true) (hvn : validName nm = true)
    (q : String) (h : AncOrSelf (renderChain (c ++ [nm])) q) :
    ProperAnc (renderChain c) q := by
  obtain ⟨t, hdt, _⟩ := ancOrSelf_shape _ _ h
  have hcx : ∀ m ∈ c ++ [nm], validName m = true := by
    intro m hm
    rcases List.mem_append.mp hm with hm | hm
    · exact hc m hm
    · simp at hm
      exact hm ▸ hvn
  refine ⟨nm.data ++ t, by simp [validName_ne nm hvn], ?_⟩
  rw [hdt, renderChain_data _ hcx, chainData_snoc, renderChain_data c hc]
  simp

theorem midframe_delete (o : DifferOptions) (c : List String) (out0 : List Event)
    (pend0 : List (String × StatInfo)) (mst : StatInfo) (doneNames : List String)
    (hc : ∀ m ∈ c, validName m = true)
    (hdone : ∀ nm ∈ doneNames, validName nm = true)
    (hold : DelSafe out0 (inU c))
    (name : String) (hvn : validName name = true) (hfresh : name ∉ doneNames)
    (s2 : DiffState) (hmid : MidFrame c out0 pend0 mst doneNames s2) :
    MidFrame c out0 pend0 mst (doneNames ++ [name])
      (appendEvent (.delete_marker (posixJoin (renderChain c) name))
        (flushPending o s2))
    ∧ ∃ δ, (appendEvent (.delete_marker (posixJoin (renderChain c) name))
          (flushPending o s2)).output = s2.output ++ δ
        ∧ ∀ e ∈ δ, e.path ∈ ancRendersFull c
            ∨ e.path = renderChain (c ++ [name]) := by
  obtain ⟨k, hk, hpaths, hwr⟩ := hmid.pchar
  obtain ⟨Δacc, hsp1, hsp2, hsp3⟩ := hmid.split
  have hsafeU : DelSafe s2.output (fun p => p ∈ ancRendersFull c) :=
    midFrame_safe c out0 pend0 mst doneNames s2 hc hdone hold hmid _
      (fun p hp => inU_of_ancRendersFull c p hp)
      (by
        intro p hp nm hnm q hq hqp
        obtain ⟨i, hi, hpe⟩ := (mem_ancRendersFull c p).mp hp
        exact cone_excl_prefix c nm hc (hdone nm hnm) i hi q p hq hqp hpe)
  obtain ⟨hfp, hfout, hfmem, hford, hfnd, hfwr⟩ :=
    flushPending_spec o c hc s2 k hpaths (fun i hik hile => hwr i hik hile)
      hmid.ordr hmid.ndel
      (fun j hj q hq p hp => hsafeU j hj q hq p hp)
  set flushΔ := s2.pending.map (fun pv => Event.write_dir pv.1 (o.stats_filter pv.2))
    with hflushΔ
  have hFout : (flushPending o s2).output = out0 ++ (Δacc ++ flushΔ) := by
    rw [hfout, hsp1, List.append_assoc]
  have htags2 : ∀ q, Event.delete_marker q ∈ Δacc ++ flushΔ →
      ∃ nm ∈ doneNames, AncOrSelf (renderChain (c ++ [nm])) q := by
    intro q hq
    rcases List.mem_append.mp hq with hq | hq
    · exact hsp3 q hq
    · exact absurd rfl ((hfmem _ hq).2 q)
  set e2 : Event := Event.delete_marker (posixJoin (renderChain c) name) with he2
  have he2path : Event.path e2 = renderChain (c ++ [name]) := by
    rw [he2]
    show posixJoin (renderChain c) name = _
    rw [renderChain_snoc]
  have hstep : appendEvent e2 (flushPending o s2)
      = ⟨[], (flushPending o s2).output ++ [e2]⟩ := by
    show (⟨(flushPending o s2).pending, (flushPending o s2).output ++ [e2]⟩ : DiffState) = _
    rw [hfp]
  rw [hstep]
  have hord2 : Ordered ((flushPending o s2).output ++ [e2]) := by
    apply ordered_append_one _ _ hford
    intro a ha
    rw [he2path] at ha
    have hcx : ∀ m ∈ c ++ [name], validName m = true := by
      intro m hm
      rcases List.mem_append.mp hm with hm | hm
      · exact hc m hm
      · simp at hm
        exact hm ▸ hvn
    obtain ⟨i, hi, rfl⟩ := properAnc_render_inv (c ++ [name]) hcx a ha
    rw [List.length_append, List.length_cons, List.length_nil] at hi
    have hile : i ≤ c.length := by omega
    have : (c ++ [name]).take i = c.take i := by
      rw [List.take_append_eq_append_take]
      simp [Nat.sub_eq_zero_of_le hile]
    rw [this]
    exact hfwr i hile
  have hnd2 : NDel ((flushPending o s2).output ++ [e2]) := by
    apply ndel_append_one _ _ hfnd
    intro j hj q hq
    rw [he2path]
    have hD := delSafe_parts out0 (Δacc ++ flushΔ) c doneNames hold htags2
      (fun p => p = renderChain (c ++ [name]))
      (by
        intro p hp
        subst hp
        refine ⟨inU_of_ancOrSelf c _ (Or.inr (properAnc_snoc c name hc hvn)), ?_⟩
        intro nm hnm q' hq' hqp'
        have hne : nm ≠ name := fun he => hfresh (he ▸ hnm)
        exact cone_excl_sibling c nm name hc (hdone nm hnm) hvn hne q' _ hq' hqp'
          (inU_self (c ++ [name])))
    rw [← hFout] at hD
    exact hD j hj q hq _ rfl
  refine ⟨⟨⟨Δacc ++ flushΔ ++ [e2], ?_, ?_, ?_⟩, Or.inr rfl, ?_, ?_, ?_⟩,
    ⟨flushΔ ++ [e2], ?_, ?_⟩⟩
  · show (flushPending o s2).output ++ [e2] = _
    rw [hFout, List.append_assoc, List.append_assoc]
  · intro e he
    rcases List.mem_append.mp he with he | he
    · rcases List.mem_append.mp he with he | he
      · exact hsp2 e he
      · exact inU_of_ancRendersFull c _ (hfmem e he).1
    · simp at he
      rw [he]
      rw [show Event.path e2 = renderChain (c ++ [name]) from he2path]
      exact inU_of_ancOrSelf c _ (Or.inr (properAnc_snoc c name hc hvn))
  · intro q hq
    rcases List.mem_append.mp hq with hq | hq
    · obtain ⟨nm, hnm, hanc⟩ := htags2 q hq
      exact ⟨nm, List.mem_append_left _ hnm, hanc⟩
    · simp at hq
      rw [he2] at hq
      have : q = posixJoin (renderChain c) name := by
        injection hq with h
      refine ⟨name, List.mem_append_right _ (by simp), ?_⟩
      rw [this, ← renderChain_snoc]
      exact Or.inl rfl
  · refine ⟨c.length + 1, le_refl _, ?_, ?_⟩
    · show pathsOf [] = _
      rw [show (c.length + 1) = (ancRendersFull c).length from
        (length_ancRendersFull c).symm]
      rw [List.drop_length]
      rfl
    · intro i _ hile
      obtain ⟨st, hst⟩ := hfwr i hile
      exact ⟨st, List.mem_append_left _ hst⟩
  · exact hord2
  · exact hnd2
  · show (flushPending o s2).output ++ [e2] = _
    rw [hfout, List.append_assoc]
  · intro e he
    rcases List.mem_append.mp he with he | he
    · exact Or.inl (hfmem e he).1
    · simp at he
      rw [he]
      exact Or.inr he2path

theorem diffFinish_fold_frame (o : DifferOptions) (c : List String)
    (out0 : List Event) (pend0 : List (String × StatInfo)) (mst : StatInfo)
    (hc : ∀ m ∈ c, validName m = true)
    (hold : DelSafe out0 (inU c)) :
    ∀ (leftover : List (String × DirEntryType)) (doneNames : List String)
      (s3 : DiffState),
    (∀ kv ∈ leftover, validName kv.1 = true ∧ kv.1 ∉ doneNames) →
    distinctNames (leftover.map Prod.fst) = true →
    (∀ nm ∈ doneNames, validName nm = true) →
    MidFrame c out0 pend0 mst doneNames s3 →
    MidFrame c out0 pend0 mst (doneNames ++ leftover.map Prod.fst)
      (leftover.foldl (fun st nv => appendEvent
        (.delete_marker (posixJoin (renderChain c) nv.1)) (flushPending o st)) s3)
    ∧ ∃ δ, (leftover.foldl (fun st nv => appendEvent
          (.delete_marker (posixJoin (renderChain c) nv.1)) (flushPending o st))
            s3).output = s3.output ++ δ
        ∧ ∀ e ∈ δ, e.path ∈ ancRendersFull c
            ∨ ∃ nv ∈ leftover, e.path = renderChain (c ++ [nv.1]) := by
  intro leftover
  induction leftover with
  | nil =>
    intro doneNames s3 _ _ _ hmid
    refine ⟨midFrame_mono_done c out0 pend0 mst doneNames _ _
      (fun nm hnm => by simp [hnm]) hmid, [], by simp, by simp⟩
  | cons kv rest ih =>
    obtain ⟨name, ty⟩ := kv
    intro doneNames s3 hvalid hdist hdone hmid
    have hvn : validName name = true := (hvalid (name, ty) (by simp)).1
    have hfresh : name ∉ doneNames := (hvalid (name, ty) (by simp)).2
    have hdistx : (!((rest.map Prod.fst).contains name)
        && distinctNames (rest.map Prod.fst)) = true := hdist
    simp only [Bool.and_eq_true] at hdistx
    have hdone' : ∀ nm ∈ doneNames ++ [name], validName nm = true := by
      intro nm hnm
      rcases List.mem_append.mp hnm with hnm | hnm
      · exact hdone nm hnm
      · simp at hnm
        exact hnm ▸ hvn
    obtain ⟨hstep, δ1, hδ1out, hδ1⟩ := midframe_delete o c out0 pend0 mst doneNames
      hc hdone hold name hvn hfresh s3 hmid
    have hres := ih (doneNames ++ [name])
      (appendEvent (.delete_marker (posixJoin (renderChain c) name))
        (flushPending o s3))
      (by
        intro kv hkv
        refine ⟨(hvalid kv (by simp [hkv])).1, ?_⟩
        intro hmem
        rcases List.mem_append.mp hmem with hmem | hmem
        · exact (hvalid kv (by simp [hkv])).2 hmem
        · simp at hmem
          have hcontains : (rest.map Prod.fst).contains name = false := by
            have h0 := hdistx.1
            simp only [Bool.not_eq_true'] at h0
            exact h0
          exact not_mem_of_contains_false hcontains
            (List.mem_map.mpr ⟨kv, hkv, hmem⟩))
      hdistx.2 hdone' hstep
    obtain ⟨hresmid, δ2, hδ2out, hδ2⟩ := hres
    have hfinal : doneNames ++ [name] ++ rest.map Prod.fst
        = doneNames ++ ((name, ty) :: rest).map Prod.fst := by
      rw [List.map_cons, List.append_assoc]
      rfl
    refine ⟨by rw [← hfinal]; exact hresmid, δ1 ++ δ2, ?_, ?_⟩
    · show (List.foldl _ (appendEvent
          (.delete_marker (posixJoin (renderChain c) name)) (flushPending o s3)) rest).output = _
      rw [hδ2out, hδ1out, List.append_assoc]
    · intro e he
      rcases List.mem_append.mp he with he | he
      · rcases hδ1 e he with h0 | h0
        · exact Or.inl h0
        · exact Or.inr ⟨(name, ty), by simp, h0⟩
      · rcases hδ2 e he with h0 | h0
        · exact Or.inl h0
        · obtain ⟨nv, hnv, hnveq⟩ := h0
          exact Or.inr ⟨nv, by simp [hnv], hnveq⟩

theorem lowerMapOf_keys (ch : List (String × FsTree))
    (h : distinctNames (ch.map Prod.fst) = true) :
    (lowerMapOf ch).map Prod.fst = ch.map Prod.fst := by
  rw [lowerMapOf_distinct ch h, List.map_map]
  rfl

theorem frameSpec_all (o : DifferOptions) : ∀ fuel, FrameSpec o fuel := by
  intro fuel
  induction fuel with
  | zero =>
    intro m l c s k hfuel
    exact absurd hfuel (by have := heightTree_pos m; omega)
  | succ fuel ih =>
    intro m l c s k hfuel hokm hokl hc hk hpaths hwr hord hnd hsafe
    have hpaths1 : pathsOf (s.pending ++ [(renderChain c, statOf m)])
        = (ancRendersFull c).drop k := by
      show (s.pending ++ [(renderChain c, statOf m)]).map Prod.fst = _
      rw [List.map_append, ancRendersFull_eq, List.drop_append_eq_append_drop]
      rw [length_ancRenders, Nat.sub_eq_zero_of_le hk]
      show pathsOf s.pending ++ _ = _
      rw [hpaths]
      rfl
    have hwr1 : ∀ i, i < k → i ≤ c.length →
        isWrittenDir (renderChain (c.take i)) s.output := by
      intro i hik _
      exact hwr i hik (by omega)
    -- the state right after `diffPush`
    have hmid0 : MidFrame c s.output s.pending (statOf m) []
        (diffPush o (renderChain c) (statOf m) (statOf l) s) := by
      rcases diffPush_cases o (renderChain c) (statOf m) (statOf l) s with hp | hp
      · -- stats differ: push then flush at once
        rw [hp]
        obtain ⟨hfp, hfout, hfmem, hford, hfnd, hfwr⟩ :=
          flushPending_spec o c hc ⟨s.pending ++ [(renderChain c, statOf m)], s.output⟩
            k hpaths1 hwr1 hord hnd
            (fun j hj q hq p hp' =>
              hsafe j hj q hq p (inU_of_ancRendersFull c p hp'))
        refine ⟨⟨_, hfout, ?_, ?_⟩, Or.inr hfp, ?_, hford, hfnd⟩
        · intro e he
          exact inU_of_ancRendersFull c _ (hfmem e he).1
        · intro q hq
          exact absurd rfl ((hfmem _ hq).2 q)
        · refine ⟨c.length + 1, le_refl _, ?_, ?_⟩
          · rw [hfp]
            rw [show (c.length + 1) = (ancRendersFull c).length from
              (length_ancRendersFull c).symm]
            rw [List.drop_length]
            rfl
          · intro i _ hile
            exact hfwr i hile
      · -- stats equal: push only
        rw [hp]
        refine ⟨⟨[], by rw [List.append_nil], by simp, by simp⟩, Or.inl rfl,
          ⟨k, by omega, hpaths1, ?_⟩, hord, hnd⟩
        intro i hik hile
        exact hwr1 i hik hile
    -- the merged-entry loop
    have hmergedok := okTree_children m hokm
    have hlowerok := okTree_children l hokl
    have hmid1 := diffChildrenGo_frame o fuel ih c s.output s.pending (statOf m)
      hc hsafe (childrenOf l) hlowerok (okTree_distinct l hokl)
      (childrenOf m) [] (lowerMapOf (childrenOf l))
      (diffPush o (renderChain c) (statOf m) (statOf l) s)
      (by
        intro nt hnt
        refine ⟨(hmergedok nt hnt).1, (hmergedok nt hnt).2, ?_⟩
        have := mem_childrenOf_height_lt m nt hnt
        omega)
      (okTree_distinct m hokm)
      (by intro nt _ h0; simp at h0)
      (by intro nm h0; simp at h0)
      (by
        intro kv hkv
        rw [lowerMapOf_distinct (childrenOf l) (okTree_distinct l hokl)] at hkv
        obtain ⟨nt, hnt, hnteq⟩ := List.mem_map.mp hkv
        refine ⟨nt.2, ?_, ?_⟩
        · rw [show kv.1 = nt.1 from by rw [← hnteq]]
          exact hnt
        · rw [← hnteq])
      hmid0
    -- the deletion-marker loop over the leftover lower map
    have hlmapkeys := lowerMapOf_keys (childrenOf l) (okTree_distinct l hokl)
    have hlmapdist : distinctNames ((lowerMapOf (childrenOf l)).map Prod.fst) = true := by
      rw [hlmapkeys]
      exact okTree_distinct l hokl
    have hdone1valid : ∀ nm ∈ ([] : List String) ++ (childrenOf m).map Prod.fst,
        validName nm = true := by
      intro nm hnm
      simp only [List.nil_append] at hnm
      obtain ⟨nt, hnt, hnteq⟩ := List.mem_map.mp hnm
      exact hnteq ▸ (hmergedok nt hnt).1
    have hmid2 := diffFinish_fold_frame o c s.output s.pending (statOf m) hc hsafe
      (remainingMap (childrenOf m) (lowerMapOf (childrenOf l)))
      ([] ++ (childrenOf m).map Prod.fst)
      (diffChildrenGo (diffDirsF fuel o) o (renderChain c) (childrenOf l)
        (childrenOf m) (lowerMapOf (childrenOf l))
        (diffPush o (renderChain c) (statOf m) (statOf l) s))
      (by
        intro kv hkv
        have hmem := mem_remainingMap _ _ kv hkv
        constructor
        · rw [lowerMapOf_distinct (childrenOf l) (okTree_distinct l hokl)] at hmem
          obtain ⟨nt, hnt, hnteq⟩ := List.mem_map.mp hmem
          rw [show kv.1 = nt.1 from by rw [← hnteq]]
          exact (hlowerok nt hnt).1
        · simp only [List.nil_append]
          exact mem_remainingMap_not_entry _ _ hlmapdist kv hkv)
      (remainingMap_distinct _ _ hlmapdist)
      hdone1valid
      hmid1
    replace hmid2 := hmid2.1
    -- peel the final pending pop
    set s4 := (remainingMap (childrenOf m) (lowerMapOf (childrenOf l))).foldl
      (fun st nv => appendEvent (.delete_marker (posixJoin (renderChain c) nv.1))
        (flushPending o st))
      (diffChildrenGo (diffDirsF fuel o) o (renderChain c) (childrenOf l)
        (childrenOf m) (lowerMapOf (childrenOf l))
        (diffPush o (renderChain c) (statOf m) (statOf l) s)) with hs4
    have hunf : diffDirsF (fuel + 1) o (renderChain c) m l s
        = if s4.pending.isEmpty then s4 else ⟨s4.pending.dropLast, s4.output⟩ := rfl
    obtain ⟨Δfin, hfout, hfin, hftags⟩ := hmid2.split
    have hdoneall : ∀ nm ∈ ([] : List String) ++ (childrenOf m).map Prod.fst
        ++ (remainingMap (childrenOf m) (lowerMapOf (childrenOf l))).map Prod.fst,
        validName nm = true := by
      intro nm hnm
      rcases List.mem_append.mp hnm with hnm | hnm
      · exact hdone1valid nm hnm
      · obtain ⟨kv, hkv, hkveq⟩ := List.mem_map.mp hnm
        have hmem := mem_remainingMap _ _ kv hkv
        rw [lowerMapOf_distinct (childrenOf l) (okTree_distinct l hokl)] at hmem
        obtain ⟨nt, hnt, hnteq⟩ := List.mem_map.mp hmem
        rw [← hkveq, show kv.1 = nt.1 from by rw [← hnteq]]
        exact (hlowerok nt hnt).1
    have hdels : ∀ q, Event.delete_marker q ∈ Δfin → ProperAnc (renderChain c) q := by
      intro q hq
      obtain ⟨nm, hnm, hanc⟩ := hftags q hq
      exact properAnc_of_anc_snoc c nm hc (hdoneall nm hnm) q hanc
    rcases hmid2.shape with hsh | hsh
    · -- the frame's own pending entry survives: pop it
      have hne : s4.pending.isEmpty = false := by
        rw [hsh]
        simp
      rw [hunf, if_neg (by rw [hne]; intro h0; exact Bool.noConfusion h0)]
      refine ⟨Δfin, hfout, hfin, hdels, ?_, ?_, ?_⟩
      · refine Or.inl ?_
        show s4.pending.dropLast = s.pending
        rw [hsh]
        exact List.dropLast_concat
      · rw [← hfout]
        exact hmid2.ordr
      · rw [← hfout]
        exact hmid2.ndel
    · -- fully flushed: return with the stack empty and everything written
      have hne : s4.pending.isEmpty = true := by
        rw [hsh]
        rfl
      rw [hunf, if_pos hne]
      obtain ⟨k4, hk4, hp4, hw4⟩ := hmid2.pchar
      have hk4full : k4 = c.length + 1 := by
        rw [hsh] at hp4
        have : (ancRendersFull c).drop k4 = [] := hp4.symm
        rw [List.drop_eq_nil_iff_le, length_ancRendersFull] at this
        omega
      refine ⟨Δfin, hfout, hfin, hdels, ?_, ?_, ?_⟩
      · refine Or.inr ⟨hsh, ?_⟩
        intro i hile
        have h1 := hw4 i (by omega) hile
        rw [hfout] at h1
        exact h1
      · rw [← hfout]
        exact hmid2.ordr
      · rw [← hfout]
        exact hmid2.ndel

theorem okTree_nodup_aux (n : Nat) :
    (∀ t : FsTree, sizeOf t ≤ n → okTree t = true → nodupTree t = true)
    ∧ (∀ ch : List (String × FsTree), sizeOf ch ≤ n →
        okChildren ch = true → nodupChildren ch = true) := by
  induction n with
  | zero =>
    constructor
    · intro t ht
      exact absurd ht (by have := fsTree_sizeOf_pos t; omega)
    · intro ch hch
      exact absurd hch (by have := listPair_sizeOf_pos ch; omega)
  | succ n ih =>
    constructor
    · intro t ht hok
      cases t with
      | dir st ch =>
        have h1 : sizeOf ch ≤ n := by
          have := statInfo_sizeOf_pos st
          simp_arith at ht
          omega
        have h' : (distinctNames (ch.map Prod.fst) && okChildren ch) = true := hok
        simp only [Bool.and_eq_true] at h'
        show (distinctNames (ch.map Prod.fst) && nodupChildren ch) = true
        simp only [Bool.and_eq_true]
        exact ⟨h'.1, ih.2 ch h1 h'.2⟩
      | file st c => rfl
      | other st ln => rfl
    · intro ch hch hok
      cases ch with
      | nil => rfl
      | cons nt rest =>
        obtain ⟨nm, t⟩ := nt
        have h1 : sizeOf t ≤ n ∧ sizeOf rest ≤ n := by
          simp_arith at hch
          constructor <;> omega
        have h' : (validName nm && okTree t && okChildren rest) = true := hok
        simp only [Bool.and_eq_true] at h'
        show (nodupTree t && nodupChildren rest) = true
        simp only [Bool.and_eq_true]
        exact ⟨ih.1 t h1.1 h'.1.2, ih.2 rest h1.2 h'.2⟩

theorem okTree_nodup (t : FsTree) (h : okTree t = true) : nodupTree t = true :=
  (okTree_nodup_aux (sizeOf t)).1 t le_rfl h

/-- Looking a path chain up in a source tree, child by child. -/
def subtreeAt : FsTree → List String → Option FsTree
  | t, [] => some t
  | t, n :: rest =>
    match dictFind (childrenOf t) n with
    | some ct => subtreeAt ct rest
    | none => none

theorem okTree_subtree : ∀ (drest : List String) (t : FsTree) (md : FsTree),
    okTree t = true → subtreeAt t drest = some md → okTree md = true := by
  intro drest
  induction drest with
  | nil =>
    intro t md hok h
    injection h with h
    exact h ▸ hok
  | cons n rest ih =>
    intro t md hok h
    have h' : (match dictFind (childrenOf t) n with
        | some ct => subtreeAt ct rest
        | none => none) = some md := h
    cases hfind : dictFind (childrenOf t) n with
    | none => rw [hfind] at h'; exact absurd h' (by simp)
    | some ct =>
      rw [hfind] at h'
      have hmem := dictFind_mem _ _ _ hfind
      exact ih ct md (okTree_children t hok (n, ct) hmem).2 h'

theorem ancOrSelf_render_append (x y : List String)
    (hv : ∀ m ∈ x ++ y, validName m = true) :
    AncOrSelf (renderChain x) (renderChain (x ++ y)) := by
  cases hy : y with
  | nil =>
    rw [List.append_nil]
    exact Or.inl rfl
  | cons n rest =>
    rw [hy] at hv
    refine Or.inr ⟨n.data ++ tailData rest, ?_, ?_⟩
    · have : n.data ≠ [] := validName_ne n (hv n (by simp))
      intro h0
      exact this (List.append_eq_nil.mp h0).1
    · rw [renderChain_data _ hv,
        renderChain_data x (fun m hm => hv m (List.mem_append_left _ hm))]
      rw [chainData_append, tailData_cons]

theorem chainData_append_length_lt (c d : List String) (hd : d ≠ [])
    (hv : ∀ m ∈ c ++ d, validName m = true) :
    (chainData c).length < (chainData (c ++ d)).length := by
  rw [chainData_append]
  cases hx : d with
  | nil => exact absurd hx hd
  | cons n rest =>
    rw [tailData_cons]
    simp

theorem target_prefix_excl (c drest : List String) (hd : drest ≠ [])
    (hv : ∀ m ∈ c ++ drest, validName m = true)
    (p : String) (hp : p ∈ ancRendersFull c) :
    ¬ AncOrSelf (renderChain (c ++ drest)) p := by
  intro hanc
  have hvc : ∀ m ∈ c, validName m = true :=
    fun m hm => hv m (List.mem_append_left _ hm)
  obtain ⟨i, hi, rfl⟩ := (mem_ancRendersFull c p).mp hp
  have hlen := ancOrSelf_length _ _ hanc
  rw [renderChain_data _ hv,
    renderChain_data (c.take i) (fun m hm => hvc m (List.take_subset i c hm))] at hlen
  have h1 := chainData_take_length_le c i
  have h2 := chainData_append_length_lt c drest hd hv
  omega

theorem target_sibling_excl (c : List String) (n nd : String) (rest' : List String)
    (hvc : ∀ m ∈ c, validName m = true)
    (hvn : validName n = true) (hvnd : validName nd = true)
    (hne : n ≠ nd)
    (hv2 : ∀ m ∈ (c ++ [nd]) ++ rest', validName m = true)
    (p : String) (hin : inU (c ++ [n]) p)
    (hanc : AncOrSelf (renderChain (c ++ nd :: rest')) p) : False := by
  have heq : c ++ nd :: rest' = (c ++ [nd]) ++ rest' := by
    rw [List.append_assoc]
    rfl
  rw [heq] at hanc
  have h1 : AncOrSelf (renderChain (c ++ [nd])) (renderChain ((c ++ [nd]) ++ rest')) :=
    ancOrSelf_render_append (c ++ [nd]) rest' hv2
  have h2 : AncOrSelf (renderChain (c ++ [nd])) p := ancOrSelf_trans _ _ _ h1 hanc
  exact cone_excl_sibling c nd n hvc hvnd hvn (fun he => hne he.symm)
    (renderChain (c ++ [nd])) p (Or.inl rfl) h2 hin

/-- A second small concrete tree (an empty directory) used by witnesses. -/
def emptyDirTree : FsTree := .dir ⟨0o40755, 0, 0, 0, 0, 0⟩ []

/-- C2: in every run of the differ on well-formed sources, each emitted
sink call at a path with a proper ancestor is preceded by a `write_dir`
call for every such ancestor (`Ordered`), and no call ever targets a
path at or below an earlier `delete_marker` (`NDel`): the "since the
last delete_marker targeting an ancestor" proviso never bites. -/
theorem C2_output_ordered (o : DifferOptions) (m l : FsTree)
    (hm : okTree m = true) (hl : okTree l = true) :
    Ordered (runDiff o m l).output ∧ NDel (runDiff o m l).output := by
  obtain ⟨Δ, hout, _, _, _, hord, hnd⟩ :=
    frameSpec_all o (heightTree m) m l [] ⟨[], []⟩ 0
      le_rfl hm hl (by simp) (Nat.le_refl 0)
      (by rfl)
      (by intro i hi _; exact absurd hi (Nat.not_lt_zero i))
      (by intro i hi; simp at hi)
      (by intro i j hi; simp at hi)
      (by intro j hj; simp at hj)
  rw [List.nil_append] at hout hord hnd
  have hcalc : (runDiff o m l).output = Δ := by
    show (diffDirsF (heightTree m) o "." m l ⟨[], []⟩).output = Δ
    exact hout
  rw [hcalc]
  exact ⟨hord, hnd⟩

theorem C2_output_ordered_witness :
    Ordered (runDiff DifferOptions.default tinyTree emptyDirTree).output ∧
    NDel (runDiff DifferOptions.default tinyTree emptyDirTree).output :=
  C2_output_ordered DifferOptions.default tinyTree emptyDirTree
    (by decide) (by decide)

theorem equivTree_kind (o : DifferOptions) (m l : FsTree)
    (h : equivTree o m l = true) : kindOf m = kindOf l := by
  cases m <;> cases l <;> first | rfl | simp [equivTree] at h

theorem dictFind_dictPop_other (n k : String) (hne : k ≠ n) :
    ∀ (l : List (String × DirEntryType)),
    dictFind (dictPop n l).2 k = dictFind l k := by
  intro l
  induction l with
  | nil => rfl
  | cons kv rest ih =>
    obtain ⟨k', v'⟩ := kv
    by_cases h : k' = n
    · have h2 : (dictPop n ((k', v') :: rest)).2 = rest := by
        show (if k' = n then (some v', rest) else _).2 = rest
        rw [if_pos h]
      rw [h2]
      show dictFind rest k = if k' = k then some v' else dictFind rest k
      rw [if_neg (by rw [h]; exact fun hh => hne hh.symm)]
    · have h2 : (dictPop n ((k', v') :: rest)).2
          = (k', v') :: (dictPop n rest).2 := by
        show (if k' = n then (some v', rest)
          else ((dictPop n rest).1, (k', v') :: (dictPop n rest).2)).2 = _
        rw [if_neg h]
      rw [h2]
      show (if k' = k then some v' else dictFind (dictPop n rest).2 k)
        = if k' = k then some v' else dictFind rest k
      rw [ih]

theorem dictFind_map_kind (k : String) : ∀ (ch : List (String × FsTree)),
    dictFind (ch.map (fun nt => (nt.1, kindOf nt.2))) k
      = (dictFind ch k).map kindOf := by
  intro ch
  induction ch with
  | nil => rfl
  | cons nt rest ih =>
    obtain ⟨n, t⟩ := nt
    by_cases h : n = k
    · show (if n = k then some (kindOf t) else _) = ((if n = k then some t else _).map _)
      rw [if_pos h, if_pos h]
      rfl
    · show (if n = k then some (kindOf t)
          else dictFind (rest.map (fun nt => (nt.1, kindOf nt.2))) k)
        = ((if n = k then some t else dictFind rest k).map _)
      rw [if_neg h, if_neg h, ih]

theorem dictFind_lowerMapOf (ch : List (String × FsTree)) (k : String) (t : FsTree)
    (hd : distinctNames (ch.map Prod.fst) = true)
    (hf : dictFind ch k = some t) :
    dictFind (lowerMapOf ch) k = some (kindOf t) := by
  rw [lowerMapOf_distinct ch hd, dictFind_map_kind, hf]
  rfl

theorem subtreeAt_cons (t md : FsTree) (n : String) (rest : List String)
    (h : subtreeAt t (n :: rest) = some md) :
    ∃ ct, dictFind (childrenOf t) n = some ct ∧ subtreeAt ct rest = some md := by
  have h' : (match dictFind (childrenOf t) n with
      | some ct => subtreeAt ct rest
      | none => none) = some md := h
  cases hfind : dictFind (childrenOf t) n with
  | none => rw [hfind] at h'; exact absurd h' (by simp)
  | some ct =>
    rw [hfind] at h'
    exact ⟨ct, rfl, h'⟩

theorem subtreeAt_nonempty_dir (t md : FsTree) (n : String) (rest : List String)
    (h : subtreeAt t (n :: rest) = some md) :
    kindOf t = DirEntryType.directory := by
  obtain ⟨ct, hfind, _⟩ := subtreeAt_cons t md n rest h
  cases t with
  | dir st ch => rfl
  | file st c => exact absurd hfind (by simp [childrenOf, dictFind])
  | other st ln => exact absurd hfind (by simp [childrenOf, dictFind])

theorem subtree_names_valid : ∀ (drest : List String) (t md : FsTree),
    okTree t = true → subtreeAt t drest = some md →
    ∀ x ∈ drest, validName x = true := by
  intro drest
  induction drest with
  | nil => intro t md _ _ x hx; simp at hx
  | cons n rest ih =>
    intro t md hok h x hx
    obtain ⟨ct, hfind, hsub⟩ := subtreeAt_cons t md n rest h
    have hmem := dictFind_mem _ _ _ hfind
    rcases List.mem_cons.mp hx with rfl | hx
    · exact (okTree_children t hok (x, ct) hmem).1
    · exact ih ct md (okTree_children t hok (n, ct) hmem).2 hsub x hx

/-- Claim C3's frame contract: when the merged and the lower subtree at
relative chain `drest` below the frame are differ-equal (`equivTree`),
the frame appends no sink call at or below the render of `c ++ drest`. -/
def SpineSpec (o : DifferOptions) (fuel : Nat) : Prop :=
  ∀ (m l : FsTree) (c : List String) (s : DiffState) (k : Nat)
    (drest : List String) (md ld : FsTree),
    heightTree m ≤ fuel →
    okTree m = true → okTree l = true →
    (∀ x ∈ c, validName x = true) →
    k ≤ c.length →
    pathsOf s.pending = (ancRenders c).drop k →
    (∀ i, i < k → i < c.length → isWrittenDir (renderChain (c.take i)) s.output) →
    Ordered s.output → NDel s.output →
    DelSafe s.output (inU c) →
    subtreeAt m drest = some md →
    subtreeAt l drest = some ld →
    equivTree o md ld = true →
    ∃ Δ, (diffDirsF fuel o (renderChain c) m l s).output = s.output ++ Δ
      ∧ ∀ e ∈ Δ, ¬ AncOrSelf (renderChain (c ++ drest)) e.path

theorem diffChildrenGo_spine (o : DifferOptions) (fuel : Nat)
    (hframe : FrameSpec o fuel) (hsp : SpineSpec o fuel)
    (c : List String) (out0 : List Event)
    (pend0 : List (String × StatInfo)) (mst : StatInfo)
    (hc : ∀ m ∈ c, validName m = true)
    (hold : DelSafe out0 (inU c))
    (lch : List (String × FsTree))
    (hlch : ∀ nt ∈ lch, validName nt.1 = true ∧ okTree nt.2 = true)
    (hlchd : distinctNames (lch.map Prod.fst) = true)
    (nd : String) (rest' : List String) (md ld lt' : FsTree)
    (hvnd : validName nd = true)
    (hfindl : dictFind lch nd = some lt')
    (hsubl : subtreeAt lt' rest' = some ld)
    (hequiv : equivTree o md ld = true)
    (hvsp : ∀ x ∈ (c ++ [nd]) ++ rest', validName x = true) :
    ∀ (entries : List (String × FsTree)) (doneNames : List String)
      (lmap : List (String × DirEntryType)) (s2 : DiffState),
    (∀ nt ∈ entries, validName nt.1 = true ∧ okTree nt.2 = true
      ∧ heightTree nt.2 ≤ fuel) →
    distinctNames (entries.map Prod.fst) = true →
    (∀ nt ∈ entries, nt.1 ∉ doneNames) →
    (∀ nm ∈ doneNames, validName nm = true) →
    (∀ kv ∈ lmap, ∃ ltc, (kv.1, ltc) ∈ lch ∧ kindOf ltc = kv.2) →
    (∀ t, (nd, t) ∈ entries → subtreeAt t rest' = some md) →
    (nd ∈ entries.map Prod.fst → dictFind lmap nd = some (kindOf lt')) →
    MidFrame c out0 pend0 mst doneNames s2 →
    MidFrame c out0 pend0 mst (doneNames ++ entries.map Prod.fst)
      (diffChildrenGo (diffDirsF fuel o) o (renderChain c) lch entries lmap s2)
    ∧ ∃ δ, (diffChildrenGo (diffDirsF fuel o) o (renderChain c) lch
          entries lmap s2).output = s2.output ++ δ
      ∧ ∀ e ∈ δ, ¬ AncOrSelf (renderChain (c ++ nd :: rest')) e.path := by
  have hvsp' : ∀ x ∈ c ++ nd :: rest', validName x = true := by
    intro x hx
    refine hvsp x ?_
    rw [List.append_assoc]
    exact hx
  have hoklt' : okTree lt' = true :=
    (hlch (nd, lt') (dictFind_mem lch nd lt' hfindl)).2
  intro entries
  induction entries with
  | nil =>
    intro doneNames lmap s2 _ _ _ _ _ _ _ hmid
    refine ⟨midFrame_mono_done c out0 pend0 mst doneNames _ _
      (fun nm hnm => by simp [hnm]) hmid, [], (List.append_nil _).symm, by simp⟩
  | cons nt rest ih =>
    obtain ⟨name, t⟩ := nt
    intro doneNames lmap s2 hok hdist hfresh hdone hlmap hspm hndmap hmid
    obtain ⟨⟨hvn, hokt, hht⟩, hokrest⟩ :
        (validName name = true ∧ okTree t = true ∧ heightTree t ≤ fuel)
        ∧ ∀ nt ∈ rest, validName nt.1 = true ∧ okTree nt.2 = true
            ∧ heightTree nt.2 ≤ fuel :=
      ⟨hok (name, t) (by simp), fun nt hnt => hok nt (by simp [hnt])⟩
    have hdistx : (!((rest.map Prod.fst).contains name)
        && distinctNames (rest.map Prod.fst)) = true := hdist
    simp only [Bool.and_eq_true] at hdistx
    have hfreshx : name ∉ doneNames := hfresh (name, t) (by simp)
    have hdone' : ∀ nm ∈ doneNames ++ [name], validName nm = true := by
      intro nm hnm
      rcases List.mem_append.mp hnm with hnm | hnm
      · exact hdone nm hnm
      · simp at hnm
        exact hnm ▸ hvn
    have hstep : diffChildrenGo (diffDirsF fuel o) o (renderChain c) lch
        ((name, t) :: rest) lmap s2
        = diffChildrenGo (diffDirsF fuel o) o (renderChain c) lch rest
            (dictPop name lmap).2
            (if kindOf t = DirEntryType.directory then
               (if (dictPop name lmap).1 = some DirEntryType.directory then
                 diffDirsF fuel o (renderChain (c ++ [name])) t (childDir lch name) s2
               else insertTree o (renderChain (c ++ [name])) t s2)
             else if kindOf t = DirEntryType.regular_file then
               (if (dictPop name lmap).1 = some DirEntryType.regular_file then
                 diffFiles o (renderChain (c ++ [name])) t (childFile lch name) s2
               else insertTree o (renderChain (c ++ [name])) t s2)
             else
               (if (dictPop name lmap).1 = some DirEntryType.other then
                 diffOther o (renderChain (c ++ [name])) t (childPath lch name) s2
               else insertTree o (renderChain (c ++ [name])) t s2)) := by
      rw [renderChain_snoc c name]
      rfl
    rw [hstep]
    have hstepres : MidFrame c out0 pend0 mst (doneNames ++ [name])
        (if kindOf t = DirEntryType.directory then
           (if (dictPop name lmap).1 = some DirEntryType.directory then
             diffDirsF fuel o (renderChain (c ++ [name])) t (childDir lch name) s2
           else insertTree o (renderChain (c ++ [name])) t s2)
         else if kindOf t = DirEntryType.regular_file then
           (if (dictPop name lmap).1 = some DirEntryType.regular_file then
             diffFiles o (renderChain (c ++ [name])) t (childFile lch name) s2
           else insertTree o (renderChain (c ++ [name])) t s2)
         else
           (if (dictPop name lmap).1 = some DirEntryType.other then
             diffOther o (renderChain (c ++ [name])) t (childPath lch name) s2
           else insertTree o (renderChain (c ++ [name])) t s2))
        ∧ ∃ δ1, (if kindOf t = DirEntryType.directory then
           (if (dictPop name lmap).1 = some DirEntryType.directory then
             diffDirsF fuel o (renderChain (c ++ [name])) t (childDir lch name) s2
           else insertTree o (renderChain (c ++ [name])) t s2)
         else if kindOf t = DirEntryType.regular_file then
           (if (dictPop name lmap).1 = some DirEntryType.regular_file then
             diffFiles o (renderChain (c ++ [name])) t (childFile lch name) s2
           else insertTree o (renderChain (c ++ [name])) t s2)
         else
           (if (dictPop name lmap).1 = some DirEntryType.other then
             diffOther o (renderChain (c ++ [name])) t (childPath lch name) s2
           else insertTree o (renderChain (c ++ [name])) t s2)).output
            = s2.output ++ δ1
          ∧ ∀ e ∈ δ1, ¬ AncOrSelf (renderChain (c ++ nd :: rest')) e.path := by
      have hmidnoop : MidFrame c out0 pend0 mst (doneNames ++ [name]) s2 :=
        midFrame_mono_done c out0 pend0 mst doneNames _ _
          (fun nm hnm => List.mem_append_left _ hnm) hmid
      by_cases hname : name = nd
      · -- the spine child: the two sides are differ-equal here
        subst hname
        have hmapnd := hndmap (by simp)
        have hpop1 : (dictPop name lmap).1 = some (kindOf lt') := by
          rw [dictPop_fst]
          exact hmapnd
        have hsubm' := hspm t (by simp)
        have hchildDir : childDir lch name = lt' := by
          rw [childDir, hfindl]
          rfl
        have hchildFile : childFile lch name = lt' := by
          rw [childFile, hfindl]
          rfl
        have hchildPath : childPath lch name = lt' := by
          rw [childPath, hfindl]
          rfl
        cases rest' with
        | nil =>
          have hmd : some t = some md := hsubm'
          injection hmd with hmd
          have hld : some lt' = some ld := hsubl
          injection hld with hld
          have hequiv' : equivTree o t lt' = true := by
            rw [hmd, hld]
            exact hequiv
          have hkind := equivTree_kind o t lt' hequiv'
          by_cases h1 : kindOf t = DirEntryType.directory
          · rw [if_pos h1, if_pos (by rw [hpop1, ← hkind, h1]), hchildDir]
            rw [diffDirsF_equiv_noop fuel t hht o _ lt' s2
              (okTree_nodup lt' hoklt') hequiv']
            exact ⟨hmidnoop, [], (List.append_nil _).symm, by simp⟩
          · rw [if_neg h1]
            by_cases h3 : kindOf t = DirEntryType.regular_file
            · rw [if_pos h3, if_pos (by rw [hpop1, ← hkind, h3]), hchildFile]
              rw [diffFiles_equiv_noop o _ t lt' s2 hequiv' h3]
              exact ⟨hmidnoop, [], (List.append_nil _).symm, by simp⟩
            · have h5 : kindOf t = DirEntryType.other := by
                cases hx : kindOf t
                · exact absurd hx h1
                · exact absurd hx h3
                · rfl
              rw [if_neg h3, if_pos (by rw [hpop1, ← hkind, h5]), hchildPath]
              rw [diffOther_equiv_noop o _ t lt' s2 hequiv' h5]
              exact ⟨hmidnoop, [], (List.append_nil _).symm, by simp⟩
        | cons r0 rr =>
          have hkt : kindOf t = DirEntryType.directory :=
            subtreeAt_nonempty_dir t md r0 rr hsubm'
          have hklt : kindOf lt' = DirEntryType.directory :=
            subtreeAt_nonempty_dir lt' ld r0 rr hsubl
          rw [if_pos hkt, if_pos (by rw [hpop1, hklt]), hchildDir]
          obtain ⟨k2, hk2, hpaths2, hwr2⟩ := hmid.pchar
          have hcx : ∀ x ∈ c ++ [name], validName x = true :=
            fun x hx => hvsp x (List.mem_append_left _ hx)
          have hsafeC : DelSafe s2.output (inU (c ++ [name])) :=
            midFrame_safe c out0 pend0 mst doneNames s2 hc hdone hold hmid _
              (fun p hp => inU_snoc_sub c name hc hvnd p hp)
              (by
                intro p hp nm hnm q hq hqp
                have hne2 : nm ≠ name := fun he => hfreshx (he ▸ hnm)
                exact cone_excl_sibling c nm name hc (hdone nm hnm) hvnd hne2
                  q p hq hqp hp)
          have hres2 := hsp t lt' (c ++ [name]) s2 k2 (r0 :: rr) md ld
            hht hokt hoklt' hcx
            (by rw [List.length_append, List.length_cons, List.length_nil]; omega)
            (by rw [ancRendersFull_snoc_eq]; exact hpaths2)
            (by
              intro i hik hilt
              rw [List.length_append, List.length_cons, List.length_nil] at hilt
              have hile : i ≤ c.length := by omega
              have hteq : (c ++ [name]).take i = c.take i := by
                rw [List.take_append_eq_append_take]
                simp [Nat.sub_eq_zero_of_le hile]
              rw [hteq]
              exact hwr2 i hik hile)
            hmid.ordr hmid.ndel hsafeC hsubm' hsubl hequiv
          obtain ⟨Δc, hcout, hcavoid⟩ := hres2
          have hassoc2 : (c ++ [name]) ++ r0 :: rr = c ++ name :: r0 :: rr := by
            rw [List.append_assoc]
            rfl
          rw [hassoc2] at hcavoid
          exact ⟨(midframe_recur o fuel hframe c out0 pend0 mst doneNames hc hdone
            hold name t lt' hvnd hfreshx hokt hoklt' hht s2 hmid).1,
            Δc, hcout, hcavoid⟩
      · -- off the spine: the processed cone is disjoint from the target cone
        have hinsAvoid : ∀ p, p ∈ ancRendersFull c
            ∨ AncOrSelf (renderChain (c ++ [name])) p →
            ¬ AncOrSelf (renderChain (c ++ nd :: rest')) p := by
          intro p hp hanc
          rcases hp with hp | hp
          · exact target_prefix_excl c (nd :: rest') (by simp) hvsp' p hp hanc
          · exact target_sibling_excl c name nd rest' hc hvn hvnd hname hvsp
              p (Or.inr hp) hanc
        have hins : MidFrame c out0 pend0 mst (doneNames ++ [name])
            (insertTree o (renderChain (c ++ [name])) t s2)
            ∧ ∃ δ1, (insertTree o (renderChain (c ++ [name])) t s2).output
                = s2.output ++ δ1
              ∧ ∀ e ∈ δ1, ¬ AncOrSelf (renderChain (c ++ nd :: rest')) e.path := by
          obtain ⟨hmi, δi, hδiout, hδimem⟩ := midframe_insert o c out0 pend0 mst
            doneNames hc hdone hold name t hvn hfreshx hokt s2 hmid
          exact ⟨midFrame_mono_done c out0 pend0 mst doneNames _ _
            (fun nm hnm => List.mem_append_left _ hnm) hmi,
            δi, hδiout, fun e he => hinsAvoid e.path (hδimem e he)⟩
        have hnoop : MidFrame c out0 pend0 mst (doneNames ++ [name]) s2
            ∧ ∃ δ1, s2.output = s2.output ++ δ1
              ∧ ∀ e ∈ δ1, ¬ AncOrSelf (renderChain (c ++ nd :: rest')) e.path :=
          ⟨hmidnoop, [], (List.append_nil _).symm, by simp⟩
        by_cases h1 : kindOf t = DirEntryType.directory
        · rw [if_pos h1]
          by_cases h2 : (dictPop name lmap).1 = some DirEntryType.directory
          · rw [if_pos h2]
            rw [dictPop_fst] at h2
            obtain ⟨ltc, hltc, hkind⟩ := hlmap (name, DirEntryType.directory)
              (dictFind_mem lmap name _ h2)
            have hfind : dictFind lch name = some ltc :=
              dictFind_self_of_distinct lch hlchd (name, ltc) hltc
            have hchildDir : childDir lch name = ltc := by
              rw [childDir, hfind]
              rfl
            rw [hchildDir]
            obtain ⟨hmr, δr, hδrout, hδrmem⟩ := midframe_recur o fuel hframe c
              out0 pend0 mst doneNames hc hdone hold name t ltc hvn hfreshx hokt
              (hlch (name, ltc) hltc).2 hht s2 hmid
            exact ⟨hmr, δr, hδrout, fun e he hanc =>
              target_sibling_excl c name nd rest' hc hvn hvnd hname hvsp
                e.path (hδrmem e he) hanc⟩
          · rw [if_neg h2]
            exact hins
        · rw [if_neg h1]
          by_cases h3 : kindOf t = DirEntryType.regular_file
          · rw [if_pos h3]
            by_cases h4 : (dictPop name lmap).1 = some DirEntryType.regular_file
            · rw [if_pos h4]
              rcases diffFiles_cases o (renderChain (c ++ [name])) t
                  (childFile lch name) s2 with hdf | hdf
              · rw [hdf]
                exact hins
              · rw [hdf]
                exact hnoop
            · rw [if_neg h4]
              exact hins
          · rw [if_neg h3]
            by_cases h5 : (dictPop name lmap).1 = some DirEntryType.other
            · rw [if_pos h5]
              rcases diffOther_cases o (renderChain (c ++ [name])) t
                  (childPath lch name) s2 with hdo | hdo
              · rw [hdo]
                exact hins
              · rw [hdo]
                exact hnoop
            · rw [if_neg h5]
              exact hins
    obtain ⟨hmidS, δ1, hδ1out, hδ1⟩ := hstepres
    have hres := ih (doneNames ++ [name]) (dictPop name lmap).2 _
      hokrest hdistx.2
      (by
        intro nt hnt hmem
        rcases List.mem_append.mp hmem with hmem | hmem
        · exact hfresh nt (by simp [hnt]) hmem
        · simp at hmem
          have hcontains : (rest.map Prod.fst).contains name = false := by
            have h0 := hdistx.1
            simp only [Bool.not_eq_true'] at h0
            exact h0
          exact not_mem_of_contains_false hcontains
            (List.mem_map.mpr ⟨nt, hnt, hmem⟩))
      hdone'
      (fun kv hkv => hlmap kv (mem_dictPop name lmap kv hkv))
      (fun t' ht' => hspm t' (List.mem_cons_of_mem _ ht'))
      (by
        intro hin
        by_cases hname : name = nd
        · subst hname
          have h0 := hdistx.1
          simp only [Bool.not_eq_true'] at h0
          exact absurd hin (not_mem_of_contains_false h0)
        · rw [dictFind_dictPop_other name nd (fun h => hname h.symm)]
          exact hndmap (by simp [hin]))
      hmidS
    obtain ⟨hresmid, δ2, hδ2out, hδ2⟩ := hres
    have hfinal : doneNames ++ [name] ++ rest.map Prod.fst
        = doneNames ++ ((name, t) :: rest).map Prod.fst := by
      rw [List.map_cons, List.append_assoc]
      rfl
    refine ⟨by rw [← hfinal]; exact hresmid, δ1 ++ δ2, ?_, ?_⟩
    · rw [hδ2out, hδ1out, List.append_assoc]
    · intro e he
      rcases List.mem_append.mp he with he | he
      · exact hδ1 e he
      · exact hδ2 e he

theorem spineSpec_all (o : DifferOptions) : ∀ fuel, SpineSpec o fuel := by
  intro fuel
  induction fuel with
  | zero =>
    intro m l c s k drest md ld hfuel
    exact absurd hfuel (by have := heightTree_pos m; omega)
  | succ fuel ih =>
    intro m l c s k drest md ld hfuel hokm hokl hc hk hpaths hwr hord hnd hsafe
      hsubm hsubl hequiv
    cases drest with
    | nil =>
      have hmd : some m = some md := hsubm
      injection hmd with hmd
      have hld : some l = some ld := hsubl
      injection hld with hld
      have hequiv' : equivTree o m l = true := by
        rw [hmd, hld]
        exact hequiv
      rw [diffDirsF_equiv_noop (fuel + 1) m hfuel o _ l s
        (okTree_nodup l hokl) hequiv']
      exact ⟨[], (List.append_nil _).symm, by simp⟩
    | cons nd rest' =>
      obtain ⟨mt', hfindm, hsubm'⟩ := subtreeAt_cons m md nd rest' hsubm
      obtain ⟨lt', hfindl, hsubl'⟩ := subtreeAt_cons l ld nd rest' hsubl
      have hmemm := dictFind_mem _ _ _ hfindm
      have hvnd : validName nd = true := (okTree_children m hokm (nd, mt')
        hmemm).1
      have hvsp : ∀ x ∈ (c ++ [nd]) ++ rest', validName x = true := by
        intro x hx
        rcases List.mem_append.mp hx with hx | hx
        · rcases List.mem_append.mp hx with hx | hx
          · exact hc x hx
          · simp at hx
            exact hx ▸ hvnd
        · exact subtree_names_valid rest' mt' md
            (okTree_children m hokm (nd, mt') hmemm).2 hsubm' x hx
      have hv' : ∀ x ∈ c ++ nd :: rest', validName x = true := by
        intro x hx
        refine hvsp x ?_
        rw [List.append_assoc]
        exact hx
      have hpaths1 : pathsOf (s.pending ++ [(renderChain c, statOf m)])
          = (ancRendersFull c).drop k := by
        show (s.pending ++ [(renderChain c, statOf m)]).map Prod.fst = _
        rw [List.map_append, ancRendersFull_eq, List.drop_append_eq_append_drop]
        rw [length_ancRenders, Nat.sub_eq_zero_of_le hk]
        show pathsOf s.pending ++ _ = _
        rw [hpaths]
        rfl
      have hwr1 : ∀ i, i < k → i ≤ c.length →
          isWrittenDir (renderChain (c.take i)) s.output := by
        intro i hik _
        exact hwr i hik (by omega)
      -- step 1: diffPush only writes prefix directories of the frame
      have hpushres : MidFrame c s.output s.pending (statOf m) []
          (diffPush o (renderChain c) (statOf m) (statOf l) s)
          ∧ ∃ δ0, (diffPush o (renderChain c) (statOf m) (statOf l) s).output
              = s.output ++ δ0
            ∧ ∀ e ∈ δ0, ¬ AncOrSelf (renderChain (c ++ nd :: rest')) e.path := by
        rcases diffPush_cases o (renderChain c) (statOf m) (statOf l) s
          with hp | hp
        · rw [hp]
          obtain ⟨hfp, hfout, hfmem, hford, hfnd, hfwr⟩ :=
            flushPending_spec o c hc
              ⟨s.pending ++ [(renderChain c, statOf m)], s.output⟩
              k hpaths1 hwr1 hord hnd
              (fun j hj q hq p hp' =>
                hsafe j hj q hq p (inU_of_ancRendersFull c p hp'))
          refine ⟨⟨⟨_, hfout, ?_, ?_⟩, Or.inr hfp,
            ⟨c.length + 1, le_refl _, ?_, ?_⟩, hford, hfnd⟩,
            _, hfout, ?_⟩
          · intro e he
            exact inU_of_ancRendersFull c _ (hfmem e he).1
          · intro q hq
            exact absurd rfl ((hfmem _ hq).2 q)
          · rw [hfp]
            rw [show (c.length + 1) = (ancRendersFull c).length from
              (length_ancRendersFull c).symm]
            rw [List.drop_length]
            rfl
          · intro i _ hile
            exact hfwr i hile
          · intro e he hanc
            exact target_prefix_excl c (nd :: rest') (by simp) hv'
              e.path (hfmem e he).1 hanc
        · rw [hp]
          refine ⟨⟨⟨[], (List.append_nil _).symm, by simp, by simp⟩, Or.inl rfl,
            ⟨k, by omega, hpaths1, ?_⟩, hord, hnd⟩,
            [], (List.append_nil _).symm, by simp⟩
          intro i hik hile
          exact hwr1 i hik hile
      obtain ⟨hmid0, δ0, hδ0out, hδ0⟩ := hpushres
      -- step 2: the merged-entry loop avoids the target cone
      have hmergedok := okTree_children m hokm
      have hlowerok := okTree_children l hokl
      have hfoldres := diffChildrenGo_spine o fuel (frameSpec_all o fuel) ih
        c s.output s.pending (statOf m) hc hsafe
        (childrenOf l) hlowerok (okTree_distinct l hokl)
        nd rest' md ld lt' hvnd hfindl hsubl' hequiv hvsp
        (childrenOf m) [] (lowerMapOf (childrenOf l))
        (diffPush o (renderChain c) (statOf m) (statOf l) s)
        (by
          intro nt hnt
          refine ⟨(hmergedok nt hnt).1, (hmergedok nt hnt).2, ?_⟩
          have := mem_childrenOf_height_lt m nt hnt
          omega)
        (okTree_distinct m hokm)
        (by intro nt _ h0; simp at h0)
        (by intro nm h0; simp at h0)
        (by
          intro kv hkv
          rw [lowerMapOf_distinct (childrenOf l) (okTree_distinct l hokl)] at hkv
          obtain ⟨nt, hnt, hnteq⟩ := List.mem_map.mp hkv
          refine ⟨nt.2, ?_, ?_⟩
          · rw [show kv.1 = nt.1 from by rw [← hnteq]]
            exact hnt
          · rw [← hnteq])
        (by
          intro t' ht'
          have h1 : dictFind (childrenOf m) nd = some t' :=
            dictFind_self_of_distinct (childrenOf m)
              (okTree_distinct m hokm) (nd, t') ht'
          rw [hfindm] at h1
          injection h1 with h1
          rw [← h1]
          exact hsubm')
        (fun _ => dictFind_lowerMapOf (childrenOf l) nd lt'
          (okTree_distinct l hokl) hfindl)
        hmid0
      obtain ⟨hmid1, δfold, hδfoldout, hδfold⟩ := hfoldres
      -- step 3: deletion markers only target siblings of the spine child
      have hlmapkeys := lowerMapOf_keys (childrenOf l) (okTree_distinct l hokl)
      have hlmapdist : distinctNames
          ((lowerMapOf (childrenOf l)).map Prod.fst) = true := by
        rw [hlmapkeys]
        exact okTree_distinct l hokl
      have hdone1valid : ∀ nm ∈ ([] : List String)
          ++ (childrenOf m).map Prod.fst, validName nm = true := by
        intro nm hnm
        simp only [List.nil_append] at hnm
        obtain ⟨nt, hnt, hnteq⟩ := List.mem_map.mp hnm
        exact hnteq ▸ (hmergedok nt hnt).1
      have hmid2 := diffFinish_fold_frame o c s.output s.pending (statOf m)
        hc hsafe
        (remainingMap (childrenOf m) (lowerMapOf (childrenOf l)))
        ([] ++ (childrenOf m).map Prod.fst)
        (diffChildrenGo (diffDirsF fuel o) o (renderChain c) (childrenOf l)
          (childrenOf m) (lowerMapOf (childrenOf l))
          (diffPush o (renderChain c) (statOf m) (statOf l) s))
        (by
          intro kv hkv
          have hmem := mem_remainingMap _ _ kv hkv
          constructor
          · rw [lowerMapOf_distinct (childrenOf l)
              (okTree_distinct l hokl)] at hmem
            obtain ⟨nt, hnt, hnteq⟩ := List.mem_map.mp hmem
            rw [show kv.1 = nt.1 from by rw [← hnteq]]
            exact (hlowerok nt hnt).1
          · simp only [List.nil_append]
            exact mem_remainingMap_not_entry _ _ hlmapdist kv hkv)
        (remainingMap_distinct _ _ hlmapdist)
        hdone1valid
        hmid1
      obtain ⟨_, δfin, hδfinout, hδfin⟩ := hmid2
      have hδfinavoid : ∀ e ∈ δfin,
          ¬ AncOrSelf (renderChain (c ++ nd :: rest')) e.path := by
        intro e he hanc
        rcases hδfin e he with hfull | ⟨nv, hnv, hnveq⟩
        · exact target_prefix_excl c (nd :: rest') (by simp) hv'
            e.path hfull hanc
        · have hvnv : validName nv.1 = true := by
            have hmem := mem_remainingMap _ _ nv hnv
            rw [lowerMapOf_distinct (childrenOf l)
              (okTree_distinct l hokl)] at hmem
            obtain ⟨nt, hnt, hnteq⟩ := List.mem_map.mp hmem
            rw [show nv.1 = nt.1 from by rw [← hnteq]]
            exact (hlowerok nt hnt).1
          have hne : nv.1 ≠ nd := by
            intro h0
            refine mem_remainingMap_not_entry _ _ hlmapdist nv hnv ?_
            rw [h0]
            exact List.mem_map.mpr ⟨(nd, mt'), hmemm, rfl⟩
          rw [hnveq] at hanc
          exact target_sibling_excl c nv.1 nd rest' hc hvnv hvnd hne hvsp
            (renderChain (c ++ [nv.1])) (Or.inr (Or.inl rfl)) hanc
      -- step 4: the final pending pop does not change the trace
      set s4 := (remainingMap (childrenOf m) (lowerMapOf (childrenOf l))).foldl
        (fun st nv => appendEvent (.delete_marker (posixJoin (renderChain c) nv.1))
          (flushPending o st))
        (diffChildrenGo (diffDirsF fuel o) o (renderChain c) (childrenOf l)
          (childrenOf m) (lowerMapOf (childrenOf l))
          (diffPush o (renderChain c) (statOf m) (statOf l) s)) with hs4
      have hunf : diffDirsF (fuel + 1) o (renderChain c) m l s
          = if s4.pending.isEmpty then s4 else ⟨s4.pending.dropLast, s4.output⟩ :=
        rfl
      have houtfin : (diffDirsF (fuel + 1) o (renderChain c) m l s).output
          = s4.output := by
        rw [hunf]
        by_cases hE : s4.pending.isEmpty
        · rw [if_pos hE]
        · rw [if_neg hE]
      refine ⟨δ0 ++ (δfold ++ δfin), ?_, ?_⟩
      · rw [houtfin, hδfinout, hδfoldout, hδ0out, List.append_assoc,
          List.append_assoc]
      · intro e he
        rcases List.mem_append.mp he with he | he
        · exact hδ0 e he
        · rcases List.mem_append.mp he with he | he
          · exact hδfold e he
          · exact hδfinavoid e he

/-- No call of the trace targets the render of chain `d` or any path
below it. -/
def AvoidsSubtree (d : List String) (out : List Event) : Prop :=
  ∀ e ∈ out, ¬ AncOrSelf (renderChain d) e.path

/-- C3: if the merged and the lower subtree rooted at directory chain
`d` are differ-equal — byte-equal regular-file contents, equal symlink
targets, and stats equal under the options filter, per `equivTree` —
then the run emits no sink call at the render of `d` or below it. -/
theorem C3_equal_subtree_silent (o : DifferOptions) (m l : FsTree)
    (d : List String) (md ld : FsTree)
    (hm : okTree m = true) (hl : okTree l = true)
    (hsm : subtreeAt m d = some md) (hsl : subtreeAt l d = some ld)
    (heq : equivTree o md ld = true) :
    AvoidsSubtree d (runDiff o m l).output := by
  obtain ⟨Δ, hout, havoid⟩ :=
    spineSpec_all o (heightTree m) m l [] ⟨[], []⟩ 0 d md ld
      le_rfl hm hl (by simp) (Nat.le_refl 0) (by rfl)
      (by intro i hi _; exact absurd hi (Nat.not_lt_zero i))
      (by intro i hi; simp at hi)
      (by intro i j hi; simp at hi)
      (by intro j hj; simp at hj)
      hsm hsl heq
  rw [List.nil_append] at hout
  have hcalc : (runDiff o m l).output = Δ := hout
  rw [hcalc]
  intro e he
  exact havoid e he

/-- A variant of `tinyTree` that differs only in the content of the
regular file `f`, outside the subtree at `d`. -/
def tinyTreeAlt : FsTree :=
  .dir ⟨0o40755, 0, 0, 0, 0, 0⟩
    [("f", .file ⟨0o100644, 0, 0, 1, 0, 0⟩ [8]),
     ("d", .dir ⟨0o40755, 0, 0, 0, 0, 0⟩
        [("g", .other ⟨0o120777, 0, 0, 1, 0, 0⟩ "f")])]

theorem C3_equal_subtree_silent_witness :
    AvoidsSubtree ["d"]
      (runDiff DifferOptions.default tinyTree tinyTreeAlt).output :=
  C3_equal_subtree_silent DifferOptions.default tinyTree tinyTreeAlt ["d"]
    (.dir ⟨0o40755, 0, 0, 0, 0, 0⟩ [("g", .other ⟨0o120777, 0, 0, 1, 0, 0⟩ "f")])
    (.dir ⟨0o40755, 0, 0, 0, 0, 0⟩ [("g", .other ⟨0o120777, 0, 0, 1, 0, 0⟩ "f")])
    (by decide) (by decide) (by rfl) (by rfl) (by decide)
